import Mathlib

/-!
# Inverse kinematics of the three-armed tilt platform (`CelestialRig`)

A shallow embedding of `src/InverseKinematics.cpp` / `src/InverseKinematics.h`.

* The C++ code works on `double`.  The embedding is written once, over any type `α` that
  carries the arithmetic the code uses (`DoubleArith`), so every definition is an ordinary
  computable function that follows the source expression by expression.
* The file-scope variables of the translation unit (the four geometry parameters and the seven
  scratch variables) are the fields of `Globals`; the constructor and `computeAngle` pass that
  record explicitly.  The class `CelestialRig` itself declares no data member.
* Properties that only depend on the data flow (which globals are read and written) are proved
  for every `α`.
* `B64` is the arithmetic of the compiled code: IEEE 754 binary64 with round to nearest, ties
  to even, signed zeros, infinities and NaN.  `+ - * /`, `sqrt` and decimal literals are
  correctly rounded, as the standard requires, and evaluate inside the logic; `acos` is the
  library function, of which only the domain behaviour is assumed.  What the code returns on
  a concrete input is decided in `B64`.
* `RVal` is the exact-real reading of the same formulas: real numbers without rounding, with
  one extra element `nan` for every outcome that is not a real number (a division by zero, a
  square root of a negative number, an arc-cosine outside `[-1, 1]`).  It says what the
  formulas mean before rounding; a statement proved in `RVal` is a statement about exact
  arithmetic.
-/

namespace InverseKinematics

/-! ## Arithmetic used by the source -/

/-- The operations on `double` that the translation unit uses: `+ - * /`, unary minus,
decimal literals, and `sqrt` / `acos` from the math library. -/
class DoubleArith (α : Type) extends Add α, Sub α, Mul α, Div α, Neg α, OfScientific α where
  /-- The library call `sqrt`. -/
  sqrt : α → α
  /-- The library call `acos`. -/
  acos : α → α

export DoubleArith (sqrt acos)

/-- The macro `#define NEXUS_X 0`. -/
def NEXUS_X : Nat := 0
/-- The macro `#define NEXUS_Y 1`. -/
def NEXUS_Y : Nat := 1
/-- The macro `#define NEXUS_Z 2`. -/
def NEXUS_Z : Nat := 2

/-! ## State: the file-scope variables -/

/-- The file-scope variables of `InverseKinematics.cpp` (lines 6-9 and 14-18). -/
structure Globals (α : Type) where
  geoBaseSpan : α
  geoPlateSpan : α
  linkPrimary : α
  linkSecondary : α
  vecNormMag : α
  vecNormZ : α
  coordX : α
  coordY : α
  coordZ : α
  vecLength : α
  arcResult : α

/-- The class `CelestialRig` of the header: it declares two member functions and no data
member, so an object carries no information. -/
structure CelestialRig where
  mk ::

section Program

variable {α : Type} [DoubleArith α]

/-- Zero-initialised file-scope variables, the state before any constructor has run. -/
def Globals.init : Globals α :=
  { geoBaseSpan := 0.0, geoPlateSpan := 0.0, linkPrimary := 0.0, linkSecondary := 0.0,
    vecNormMag := 0.0, vecNormZ := 0.0, coordX := 0.0, coordY := 0.0, coordZ := 0.0,
    vecLength := 0.0, arcResult := 0.0 }

/-- The constructor `CelestialRig::CelestialRig(double v1, double v2, double v3, double v4)`
(lines 27-32): the new object together with the globals after the four assignments. -/
def CelestialRig.new (v1 v2 v3 v4 : α) (g : Globals α) : CelestialRig × Globals α :=
  (CelestialRig.mk,
    { g with geoBaseSpan := v1, geoPlateSpan := v2, linkPrimary := v3, linkSecondary := v4 })

/-- Lines 44-47: the normalisation of the direction vector.  Returns
`(vecNormMag, normX, normY, vecNormZ)`. -/
def normalizeVec (xVec yVec : α) : α × α × α × α :=
  let vecNormMag := sqrt (xVec * xVec + yVec * yVec + 1.0)
  let normX := xVec / vecNormMag
  let normY := yVec / vecNormMag
  let vecNormZ := 1.0 / vecNormMag
  (vecNormMag, normX, normY, vecNormZ)

/-- Lines 53-56: the body of `case NEXUS_X`. -/
def caseX (g : Globals α) (zPos normX normY : α) : Globals α :=
  let coordY := g.geoBaseSpan + (g.geoPlateSpan / 2.0) * (1.0 - (normX * normX + 3.0 * g.vecNormZ * g.vecNormZ + 3.0 * g.vecNormZ) / (g.vecNormZ + 1.0 - normX * normX + (normX * normX * normX * normX - 3.0 * normX * normX * normY * normY) / ((g.vecNormZ + 1.0) * (g.vecNormZ + 1.0 - normX * normX))))
  let coordZ := zPos + g.geoPlateSpan * normY
  let vecLength := sqrt (coordY * coordY + coordZ * coordZ)
  let arcResult := acos (coordY / vecLength) + acos ((vecLength * vecLength + g.linkPrimary * g.linkPrimary - g.linkSecondary * g.linkSecondary) / (2.0 * vecLength * g.linkPrimary))
  { g with coordY := coordY, coordZ := coordZ, vecLength := vecLength, arcResult := arcResult }

/-- Lines 61-65: the body of `case NEXUS_Y`. -/
def caseY (g : Globals α) (zPos normX normY : α) : Globals α :=
  let coordX := (sqrt 3.0 / 2.0) * (g.geoPlateSpan * (1.0 - (normX * normX + sqrt 3.0 * normX * normY) / (g.vecNormZ + 1.0)) - g.geoBaseSpan)
  let coordY := coordX / sqrt 3.0
  let coordZ := zPos - (g.geoPlateSpan / 2.0) * (sqrt 3.0 * normX + normY)
  let vecLength := sqrt (coordX * coordX + coordY * coordY + coordZ * coordZ)
  let arcResult := acos ((sqrt 3.0 * coordX + coordY) / (-2.0 * vecLength)) + acos ((vecLength * vecLength + g.linkPrimary * g.linkPrimary - g.linkSecondary * g.linkSecondary) / (2.0 * vecLength * g.linkPrimary))
  { g with coordX := coordX, coordY := coordY, coordZ := coordZ, vecLength := vecLength,
           arcResult := arcResult }

/-- Lines 70-74: the body of `case NEXUS_Z`. -/
def caseZ (g : Globals α) (zPos normX normY : α) : Globals α :=
  let coordX := (sqrt 3.0 / 2.0) * (g.geoBaseSpan - g.geoPlateSpan * (1.0 - (normX * normX - sqrt 3.0 * normX * normY) / (g.vecNormZ + 1.0)))
  let coordY := -coordX / sqrt 3.0
  let coordZ := zPos + (g.geoPlateSpan / 2.0) * (sqrt 3.0 * normX - normY)
  let vecLength := sqrt (coordX * coordX + coordY * coordY + coordZ * coordZ)
  let arcResult := acos ((sqrt 3.0 * coordX - coordY) / (2.0 * vecLength)) + acos ((vecLength * vecLength + g.linkPrimary * g.linkPrimary - g.linkSecondary * g.linkSecondary) / (2.0 * vecLength * g.linkPrimary))
  { g with coordX := coordX, coordY := coordY, coordZ := coordZ, vecLength := vecLength,
           arcResult := arcResult }

/-- The member function
`double CelestialRig::computeAngle(uint8_t node, double zPos, double xVec, double yVec)`
(lines 42-81): the returned value together with the globals after the call.  `node` is the
`uint8_t` argument; the `switch` has the three cases `0`, `1`, `2` and no `default`. -/
def CelestialRig.computeAngle (_self : CelestialRig) (g : Globals α) (node : Nat)
    (zPos xVec yVec : α) : α × Globals α :=
  let n := normalizeVec xVec yVec
  let normX := n.2.1
  let normY := n.2.2.1
  let g1 : Globals α := { g with vecNormMag := n.1, vecNormZ := n.2.2.2 }
  let g2 : Globals α :=
    match node with
    | 0 => caseX g1 zPos normX normY
    | 1 => caseY g1 zPos normX normY
    | 2 => caseZ g1 zPos normX normY
    | _ => g1
  (g2.arcResult * (180.0 / 3.141592653589793), g2)

/-- The argument of the second arc-cosine of lines 56, 65 and 74, as a function of the
joint-vector length and the two link lengths. -/
def triangleArg (vecLength linkPrimary linkSecondary : α) : α :=
  (vecLength * vecLength + linkPrimary * linkPrimary - linkSecondary * linkSecondary)
    / (2.0 * vecLength * linkPrimary)

end Program

/-! ## Binary64 doubles -/

/-- An IEEE 754 binary64 datum.  `fin neg m e` is the number `(-1)^neg · m · 2^(e - 1074)`:
a zero (`m = 0`, `e = 0`), a subnormal (`m < 2^52`, `e = 0`) or a normal number
(`2^52 ≤ m < 2^53`, `e ≤ 2045`). -/
inductive B64 where
  | nan : B64
  | inf (neg : Bool) : B64
  | fin (neg : Bool) (m : Nat) (e : Nat) : B64
deriving DecidableEq

namespace B64

/-- The position of the highest set bit, in steps of 64 bits (for `n < 2^(64·fuel)`). -/
def log2Coarse : Nat → Nat → Nat → Nat
  | 0, _, acc => acc
  | fuel + 1, n, acc =>
    if n < 18446744073709551616 then acc else log2Coarse fuel (n >>> 64) (acc + 64)

/-- The position of the highest set bit, bit by bit. -/
def log2Fine : Nat → Nat → Nat → Nat
  | 0, _, acc => acc
  | fuel + 1, n, acc => if n < 2 then acc else log2Fine fuel (n >>> 1) (acc + 1)

/-- The position of the highest set bit of `n` (`⌊log₂ n⌋`), for `0 < n < 2^16384`. -/
def ilog2 (n : Nat) : Nat :=
  log2Fine 64 (n >>> log2Coarse 256 n 0) (log2Coarse 256 n 0)

/-- The exponent field of the double nearest to `(N / den) · 2^(-1074)`: the position of the
leading bit of the quotient, less the 52 further bits a significand holds (0 for a subnormal
result). -/
def roundExp (N den : Nat) : Nat :=
  (if den <<< (ilog2 N - ilog2 den) ≤ N then ilog2 N - ilog2 den
    else ilog2 N - ilog2 den - 1) - 52

/-- The integer nearest to `N / d`, ties to even. -/
def roundSig (N d : Nat) : Nat :=
  if d < 2 * (N % d) ∨ (2 * (N % d) = d ∧ N / d % 2 = 1) then N / d + 1 else N / d

/-- The double with sign `s`, significand `m ≤ 2^53` and exponent field `E`: a significand
rounded up to `2^53` moves to the next binade, an exponent beyond the largest gives an
infinity. -/
def pack (s : Bool) (m E : Nat) : B64 :=
  if m = 9007199254740992 then
    (if 2045 < E + 1 then inf s else fin s 4503599627370496 (E + 1))
  else if 2045 < E then inf s else fin s m E

/-- Round to nearest, ties to even: the double nearest to `(-1)^s · (N / den) · 2^(-1074)` for
`N, den > 0`; a result beyond the largest double is an infinity. -/
def roundPos (s : Bool) (N den : Nat) : B64 :=
  pack s (roundSig N (den <<< roundExp N den)) (roundExp N den)

/-- Unary minus. -/
def neg : B64 → B64
  | nan => nan
  | inf s => inf (!s)
  | fin s m e => fin (!s) m e

/-- Addition, correctly rounded. -/
def add : B64 → B64 → B64
  | fin s1 m1 e1, fin s2 m2 e2 =>
    if s1 = s2 then
      if m1 <<< e1 + m2 <<< e2 = 0 then fin s1 0 0 else roundPos s1 (m1 <<< e1 + m2 <<< e2) 1
    else if m1 <<< e1 = m2 <<< e2 then fin false 0 0
    else if m2 <<< e2 < m1 <<< e1 then roundPos s1 (m1 <<< e1 - m2 <<< e2) 1
    else roundPos s2 (m2 <<< e2 - m1 <<< e1) 1
  | fin _ _ _, inf s2 => inf s2
  | inf s1, fin _ _ _ => inf s1
  | inf s1, inf s2 => if s1 = s2 then inf s1 else nan
  | _, _ => nan

/-- Multiplication, correctly rounded. -/
def mul : B64 → B64 → B64
  | fin s1 m1 e1, fin s2 m2 e2 =>
    if m1 * m2 = 0 then fin (xor s1 s2) 0 0
    else roundPos (xor s1 s2) ((m1 * m2) <<< (e1 + e2)) (1 <<< 1074)
  | fin s1 m1 _, inf s2 => if m1 = 0 then nan else inf (xor s1 s2)
  | inf s1, fin s2 m2 _ => if m2 = 0 then nan else inf (xor s1 s2)
  | inf s1, inf s2 => inf (xor s1 s2)
  | _, _ => nan

/-- Division, correctly rounded. -/
def div : B64 → B64 → B64
  | fin s1 m1 e1, fin s2 m2 e2 =>
    if m2 = 0 then (if m1 = 0 then nan else inf (xor s1 s2))
    else if m1 = 0 then fin (xor s1 s2) 0 0
    else roundPos (xor s1 s2) (m1 <<< (e1 + 1074)) (m2 <<< e2)
  | fin s1 _ _, inf s2 => fin (xor s1 s2) 0 0
  | inf s1, fin s2 _ _ => inf (xor s1 s2)
  | _, _ => nan

/-- Bit-by-bit integer square root: the largest `r` below `2^(i+1)`-many candidate bits with
`r² ≤ n`. -/
def isqrtAux : Nat → Nat → Nat → Nat
  | 0, _, r => r
  | i + 1, n, r =>
    if (r + 1 <<< i) * (r + 1 <<< i) ≤ n then isqrtAux i n (r + 1 <<< i) else isqrtAux i n r

/-- The integer square root `⌊√n⌋`. -/
def isqrt (n : Nat) : Nat := isqrtAux (ilog2 n / 2 + 1) n 0

/-- Square root, correctly rounded. -/
def sqrt : B64 → B64
  | nan => nan
  | inf s => if s then nan else inf false
  | fin s m e =>
    if m = 0 then fin s 0 0
    else if s then nan
    else
      roundPos false
        (2 * isqrt (m <<< (e + 1074))
          + (if isqrt (m <<< (e + 1074)) * isqrt (m <<< (e + 1074)) = m <<< (e + 1074)
              then 0 else 1))
        2

/-- A decimal literal `m · 10^(±e)`, correctly rounded. -/
def ofDec (m : Nat) (s : Bool) (e : Nat) : B64 :=
  if m = 0 then fin false 0 0
  else if s then roundPos false (m <<< 1074) (10 ^ e)
  else roundPos false ((m * 10 ^ e) <<< 1074) 1

/-- Whether `x` is a number with `|x| ≤ 1`, the domain of the arc-cosine. -/
def inUnit : B64 → Bool
  | fin _ m e => decide (m <<< e ≤ 1 <<< 1074)
  | _ => false

/-- The order `<` of IEEE 754 on doubles (false as soon as one side is NaN). -/
def lt : B64 → B64 → Bool
  | fin s1 m1 e1, fin s2 m2 e2 =>
    match s1, s2 with
    | false, false => decide (m1 <<< e1 < m2 <<< e2)
    | false, true => false
    | true, false => decide (0 < m1 <<< e1 + m2 <<< e2)
    | true, true => decide (m2 <<< e2 < m1 <<< e1)
  | fin _ _ _, inf s2 => !s2
  | inf s1, fin _ _ _ => s1
  | inf s1, inf s2 => s1 && !s2
  | _, _ => false

/-- Whether the datum is a double in its unique representation: NaN, an infinity, a zero or
subnormal (`m < 2^52`, `e = 0`), or a normal number (`2^52 ≤ m < 2^53`, `e ≤ 2045`). -/
def IsDouble : B64 → Prop
  | fin _ m e => (m < 4503599627370496 ∧ e = 0)
      ∨ (4503599627370496 ≤ m ∧ m < 9007199254740992 ∧ e ≤ 2045)
  | _ => True

instance decIsDouble : (x : B64) → Decidable (IsDouble x)
  | nan => isTrue trivial
  | inf _ => isTrue trivial
  | fin _ m e =>
    inferInstanceAs (Decidable ((m < 4503599627370496 ∧ e = 0)
      ∨ (4503599627370496 ≤ m ∧ m < 9007199254740992 ∧ e ≤ 2045)))

/-- The order `≤` of IEEE 754 on doubles (false as soon as one side is NaN). -/
def le : B64 → B64 → Bool
  | fin s1 m1 e1, fin s2 m2 e2 =>
    match s1, s2 with
    | false, false => decide (m1 <<< e1 ≤ m2 <<< e2)
    | false, true => decide (m1 <<< e1 + m2 <<< e2 = 0)
    | true, false => true
    | true, true => decide (m2 <<< e2 ≤ m1 <<< e1)
  | fin _ _ _, inf s2 => !s2
  | inf s1, fin _ _ _ => s1
  | inf s1, inf s2 => s1 || !s2
  | _, _ => false

/-- A double that is at least `lb · 2^(-1074)`: `+∞`, or a finite double with the sign bit
clear whose magnitude `m · 2^e` is at least `lb`. -/
def AtLeast (lb : Nat) : B64 → Prop
  | inf false => True
  | fin false m e => IsDouble (fin false m e) ∧ lb ≤ m * 2 ^ e
  | _ => False

/-- Whether the datum is a number: neither NaN nor an infinity. -/
def IsFinite : B64 → Prop
  | fin _ _ _ => True
  | _ => False

instance decIsFinite : (x : B64) → Decidable (IsFinite x)
  | nan => isFalse id
  | inf _ => isFalse id
  | fin _ _ _ => isTrue trivial

/-- Whether the double holds the whole number `n`, not negative. -/
def IsWhole (n : Nat) : B64 → Prop
  | fin false m e => IsDouble (fin false m e) ∧ m <<< e = n <<< 1074
  | _ => False

instance decIsWhole (n : Nat) : (x : B64) → Decidable (IsWhole n x)
  | nan => isFalse id
  | inf _ => isFalse id
  | fin true _ _ => isFalse id
  | fin false m e =>
    inferInstanceAs (Decidable (IsDouble (fin false m e) ∧ m <<< e = n <<< 1074))

/-- Both data are NaN, or both are zeros (of any sign): what `x · 0` gives for one `x` and two
zeros. -/
def BothZero (u v : B64) : Prop :=
  (u = nan ∧ v = nan) ∨ ∃ s t, u = fin s 0 0 ∧ v = fin t 0 0

end B64

instance : Inhabited B64 := ⟨B64.nan⟩

/-- What is assumed of the library function `acos` on doubles: NaN on a NaN and on every
argument outside `[-1, 1]` (C99 Annex F.9.1.1), a finite double with the sign bit clear on
every argument inside, and the same result on `-0.0` as on `+0.0`.  The digits of the result
are left open: they differ between C libraries. -/
def AcosSpec (f : B64 → B64) : Prop :=
  (∀ x, B64.inUnit x = false → f x = B64.nan)
  ∧ (∀ x, B64.inUnit x = true → ∃ m e, f x = B64.fin false m e)
  ∧ f (B64.fin true 0 0) = f (B64.fin false 0 0)

/-- The library call `acos` on doubles: some function that meets `AcosSpec`. -/
noncomputable def libmAcos : B64 → B64 := Classical.epsilon AcosSpec

/-- The arithmetic of the compiled code on binary64 doubles. -/
noncomputable instance : DoubleArith B64 where
  add := B64.add
  sub a b := B64.add a (B64.neg b)
  mul := B64.mul
  div := B64.div
  neg := B64.neg
  ofScientific := B64.ofDec
  sqrt := B64.sqrt
  acos := libmAcos

/-! ## Exact reals -/

/-- An exact real number, or `nan` for every outcome of an operation that is not a real
number.  This is the arithmetic of the formulas before rounding, not the arithmetic of the
compiled code (that is `B64`): nothing rounds, overflows or underflows here.  IEEE arithmetic
gives `±∞` rather than NaN for a non-zero number divided by zero; in this translation unit
every such quotient feeds the quotient `coordY / vecLength` (then `∞ / ∞`) or an arc-cosine
before the function returns. -/
inductive RVal where
  | nan : RVal
  | fin (r : ℝ) : RVal

namespace RVal

/-- Lift a total binary operation; `nan` is absorbing. -/
def lift2 (f : ℝ → ℝ → ℝ) : RVal → RVal → RVal
  | fin a, fin b => fin (f a b)
  | _, _ => nan

/-- Division: dividing by zero gives no real number. -/
noncomputable def div : RVal → RVal → RVal
  | fin a, fin b => if b = 0 then nan else fin (a / b)
  | _, _ => nan

/-- Negation. -/
def neg : RVal → RVal
  | fin a => fin (-a)
  | nan => nan

/-- Square root: a negative argument gives no real number. -/
noncomputable def sqrt : RVal → RVal
  | fin a => if a < 0 then nan else fin (Real.sqrt a)
  | nan => nan

/-- Arc-cosine: an argument outside `[-1, 1]` gives no real number. -/
noncomputable def acos : RVal → RVal
  | fin a => if -1 ≤ a ∧ a ≤ 1 then fin (Real.arccos a) else nan
  | nan => nan

noncomputable instance : DoubleArith RVal where
  add := lift2 (· + ·)
  sub := lift2 (· - ·)
  mul := lift2 (· * ·)
  div := div
  neg := neg
  ofScientific m s e := fin (OfScientific.ofScientific m s e)
  sqrt := sqrt
  acos := acos

end RVal

/-! ## Real-number reading of the intermediate quantities

The functions below restate single source lines over `ℝ`; they are only used to state and
prove properties, and `computeAngle_X_eq`, `computeAngle_Y_eq`, `computeAngle_Z_eq` connect
them to the program. -/

namespace Ideal

/-- Line 44 over the reals: `vecNormMag`. -/
noncomputable def mag (x y : ℝ) : ℝ := Real.sqrt (x * x + y * y + 1)

/-- The first denominator of line 53: `(vecNormZ + 1) * (vecNormZ + 1 - normX²)`. -/
def xInner (nx nz : ℝ) : ℝ := (nz + 1) * (nz + 1 - nx * nx)

/-- The second denominator of line 53. -/
noncomputable def xDen (nx ny nz : ℝ) : ℝ :=
  nz + 1 - nx * nx + (nx * nx * nx * nx - 3 * nx * nx * ny * ny) / xInner nx nz

/-- Line 53 over the reals: `coordY` of branch X. -/
noncomputable def xCoordY (G P nx ny nz : ℝ) : ℝ :=
  G + P / 2 * (1 - (nx * nx + 3 * nz * nz + 3 * nz) / xDen nx ny nz)

/-- Line 54 over the reals: `coordZ` of branch X. -/
def xCoordZ (P z ny : ℝ) : ℝ := z + P * ny

/-- Line 55 over the reals: `vecLength` of branch X. -/
noncomputable def xLen (G P z nx ny nz : ℝ) : ℝ :=
  Real.sqrt (xCoordY G P nx ny nz * xCoordY G P nx ny nz + xCoordZ P z ny * xCoordZ P z ny)

/-- Line 61 over the reals: `coordX` of branch Y. -/
noncomputable def yCoordX (G P nx ny nz : ℝ) : ℝ :=
  Real.sqrt 3 / 2 * (P * (1 - (nx * nx + Real.sqrt 3 * nx * ny) / (nz + 1)) - G)

/-- Line 62 over the reals: `coordY` of branch Y. -/
noncomputable def yCoordY (G P nx ny nz : ℝ) : ℝ := yCoordX G P nx ny nz / Real.sqrt 3

/-- Line 63 over the reals: `coordZ` of branch Y. -/
noncomputable def yCoordZ (P z nx ny : ℝ) : ℝ := z - P / 2 * (Real.sqrt 3 * nx + ny)

/-- Line 64 over the reals: `vecLength` of branch Y. -/
noncomputable def yLen (G P z nx ny nz : ℝ) : ℝ :=
  Real.sqrt (yCoordX G P nx ny nz * yCoordX G P nx ny nz
    + yCoordY G P nx ny nz * yCoordY G P nx ny nz + yCoordZ P z nx ny * yCoordZ P z nx ny)

/-- The horizontal reach of branch Y: line 61 is `-(√3 / 2)` times this quantity. -/
noncomputable def yRad (G P nx ny nz : ℝ) : ℝ :=
  G - P * (1 - (nx * nx + Real.sqrt 3 * nx * ny) / (nz + 1))

/-- Line 70 over the reals: `coordX` of branch Z. -/
noncomputable def zCoordX (G P nx ny nz : ℝ) : ℝ :=
  Real.sqrt 3 / 2 * (G - P * (1 - (nx * nx - Real.sqrt 3 * nx * ny) / (nz + 1)))

/-- Line 71 over the reals: `coordY` of branch Z. -/
noncomputable def zCoordY (G P nx ny nz : ℝ) : ℝ := -zCoordX G P nx ny nz / Real.sqrt 3

/-- Line 72 over the reals: `coordZ` of branch Z. -/
noncomputable def zCoordZ (P z nx ny : ℝ) : ℝ := z + P / 2 * (Real.sqrt 3 * nx - ny)

/-- Line 73 over the reals: `vecLength` of branch Z. -/
noncomputable def zLen (G P z nx ny nz : ℝ) : ℝ :=
  Real.sqrt (zCoordX G P nx ny nz * zCoordX G P nx ny nz
    + zCoordY G P nx ny nz * zCoordY G P nx ny nz + zCoordZ P z nx ny * zCoordZ P z nx ny)

/-- The radians-to-degrees factor of line 80, the exact quotient of the two decimals. -/
noncomputable def degFactor : ℝ := 180 / 3.141592653589793

/-- The argument of the second arc-cosine of lines 56, 65 and 74 over the reals. -/
noncomputable def triArg (L l1 l2 : ℝ) : ℝ := (L * L + l1 * l1 - l2 * l2) / (2 * L * l1)

end Ideal

/-- The last operations of every branch on real coordinates: the sum of the two arc-cosines
(lines 56, 65, 74) applied to `num / den` and to the law-of-cosines quotient, then the
conversion of line 80. -/
noncomputable def finish (num den L : ℝ) (l1 l2 : RVal) : RVal :=
  (acos (RVal.fin num / RVal.fin den)
    + acos ((RVal.fin L * RVal.fin L + l1 * l1 - l2 * l2) / (RVal.fin 2 * RVal.fin L * l1)))
  * RVal.fin Ideal.degFactor

/-- What branch X returns, by cases on which inputs are real numbers. -/
noncomputable def denoteX (G P z x y l1 l2 : RVal) : RVal :=
  match G, P, z, x, y with
  | .fin G, .fin P, .fin z, .fin x, .fin y =>
    if Ideal.xDen (x / Ideal.mag x y) (y / Ideal.mag x y) (1 / Ideal.mag x y) = 0 then .nan
    else
      finish (Ideal.xCoordY G P (x / Ideal.mag x y) (y / Ideal.mag x y) (1 / Ideal.mag x y))
        (Ideal.xLen G P z (x / Ideal.mag x y) (y / Ideal.mag x y) (1 / Ideal.mag x y))
        (Ideal.xLen G P z (x / Ideal.mag x y) (y / Ideal.mag x y) (1 / Ideal.mag x y)) l1 l2
  | _, _, _, _, _ => .nan

/-- What branch Y returns, by cases on which inputs are real numbers. -/
noncomputable def denoteY (G P z x y l1 l2 : RVal) : RVal :=
  match G, P, z, x, y with
  | .fin G, .fin P, .fin z, .fin x, .fin y =>
    finish
      (Real.sqrt 3 * Ideal.yCoordX G P (x / Ideal.mag x y) (y / Ideal.mag x y) (1 / Ideal.mag x y)
        + Ideal.yCoordY G P (x / Ideal.mag x y) (y / Ideal.mag x y) (1 / Ideal.mag x y))
      (-2 * Ideal.yLen G P z (x / Ideal.mag x y) (y / Ideal.mag x y) (1 / Ideal.mag x y))
      (Ideal.yLen G P z (x / Ideal.mag x y) (y / Ideal.mag x y) (1 / Ideal.mag x y)) l1 l2
  | _, _, _, _, _ => .nan

/-- What branch Z returns, by cases on which inputs are real numbers. -/
noncomputable def denoteZ (G P z x y l1 l2 : RVal) : RVal :=
  match G, P, z, x, y with
  | .fin G, .fin P, .fin z, .fin x, .fin y =>
    finish
      (Real.sqrt 3 * Ideal.zCoordX G P (x / Ideal.mag x y) (y / Ideal.mag x y) (1 / Ideal.mag x y)
        - Ideal.zCoordY G P (x / Ideal.mag x y) (y / Ideal.mag x y) (1 / Ideal.mag x y))
      (2 * Ideal.zLen G P z (x / Ideal.mag x y) (y / Ideal.mag x y) (1 / Ideal.mag x y))
      (Ideal.zLen G P z (x / Ideal.mag x y) (y / Ideal.mag x y) (1 / Ideal.mag x y)) l1 l2
  | _, _, _, _, _ => .nan

/-! ## Arithmetic lemmas for idealised doubles -/

namespace RVal

@[simp] theorem fin_add_fin (a b : ℝ) : fin a + fin b = fin (a + b) := rfl
@[simp] theorem fin_sub_fin (a b : ℝ) : fin a - fin b = fin (a - b) := rfl
@[simp] theorem fin_mul_fin (a b : ℝ) : fin a * fin b = fin (a * b) := rfl
@[simp] theorem neg_fin (a : ℝ) : -fin a = fin (-a) := rfl
@[simp] theorem nan_add (v : RVal) : nan + v = nan := rfl
@[simp] theorem add_nan (v : RVal) : v + nan = nan := by cases v <;> rfl
@[simp] theorem nan_sub (v : RVal) : nan - v = nan := rfl
@[simp] theorem sub_nan (v : RVal) : v - nan = nan := by cases v <;> rfl
@[simp] theorem nan_mul (v : RVal) : nan * v = nan := rfl
@[simp] theorem mul_nan (v : RVal) : v * nan = nan := by cases v <;> rfl
@[simp] theorem nan_div (v : RVal) : nan / v = nan := rfl
@[simp] theorem div_nan (v : RVal) : v / nan = nan := by cases v <;> rfl
@[simp] theorem neg_nan : -nan = nan := rfl
@[simp] theorem sqrt_nan : DoubleArith.sqrt nan = nan := rfl
@[simp] theorem acos_nan : DoubleArith.acos nan = nan := rfl
@[simp] theorem ofScientific_eq (m : Nat) (s : Bool) (e : Nat) :
    (OfScientific.ofScientific m s e : RVal) = fin (OfScientific.ofScientific m s e) := rfl

theorem fin_div_fin (a b : ℝ) : fin a / fin b = if b = 0 then nan else fin (a / b) := rfl

theorem fin_div_fin_of_ne (a : ℝ) {b : ℝ} (h : b ≠ 0) : fin a / fin b = fin (a / b) := by
  rw [fin_div_fin, if_neg h]

@[simp] theorem fin_div_zero (a : ℝ) : fin a / fin 0 = nan := by
  rw [fin_div_fin, if_pos rfl]

theorem sqrt_fin (a : ℝ) :
    DoubleArith.sqrt (fin a) = if a < 0 then nan else fin (Real.sqrt a) := rfl

theorem sqrt_fin_of_nonneg {a : ℝ} (h : 0 ≤ a) : DoubleArith.sqrt (fin a) = fin (Real.sqrt a) := by
  rw [sqrt_fin, if_neg (not_lt.mpr h)]

theorem acos_fin (a : ℝ) :
    DoubleArith.acos (fin a) = if -1 ≤ a ∧ a ≤ 1 then fin (Real.arccos a) else nan := rfl

theorem acos_fin_of_mem {a : ℝ} (h₁ : -1 ≤ a) (h₂ : a ≤ 1) :
    DoubleArith.acos (fin a) = fin (Real.arccos a) := by
  rw [acos_fin, if_pos ⟨h₁, h₂⟩]

end RVal

open RVal Ideal

/-! ## From the program to the real-number reading -/

theorem lit_one : (1.0 : ℝ) = 1 := by norm_num
theorem lit_two : (2.0 : ℝ) = 2 := by norm_num
theorem lit_three : (3.0 : ℝ) = 3 := by norm_num
theorem lit_180 : (180.0 : ℝ) = 180 := by norm_num

theorem mag_pos (x y : ℝ) : 0 < mag x y := by
  unfold mag
  apply Real.sqrt_pos.mpr
  nlinarith [mul_self_nonneg x, mul_self_nonneg y]

theorem mag_mul_self (x y : ℝ) : mag x y * mag x y = x * x + y * y + 1 := by
  unfold mag
  exact Real.mul_self_sqrt (by nlinarith [mul_self_nonneg x, mul_self_nonneg y])

theorem normalizeVec_fin (x y : ℝ) :
    normalizeVec (fin x) (fin y)
      = (fin (mag x y), fin (x / mag x y), fin (y / mag x y), fin (1 / mag x y)) := by
  have h0 : (0 : ℝ) ≤ x * x + y * y + 1 := by nlinarith [mul_self_nonneg x, mul_self_nonneg y]
  have hm : Real.sqrt (x * x + y * y + 1) ≠ 0 := (mag_pos x y).ne'
  simp only [normalizeVec, ofScientific_eq, lit_one, fin_mul_fin, fin_add_fin,
    sqrt_fin_of_nonneg h0, fin_div_fin_of_ne _ hm, mag]

theorem normalizeVec_nan_left (y : RVal) : normalizeVec nan y = (nan, nan, nan, nan) := by
  cases y <;> simp [normalizeVec]

theorem normalizeVec_nan_right (x : RVal) : normalizeVec x nan = (nan, nan, nan, nan) := by
  cases x <;> simp [normalizeVec]

theorem sqrt_three_ne_zero : Real.sqrt 3 ≠ 0 := (Real.sqrt_pos.mpr (by norm_num)).ne'

theorem sqrt_three_mul_self : Real.sqrt 3 * Real.sqrt 3 = 3 :=
  Real.mul_self_sqrt (by norm_num)

theorem degFactor_pos : 0 < degFactor := by unfold degFactor; norm_num

theorem caseY_fin (g : Globals RVal) (G P z nx ny nz : ℝ) (hG : g.geoBaseSpan = fin G)
    (hP : g.geoPlateSpan = fin P) (hz : g.vecNormZ = fin nz) (hnz : nz + 1 ≠ 0) :
    (caseY g (fin z) (fin nx) (fin ny)).arcResult * (180.0 / 3.141592653589793)
      = finish (Real.sqrt 3 * yCoordX G P nx ny nz + yCoordY G P nx ny nz)
          (-2 * yLen G P z nx ny nz) (yLen G P z nx ny nz) g.linkPrimary g.linkSecondary := by
  have h3 : (0 : ℝ) ≤ 3 := by norm_num
  have h2 : (2 : ℝ) ≠ 0 := by norm_num
  have hpi : (3.141592653589793 : ℝ) ≠ 0 := by norm_num
  have hL : (0 : ℝ) ≤ yCoordX G P nx ny nz * yCoordX G P nx ny nz
      + yCoordY G P nx ny nz * yCoordY G P nx ny nz + yCoordZ P z nx ny * yCoordZ P z nx ny := by
    nlinarith [mul_self_nonneg (yCoordX G P nx ny nz), mul_self_nonneg (yCoordY G P nx ny nz),
      mul_self_nonneg (yCoordZ P z nx ny)]
  unfold yCoordY yCoordX yCoordZ at hL
  simp only [caseY, hG, hP, hz, ofScientific_eq, lit_one, lit_two, lit_three, lit_180,
    fin_mul_fin, fin_add_fin, fin_sub_fin, neg_fin, sqrt_fin_of_nonneg h3,
    fin_div_fin_of_ne _ sqrt_three_ne_zero, fin_div_fin_of_ne _ h2, fin_div_fin_of_ne _ hnz,
    fin_div_fin_of_ne _ hpi, sqrt_fin_of_nonneg hL, finish, yLen, yCoordY, yCoordX, yCoordZ,
    degFactor]

theorem caseZ_fin (g : Globals RVal) (G P z nx ny nz : ℝ) (hG : g.geoBaseSpan = fin G)
    (hP : g.geoPlateSpan = fin P) (hz : g.vecNormZ = fin nz) (hnz : nz + 1 ≠ 0) :
    (caseZ g (fin z) (fin nx) (fin ny)).arcResult * (180.0 / 3.141592653589793)
      = finish (Real.sqrt 3 * zCoordX G P nx ny nz - zCoordY G P nx ny nz)
          (2 * zLen G P z nx ny nz) (zLen G P z nx ny nz) g.linkPrimary g.linkSecondary := by
  have h3 : (0 : ℝ) ≤ 3 := by norm_num
  have h2 : (2 : ℝ) ≠ 0 := by norm_num
  have hpi : (3.141592653589793 : ℝ) ≠ 0 := by norm_num
  have hL : (0 : ℝ) ≤ zCoordX G P nx ny nz * zCoordX G P nx ny nz
      + zCoordY G P nx ny nz * zCoordY G P nx ny nz + zCoordZ P z nx ny * zCoordZ P z nx ny := by
    nlinarith [mul_self_nonneg (zCoordX G P nx ny nz), mul_self_nonneg (zCoordY G P nx ny nz),
      mul_self_nonneg (zCoordZ P z nx ny)]
  unfold zCoordY zCoordX zCoordZ at hL
  simp only [caseZ, hG, hP, hz, ofScientific_eq, lit_one, lit_two, lit_three, lit_180,
    fin_mul_fin, fin_add_fin, fin_sub_fin, neg_fin, sqrt_fin_of_nonneg h3,
    fin_div_fin_of_ne _ sqrt_three_ne_zero, fin_div_fin_of_ne _ h2, fin_div_fin_of_ne _ hnz,
    fin_div_fin_of_ne _ hpi, sqrt_fin_of_nonneg hL, finish, zLen, zCoordY, zCoordX, zCoordZ,
    degFactor]

theorem caseX_fin (g : Globals RVal) (G P z nx ny nz : ℝ) (hG : g.geoBaseSpan = fin G)
    (hP : g.geoPlateSpan = fin P) (hz : g.vecNormZ = fin nz) (hin : xInner nx nz ≠ 0)
    (hD : xDen nx ny nz ≠ 0) :
    (caseX g (fin z) (fin nx) (fin ny)).arcResult * (180.0 / 3.141592653589793)
      = finish (xCoordY G P nx ny nz) (xLen G P z nx ny nz) (xLen G P z nx ny nz)
          g.linkPrimary g.linkSecondary := by
  have h2 : (2 : ℝ) ≠ 0 := by norm_num
  have hpi : (3.141592653589793 : ℝ) ≠ 0 := by norm_num
  have hL : (0 : ℝ) ≤ xCoordY G P nx ny nz * xCoordY G P nx ny nz
      + xCoordZ P z ny * xCoordZ P z ny := by
    nlinarith [mul_self_nonneg (xCoordY G P nx ny nz), mul_self_nonneg (xCoordZ P z ny)]
  unfold xCoordY xCoordZ xDen xInner at hL
  unfold xDen xInner at hD
  unfold xInner at hin
  simp only [caseX, hG, hP, hz, ofScientific_eq, lit_one, lit_two, lit_three, lit_180,
    fin_mul_fin, fin_add_fin, fin_sub_fin, neg_fin, fin_div_fin_of_ne _ h2,
    fin_div_fin_of_ne _ hin, fin_div_fin_of_ne _ hD,
    fin_div_fin_of_ne _ hpi, sqrt_fin_of_nonneg hL, finish, xLen, xCoordY, xCoordZ, xDen, xInner,
    degFactor]

theorem caseX_fin_zero (g : Globals RVal) (G P z nx ny nz : ℝ) (hG : g.geoBaseSpan = fin G)
    (hP : g.geoPlateSpan = fin P) (hz : g.vecNormZ = fin nz) (hin : xInner nx nz ≠ 0)
    (hD : xDen nx ny nz = 0) :
    (caseX g (fin z) (fin nx) (fin ny)).arcResult * (180.0 / 3.141592653589793) = nan := by
  have h2 : (2 : ℝ) ≠ 0 := by norm_num
  unfold xDen xInner at hD
  unfold xInner at hin
  simp only [caseX, hG, hP, hz, ofScientific_eq, lit_one, lit_two, lit_three, lit_180,
    fin_mul_fin, fin_add_fin, fin_sub_fin, neg_fin, fin_div_fin_of_ne _ h2,
    fin_div_fin_of_ne _ hin, hD, fin_div_zero, sub_nan, mul_nan, add_nan, nan_mul, nan_add,
    nan_div, sqrt_nan, acos_nan]

theorem normX_sq_lt_one (x y : ℝ) : x / mag x y * (x / mag x y) < 1 := by
  have hm := mag_pos x y
  have h := mag_mul_self x y
  rw [div_mul_div_comm, div_lt_one (by positivity)]
  nlinarith [mul_self_nonneg y]

theorem normZ_pos (x y : ℝ) : 0 < 1 / mag x y := by
  have hm := mag_pos x y
  positivity

theorem normZ_add_one_ne_zero (x y : ℝ) : 1 / mag x y + 1 ≠ 0 := by
  have := normZ_pos x y
  linarith

theorem xInner_pos (x y : ℝ) : 0 < xInner (x / mag x y) (1 / mag x y) := by
  have h1 := normZ_pos x y
  have h2 := normX_sq_lt_one x y
  unfold xInner
  apply mul_pos <;> linarith

theorem computeAngle_Y_eq (r : CelestialRig) (g : Globals RVal) (z x y : RVal) :
    (r.computeAngle g NEXUS_Y z x y).1
      = denoteY g.geoBaseSpan g.geoPlateSpan z x y g.linkPrimary g.linkSecondary := by
  show (caseY _ z _ _).arcResult * (180.0 / 3.141592653589793) = _
  cases x with
  | nan => 
    rw [normalizeVec_nan_left]
    simp [caseY, denoteY]
  | fin x => 
  cases y with
  | nan => 
    rw [normalizeVec_nan_right]
    simp [caseY, denoteY]
  | fin y =>
  rw [normalizeVec_fin]
  cases hG : g.geoBaseSpan with
  | nan => simp [caseY, denoteY, hG]
  | fin G =>
  cases hP : g.geoPlateSpan with
  | nan => simp [caseY, denoteY, hP]
  | fin P =>
  cases z with
  | nan => simp [caseY, denoteY]
  | fin z =>
  exact caseY_fin _ G P z _ _ _ rfl rfl rfl (normZ_add_one_ne_zero x y)

theorem computeAngle_Z_eq (r : CelestialRig) (g : Globals RVal) (z x y : RVal) :
    (r.computeAngle g NEXUS_Z z x y).1
      = denoteZ g.geoBaseSpan g.geoPlateSpan z x y g.linkPrimary g.linkSecondary := by
  show (caseZ _ z _ _).arcResult * (180.0 / 3.141592653589793) = _
  cases x with
  | nan => 
    rw [normalizeVec_nan_left]
    simp [caseZ, denoteZ]
  | fin x => 
  cases y with
  | nan => 
    rw [normalizeVec_nan_right]
    simp [caseZ, denoteZ]
  | fin y =>
  rw [normalizeVec_fin]
  cases hG : g.geoBaseSpan with
  | nan => simp [caseZ, denoteZ, hG]
  | fin G =>
  cases hP : g.geoPlateSpan with
  | nan => simp [caseZ, denoteZ, hP]
  | fin P =>
  cases z with
  | nan => simp [caseZ, denoteZ]
  | fin z =>
  exact caseZ_fin _ G P z _ _ _ rfl rfl rfl (normZ_add_one_ne_zero x y)

theorem computeAngle_X_eq (r : CelestialRig) (g : Globals RVal) (z x y : RVal) :
    (r.computeAngle g NEXUS_X z x y).1
      = denoteX g.geoBaseSpan g.geoPlateSpan z x y g.linkPrimary g.linkSecondary := by
  show (caseX _ z _ _).arcResult * (180.0 / 3.141592653589793) = _
  cases x with
  | nan => 
    rw [normalizeVec_nan_left]
    simp [caseX, denoteX]
  | fin x => 
  cases y with
  | nan => 
    rw [normalizeVec_nan_right]
    simp [caseX, denoteX]
  | fin y =>
  rw [normalizeVec_fin]
  cases hG : g.geoBaseSpan with
  | nan => simp [caseX, denoteX, hG]
  | fin G =>
  cases hP : g.geoPlateSpan with
  | nan => simp [caseX, denoteX, hP]
  | fin P =>
  cases z with
  | nan => simp [caseX, denoteX]
  | fin z =>
  by_cases hD : xDen (x / mag x y) (y / mag x y) (1 / mag x y) = 0
  · rw [caseX_fin_zero _ G P z _ _ _ rfl rfl rfl (xInner_pos x y).ne' hD]
    simp only [denoteX, if_pos hD]
  · rw [caseX_fin _ G P z _ _ _ rfl rfl rfl (xInner_pos x y).ne' hD]
    simp only [denoteX, if_neg hD]

/-! ## Algebra of the real-number reading -/

theorem finish_scale (c num den L : ℝ) (l1 l2 : RVal) (hc : c ≠ 0) :
    finish (c * num) (c * den) L l1 l2 = finish num den L l1 l2 := by
  unfold finish
  by_cases hd : den = 0
  · subst hd
    simp
  · rw [fin_div_fin_of_ne _ (mul_ne_zero hc hd), fin_div_fin_of_ne _ hd, mul_div_mul_left _ _ hc]

theorem mag_neg_left (x y : ℝ) : mag (-x) y = mag x y := by
  unfold mag
  congr 1
  ring

theorem mag_rot (x y : ℝ) :
    mag (-x / 2 - Real.sqrt 3 / 2 * y) (Real.sqrt 3 / 2 * x - y / 2) = mag x y := by
  unfold mag
  congr 1
  linear_combination ((x * x + y * y) / 4) * sqrt_three_mul_self

theorem yCoord_neg (G P z nx ny nz : ℝ) :
    yCoordX G P (-nx) ny nz = -zCoordX G P nx ny nz
    ∧ yCoordY G P (-nx) ny nz = zCoordY G P nx ny nz
    ∧ yCoordZ P z (-nx) ny = zCoordZ P z nx ny
    ∧ yLen G P z (-nx) ny nz = zLen G P z nx ny nz := by
  have h1 : yCoordX G P (-nx) ny nz = -zCoordX G P nx ny nz := by
    unfold yCoordX zCoordX; ring
  have h2 : yCoordY G P (-nx) ny nz = zCoordY G P nx ny nz := by
    unfold yCoordY zCoordY; rw [h1]
  have h3 : yCoordZ P z (-nx) ny = zCoordZ P z nx ny := by
    unfold yCoordZ zCoordZ; ring
  refine ⟨h1, h2, h3, ?_⟩
  unfold yLen zLen
  rw [h1, h2, h3]
  congr 1
  ring

theorem zCoord_rot (G P z nx ny nz : ℝ) :
    zCoordX G P (-nx / 2 - Real.sqrt 3 / 2 * ny) (Real.sqrt 3 / 2 * nx - ny / 2) nz
      = -yCoordX G P nx ny nz
    ∧ zCoordY G P (-nx / 2 - Real.sqrt 3 / 2 * ny) (Real.sqrt 3 / 2 * nx - ny / 2) nz
      = yCoordY G P nx ny nz
    ∧ zCoordZ P z (-nx / 2 - Real.sqrt 3 / 2 * ny) (Real.sqrt 3 / 2 * nx - ny / 2)
      = yCoordZ P z nx ny
    ∧ zLen G P z (-nx / 2 - Real.sqrt 3 / 2 * ny) (Real.sqrt 3 / 2 * nx - ny / 2) nz
      = yLen G P z nx ny nz := by
  have h1 : zCoordX G P (-nx / 2 - Real.sqrt 3 / 2 * ny) (Real.sqrt 3 / 2 * nx - ny / 2) nz
      = -yCoordX G P nx ny nz := by
    unfold yCoordX zCoordX
    linear_combination
      (Real.sqrt 3 / 8 * P * (nx * nx + Real.sqrt 3 * nx * ny) / (nz + 1))
        * sqrt_three_mul_self
  have h2 : zCoordY G P (-nx / 2 - Real.sqrt 3 / 2 * ny) (Real.sqrt 3 / 2 * nx - ny / 2) nz
      = yCoordY G P nx ny nz := by
    unfold yCoordY zCoordY; rw [h1, neg_neg]
  have h3 : zCoordZ P z (-nx / 2 - Real.sqrt 3 / 2 * ny) (Real.sqrt 3 / 2 * nx - ny / 2)
      = yCoordZ P z nx ny := by
    unfold yCoordZ zCoordZ
    linear_combination (-(P / 4) * ny) * sqrt_three_mul_self
  refine ⟨h1, h2, h3, ?_⟩
  unfold yLen zLen
  rw [h1, h2, h3]
  congr 1
  ring

theorem denoteY_neg_eq_denoteZ (G P z x y l1 l2 : RVal) :
    denoteY G P z (-x) y l1 l2 = denoteZ G P z x y l1 l2 := by
  cases G <;> cases P <;> cases z <;> cases x <;> cases y <;>
    simp only [denoteY, denoteZ, neg_fin, neg_nan]
  rename_i G P z x y
  rw [mag_neg_left, neg_div]
  obtain ⟨h1, h2, h3, h4⟩ := yCoord_neg G P z (x / mag x y) (y / mag x y) (1 / mag x y)
  rw [h1, h2, h4, ← finish_scale (-1) _ (2 * _) _ _ _ (by norm_num)]
  congr 1 <;> ring

theorem denoteY_eq_denoteZ_rot (G P z l1 l2 : RVal) (x y : ℝ) :
    denoteY G P z (fin x) (fin y) l1 l2
      = denoteZ G P z (fin (-x / 2 - Real.sqrt 3 / 2 * y)) (fin (Real.sqrt 3 / 2 * x - y / 2))
          l1 l2 := by
  cases G <;> cases P <;> cases z <;> simp only [denoteY, denoteZ]
  rename_i G P z
  rw [mag_rot]
  have hx : (-x / 2 - Real.sqrt 3 / 2 * y) / mag x y
      = -(x / mag x y) / 2 - Real.sqrt 3 / 2 * (y / mag x y) := by ring
  have hy : (Real.sqrt 3 / 2 * x - y / 2) / mag x y
      = Real.sqrt 3 / 2 * (x / mag x y) - y / mag x y / 2 := by ring
  rw [hx, hy]
  obtain ⟨h1, h2, h3, h4⟩ := zCoord_rot G P z (x / mag x y) (y / mag x y) (1 / mag x y)
  rw [h1, h2, h4, ← finish_scale (-1) _ (-2 * _) _ _ _ (by norm_num)]
  congr 1 <;> ring

/-! ## The untilted pose -/

theorem mag_zero_zero : mag 0 0 = 1 := by
  unfold mag
  norm_num

theorem xCoord_untilted (G P z : ℝ) :
    xDen 0 0 1 = 2 ∧ xCoordY G P 0 0 1 = G - P
      ∧ xLen G P z 0 0 1 = Real.sqrt ((G - P) * (G - P) + z * z) := by
  have h1 : xDen 0 0 1 = 2 := by unfold xDen xInner; norm_num
  have h2 : xCoordY G P 0 0 1 = G - P := by unfold xCoordY; rw [h1]; ring
  refine ⟨h1, h2, ?_⟩
  unfold xLen xCoordZ
  rw [h2]
  congr 1
  ring

theorem yCoord_untilted (G P z : ℝ) :
    Real.sqrt 3 * yCoordX G P 0 0 1 + yCoordY G P 0 0 1 = -2 * (G - P)
      ∧ yLen G P z 0 0 1 = Real.sqrt ((G - P) * (G - P) + z * z) := by
  have h3 := sqrt_three_mul_self
  have hX : yCoordX G P 0 0 1 = Real.sqrt 3 / 2 * (P - G) := by
    unfold yCoordX; norm_num
  have hY : yCoordY G P 0 0 1 = (P - G) / 2 := by
    unfold yCoordY; rw [hX]; field_simp [sqrt_three_ne_zero]; ring
  have hZ : yCoordZ P z 0 0 = z := by
    unfold yCoordZ; norm_num
  constructor
  · rw [hX, hY]
    linear_combination ((P - G) / 2) * h3
  · unfold yLen
    rw [hX, hY, hZ]
    congr 1
    linear_combination ((P - G) * (P - G) / 4) * h3

theorem zCoord_untilted (G P z : ℝ) :
    Real.sqrt 3 * zCoordX G P 0 0 1 - zCoordY G P 0 0 1 = 2 * (G - P)
      ∧ zLen G P z 0 0 1 = Real.sqrt ((G - P) * (G - P) + z * z) := by
  have h3 := sqrt_three_mul_self
  have hX : zCoordX G P 0 0 1 = Real.sqrt 3 / 2 * (G - P) := by
    unfold zCoordX; norm_num
  have hY : zCoordY G P 0 0 1 = -(G - P) / 2 := by
    unfold zCoordY; rw [hX]; field_simp [sqrt_three_ne_zero]; ring
  have hZ : zCoordZ P z 0 0 = z := by
    unfold zCoordZ; norm_num
  constructor
  · rw [hX, hY]
    linear_combination ((G - P) / 2) * h3
  · unfold zLen
    rw [hX, hY, hZ]
    congr 1
    linear_combination ((P - G) * (P - G) / 4) * h3

theorem denoteX_untilted (G P z : ℝ) (l1 l2 : RVal) :
    denoteX (fin G) (fin P) (fin z) (fin 0) (fin 0) l1 l2
      = finish (G - P) (Real.sqrt ((G - P) * (G - P) + z * z))
          (Real.sqrt ((G - P) * (G - P) + z * z)) l1 l2 := by
  obtain ⟨h1, h2, h3⟩ := xCoord_untilted G P z
  simp only [denoteX, mag_zero_zero, zero_div, div_one, h1, h2, h3]
  norm_num

theorem denoteY_untilted (G P z : ℝ) (l1 l2 : RVal) :
    denoteY (fin G) (fin P) (fin z) (fin 0) (fin 0) l1 l2
      = finish (G - P) (Real.sqrt ((G - P) * (G - P) + z * z))
          (Real.sqrt ((G - P) * (G - P) + z * z)) l1 l2 := by
  obtain ⟨h1, h2⟩ := yCoord_untilted G P z
  simp only [denoteY, mag_zero_zero, zero_div, div_one, h1, h2]
  exact finish_scale (-2) _ _ _ _ _ (by norm_num)

theorem denoteZ_untilted (G P z : ℝ) (l1 l2 : RVal) :
    denoteZ (fin G) (fin P) (fin z) (fin 0) (fin 0) l1 l2
      = finish (G - P) (Real.sqrt ((G - P) * (G - P) + z * z))
          (Real.sqrt ((G - P) * (G - P) + z * z)) l1 l2 := by
  obtain ⟨h1, h2⟩ := zCoord_untilted G P z
  simp only [denoteZ, mag_zero_zero, zero_div, div_one, h1, h2]
  exact finish_scale 2 _ _ _ _ _ (by norm_num)

/-! ## Data flow, for every arithmetic -/

section Generic

variable {α : Type} [DoubleArith α]

theorem computeAngle_congr_geometry (r₁ r₂ : CelestialRig) (g₁ g₂ : Globals α) (node : Nat)
    (zPos xVec yVec : α) (hnode : node = NEXUS_X ∨ node = NEXUS_Y ∨ node = NEXUS_Z)
    (hB : g₁.geoBaseSpan = g₂.geoBaseSpan) (hP : g₁.geoPlateSpan = g₂.geoPlateSpan)
    (h1 : g₁.linkPrimary = g₂.linkPrimary) (h2 : g₁.linkSecondary = g₂.linkSecondary) :
    (r₁.computeAngle g₁ node zPos xVec yVec).1 = (r₂.computeAngle g₂ node zPos xVec yVec).1 := by
  rcases hnode with h | h | h <;> subst h
  · simp only [CelestialRig.computeAngle, NEXUS_X, caseX, hB, hP, h1, h2]
  · simp only [CelestialRig.computeAngle, NEXUS_Y, caseY, hB, hP, h1, h2]
  · simp only [CelestialRig.computeAngle, NEXUS_Z, caseZ, hB, hP, h1, h2]

end Generic

/-! ## Evaluating the closing step -/

theorem fin_ne_fin {a b : ℝ} (h : a ≠ b) : fin a ≠ fin b := by
  intro hab
  injection hab with hab
  exact h hab

theorem triQuot_fin (L l1 l2 : ℝ) (hq : 2 * L * l1 ≠ 0) :
    (fin L * fin L + fin l1 * fin l1 - fin l2 * fin l2) / (fin 2 * fin L * fin l1)
      = fin (triArg L l1 l2) := by
  simp only [fin_mul_fin, fin_add_fin, fin_sub_fin, fin_div_fin_of_ne _ hq, triArg]

theorem finish_fin (num den L l1 l2 : ℝ) (hd : den ≠ 0) (hq : 2 * L * l1 ≠ 0)
    (he : -1 ≤ num / den ∧ num / den ≤ 1) (ht : -1 ≤ triArg L l1 l2 ∧ triArg L l1 l2 ≤ 1) :
    finish num den L (fin l1) (fin l2)
      = fin ((Real.arccos (num / den) + Real.arccos (triArg L l1 l2)) * degFactor) := by
  unfold finish
  rw [triQuot_fin L l1 l2 hq, fin_div_fin_of_ne _ hd, acos_fin_of_mem he.1 he.2,
    acos_fin_of_mem ht.1 ht.2]
  rfl

/-! ## Data flow of the three branches -/

section Generic

variable {α : Type} [DoubleArith α]

theorem computeAngle_X_fst (r : CelestialRig) (g : Globals α) (zPos xVec yVec : α) :
    (r.computeAngle g NEXUS_X zPos xVec yVec).1
      = (acos ((r.computeAngle g NEXUS_X zPos xVec yVec).2.coordY
            / (r.computeAngle g NEXUS_X zPos xVec yVec).2.vecLength)
          + acos (((r.computeAngle g NEXUS_X zPos xVec yVec).2.vecLength
                * (r.computeAngle g NEXUS_X zPos xVec yVec).2.vecLength
              + g.linkPrimary * g.linkPrimary - g.linkSecondary * g.linkSecondary)
            / (2.0 * (r.computeAngle g NEXUS_X zPos xVec yVec).2.vecLength * g.linkPrimary)))
        * (180.0 / 3.141592653589793) := rfl

theorem computeAngle_Y_fst (r : CelestialRig) (g : Globals α) (zPos xVec yVec : α) :
    (r.computeAngle g NEXUS_Y zPos xVec yVec).1
      = (acos ((sqrt 3.0 * (r.computeAngle g NEXUS_Y zPos xVec yVec).2.coordX
              + (r.computeAngle g NEXUS_Y zPos xVec yVec).2.coordY)
            / (-2.0 * (r.computeAngle g NEXUS_Y zPos xVec yVec).2.vecLength))
          + acos (((r.computeAngle g NEXUS_Y zPos xVec yVec).2.vecLength
                * (r.computeAngle g NEXUS_Y zPos xVec yVec).2.vecLength
              + g.linkPrimary * g.linkPrimary - g.linkSecondary * g.linkSecondary)
            / (2.0 * (r.computeAngle g NEXUS_Y zPos xVec yVec).2.vecLength * g.linkPrimary)))
        * (180.0 / 3.141592653589793) := rfl

theorem computeAngle_Z_fst (r : CelestialRig) (g : Globals α) (zPos xVec yVec : α) :
    (r.computeAngle g NEXUS_Z zPos xVec yVec).1
      = (acos ((sqrt 3.0 * (r.computeAngle g NEXUS_Z zPos xVec yVec).2.coordX
              - (r.computeAngle g NEXUS_Z zPos xVec yVec).2.coordY)
            / (2.0 * (r.computeAngle g NEXUS_Z zPos xVec yVec).2.vecLength))
          + acos (((r.computeAngle g NEXUS_Z zPos xVec yVec).2.vecLength
                * (r.computeAngle g NEXUS_Z zPos xVec yVec).2.vecLength
              + g.linkPrimary * g.linkPrimary - g.linkSecondary * g.linkSecondary)
            / (2.0 * (r.computeAngle g NEXUS_Z zPos xVec yVec).2.vecLength * g.linkPrimary)))
        * (180.0 / 3.141592653589793) := rfl

end Generic

/-! ## Numeric facts used at concrete inputs -/

theorem arccos_half_lt_pi : Real.arccos (1 / 2) < Real.pi := by
  have h : Real.arccos (1 / 2) ≤ Real.pi / 2 := Real.arccos_le_pi_div_two.mpr (by norm_num)
  linarith [Real.pi_pos]

/-! ## Bounds on arc-cosines -/

theorem arccos_antitone {x y : ℝ} (h : x ≤ y) : Real.arccos y ≤ Real.arccos x := by
  rw [Real.arccos_eq_pi_div_two_sub_arcsin, Real.arccos_eq_pi_div_two_sub_arcsin]
  linarith [Real.monotone_arcsin h]

theorem sqrt_two_div_two_gt : (7 / 10 : ℝ) < Real.sqrt 2 / 2 := by
  have h : (7 / 5 : ℝ) < Real.sqrt 2 := by
    rw [Real.lt_sqrt (by norm_num)]
    norm_num
  linarith

theorem arccos_gt_pi_div_four {x : ℝ} (h : x ≤ 7 / 10) : Real.pi / 4 < Real.arccos x := by
  rw [← not_le, Real.arccos_le_pi_div_four, not_le]
  linarith [sqrt_two_div_two_gt]

theorem degFactor_mul_pi_gt : 180 < degFactor * Real.pi := by
  have h := Real.pi_gt_d20
  unfold degFactor
  rw [div_mul_eq_mul_div, lt_div_iff₀ (by norm_num)]
  have h' : (3.141592653589793 : ℝ) < Real.pi := lt_trans (by norm_num) h
  linarith

/-! ## The scenario of the specification: geometry (50, 40, 80, 120), height 150, no tilt -/

theorem scenario_len : 150 ≤ Real.sqrt ((50 - 40) * (50 - 40) + 150 * 150)
    ∧ Real.sqrt ((50 - 40) * (50 - 40) + 150 * 150)
        * Real.sqrt ((50 - 40) * (50 - 40) + 150 * 150) = 22600 := by
  constructor
  · apply Real.le_sqrt_of_sq_le
    norm_num
  · rw [Real.mul_self_sqrt (by norm_num)]
    norm_num

theorem scenario_args :
    0 < (50 - 40) / Real.sqrt ((50 - 40) * (50 - 40) + 150 * 150)
    ∧ (50 - 40) / Real.sqrt ((50 - 40) * (50 - 40) + 150 * 150) ≤ 7 / 10
    ∧ 0 < triArg (Real.sqrt ((50 - 40) * (50 - 40) + 150 * 150)) 80 120
    ∧ triArg (Real.sqrt ((50 - 40) * (50 - 40) + 150 * 150)) 80 120 ≤ 7 / 10 := by
  obtain ⟨h1, h2⟩ := scenario_len
  generalize Real.sqrt ((50 - 40) * (50 - 40) + 150 * 150) = L at h1 h2
  have hL : 0 < L := by linarith
  unfold triArg
  rw [h2]
  refine ⟨by positivity, ?_, by positivity, ?_⟩
  · rw [div_le_iff₀ hL]; linarith
  · rw [div_le_iff₀ (by positivity)]; linarith

theorem scenario_finish :
    finish (50 - 40) (Real.sqrt ((50 - 40) * (50 - 40) + 150 * 150))
        (Real.sqrt ((50 - 40) * (50 - 40) + 150 * 150)) (fin 80) (fin 120)
      = fin ((Real.arccos ((50 - 40) / Real.sqrt ((50 - 40) * (50 - 40) + 150 * 150))
          + Real.arccos (triArg (Real.sqrt ((50 - 40) * (50 - 40) + 150 * 150)) 80 120))
          * degFactor) := by
  obtain ⟨h1, h2, h3, h4⟩ := scenario_args
  have hL : 0 < Real.sqrt ((50 - 40) * (50 - 40) + 150 * 150) := by
    linarith [scenario_len.1]
  exact finish_fin _ _ _ _ _ hL.ne' (by positivity)
    ⟨le_trans (by norm_num) h1.le, le_trans h2 (by norm_num)⟩
    ⟨le_trans (by norm_num) h3.le, le_trans h4 (by norm_num)⟩

theorem scenario_angle_gt :
    Real.pi / 2 * degFactor
      < (Real.arccos ((50 - 40) / Real.sqrt ((50 - 40) * (50 - 40) + 150 * 150))
          + Real.arccos (triArg (Real.sqrt ((50 - 40) * (50 - 40) + 150 * 150)) 80 120))
          * degFactor := by
  obtain ⟨h1, h2, h3, h4⟩ := scenario_args
  have e1 := arccos_gt_pi_div_four h2
  have e2 := arccos_gt_pi_div_four h4
  exact mul_lt_mul_of_pos_right (by linarith) degFactor_pos

theorem scenario_X (g : Globals RVal) :
    ((CelestialRig.new (fin 50) (fin 40) (fin 80) (fin 120) g).1.computeAngle
        (CelestialRig.new (fin 50) (fin 40) (fin 80) (fin 120) g).2
        NEXUS_X (fin 150) (fin 0) (fin 0)).1
      = fin ((Real.arccos ((50 - 40) / Real.sqrt ((50 - 40) * (50 - 40) + 150 * 150))
          + Real.arccos (triArg (Real.sqrt ((50 - 40) * (50 - 40) + 150 * 150)) 80 120))
          * degFactor) := by
  rw [computeAngle_X_eq]
  exact (denoteX_untilted 50 40 150 (fin 80) (fin 120)).trans scenario_finish

theorem scenario_Y (g : Globals RVal) :
    ((CelestialRig.new (fin 50) (fin 40) (fin 80) (fin 120) g).1.computeAngle
        (CelestialRig.new (fin 50) (fin 40) (fin 80) (fin 120) g).2
        NEXUS_Y (fin 150) (fin 0) (fin 0)).1
      = fin ((Real.arccos ((50 - 40) / Real.sqrt ((50 - 40) * (50 - 40) + 150 * 150))
          + Real.arccos (triArg (Real.sqrt ((50 - 40) * (50 - 40) + 150 * 150)) 80 120))
          * degFactor) := by
  rw [computeAngle_Y_eq]
  exact (denoteY_untilted 50 40 150 (fin 80) (fin 120)).trans scenario_finish

theorem scenario_Z (g : Globals RVal) :
    ((CelestialRig.new (fin 50) (fin 40) (fin 80) (fin 120) g).1.computeAngle
        (CelestialRig.new (fin 50) (fin 40) (fin 80) (fin 120) g).2
        NEXUS_Z (fin 150) (fin 0) (fin 0)).1
      = fin ((Real.arccos ((50 - 40) / Real.sqrt ((50 - 40) * (50 - 40) + 150 * 150))
          + Real.arccos (triArg (Real.sqrt ((50 - 40) * (50 - 40) + 150 * 150)) 80 120))
          * degFactor) := by
  rw [computeAngle_Z_eq]
  exact (denoteZ_untilted 50 40 150 (fin 80) (fin 120)).trans scenario_finish

/-! ## Monotonicity in the untilted pose -/

theorem finish_eq_fin {num den L l1 l2 a : ℝ} (h : finish num den L (fin l1) (fin l2) = fin a) :
    den ≠ 0 ∧ 2 * L * l1 ≠ 0
      ∧ a = (Real.arccos (num / den) + Real.arccos (triArg L l1 l2)) * degFactor := by
  unfold finish at h
  by_cases hd : den = 0
  · subst hd
    simp at h
  by_cases hq : 2 * L * l1 = 0
  · rw [show fin 2 * fin L * fin l1 = fin (2 * L * l1) from rfl, hq] at h
    simp at h
  refine ⟨hd, hq, ?_⟩
  rw [triQuot_fin L l1 l2 hq, fin_div_fin_of_ne _ hd, acos_fin, acos_fin] at h
  split_ifs at h
  · injection h with h
    exact h.symm
  all_goals simp at h

theorem sqrt_untilted_mono {d z1 z2 : ℝ} (hz : |z1| ≤ |z2|) :
    Real.sqrt (d * d + z1 * z1) ≤ Real.sqrt (d * d + z2 * z2) := by
  apply Real.sqrt_le_sqrt
  have h := sq_le_sq.mpr hz
  show d * d + z1 * z1 ≤ d * d + z2 * z2
  nlinarith

theorem triArg_antitone {L1 L2 l1 l2 : ℝ} (h1 : 0 < l1) (hL1 : 0 < L1) (hL : L1 ≤ L2)
    (hr : L2 * L2 ≤ l1 * l1 - l2 * l2) : triArg L2 l1 l2 ≤ triArg L1 l1 l2 := by
  have hL2 : 0 < L2 := lt_of_lt_of_le hL1 hL
  unfold triArg
  rw [div_le_div_iff₀ (by positivity) (by positivity)]
  have hc : L1 * L2 ≤ l1 * l1 - l2 * l2 := le_trans (by nlinarith) hr
  have key : 0 ≤ (L2 - L1) * ((l1 * l1 - l2 * l2) - L1 * L2) :=
    mul_nonneg (by linarith) (by linarith)
  nlinarith [mul_nonneg h1.le key]

theorem finish_untilted_mono {d z1 z2 l1 l2 a1 a2 : ℝ} (hd : 0 ≤ d) (hl1 : 0 < l1)
    (hz : |z1| ≤ |z2|) (hr : d ^ 2 + z2 ^ 2 ≤ l1 ^ 2 - l2 ^ 2)
    (h1 : finish d (Real.sqrt (d * d + z1 * z1)) (Real.sqrt (d * d + z1 * z1)) (fin l1) (fin l2)
      = fin a1)
    (h2 : finish d (Real.sqrt (d * d + z2 * z2)) (Real.sqrt (d * d + z2 * z2)) (fin l1) (fin l2)
      = fin a2) : |a1| ≤ |a2| := by
  obtain ⟨hd1, -, rfl⟩ := finish_eq_fin h1
  obtain ⟨hd2, -, rfl⟩ := finish_eq_fin h2
  have hk := degFactor_pos
  have hL1 : 0 < Real.sqrt (d * d + z1 * z1) :=
    lt_of_le_of_ne (Real.sqrt_nonneg _) (Ne.symm hd1)
  have hL := sqrt_untilted_mono (d := d) hz
  have hL2 : 0 < Real.sqrt (d * d + z2 * z2) := lt_of_lt_of_le hL1 hL
  have hsq : Real.sqrt (d * d + z2 * z2) * Real.sqrt (d * d + z2 * z2) ≤ l1 * l1 - l2 * l2 := by
    rw [Real.mul_self_sqrt (by nlinarith [mul_self_nonneg d, mul_self_nonneg z2])]
    nlinarith
  have he : Real.arccos (d / Real.sqrt (d * d + z1 * z1))
      ≤ Real.arccos (d / Real.sqrt (d * d + z2 * z2)) :=
    arccos_antitone (div_le_div_of_nonneg_left hd hL1 hL)
  have ht : Real.arccos (triArg (Real.sqrt (d * d + z1 * z1)) l1 l2)
      ≤ Real.arccos (triArg (Real.sqrt (d * d + z2 * z2)) l1 l2) :=
    arccos_antitone (triArg_antitone hl1 hL1 hL hsq)
  have n1 := Real.arccos_nonneg (d / Real.sqrt (d * d + z1 * z1))
  have n2 := Real.arccos_nonneg (triArg (Real.sqrt (d * d + z1 * z1)) l1 l2)
  rw [abs_of_nonneg (mul_nonneg (by linarith) hk.le), abs_of_nonneg (mul_nonneg (by linarith) hk.le)]
  exact mul_le_mul_of_nonneg_right (by linarith) hk.le

theorem computeAngle_untilted (r : CelestialRig) (g : Globals RVal) (node : Nat)
    (G P z : ℝ) (hnode : node = NEXUS_X ∨ node = NEXUS_Y ∨ node = NEXUS_Z)
    (hG : g.geoBaseSpan = fin G) (hP : g.geoPlateSpan = fin P) :
    (r.computeAngle g node (fin z) (fin 0) (fin 0)).1
      = finish (G - P) (Real.sqrt ((G - P) * (G - P) + z * z))
          (Real.sqrt ((G - P) * (G - P) + z * z)) g.linkPrimary g.linkSecondary := by
  rcases hnode with h | h | h <;> subst h
  · rw [computeAngle_X_eq, hG, hP, denoteX_untilted]
  · rw [computeAngle_Y_eq, hG, hP, denoteY_untilted]
  · rw [computeAngle_Z_eq, hG, hP, denoteZ_untilted]

theorem denoteY_eq_finish (G P z x y : ℝ) (l1 l2 : RVal) :
    denoteY (fin G) (fin P) (fin z) (fin x) (fin y) l1 l2
      = finish (yRad G P (x / mag x y) (y / mag x y) (1 / mag x y))
          (Real.sqrt (yRad G P (x / mag x y) (y / mag x y) (1 / mag x y)
              * yRad G P (x / mag x y) (y / mag x y) (1 / mag x y)
            + yCoordZ P z (x / mag x y) (y / mag x y) * yCoordZ P z (x / mag x y) (y / mag x y)))
          (Real.sqrt (yRad G P (x / mag x y) (y / mag x y) (1 / mag x y)
              * yRad G P (x / mag x y) (y / mag x y) (1 / mag x y)
            + yCoordZ P z (x / mag x y) (y / mag x y) * yCoordZ P z (x / mag x y) (y / mag x y)))
          l1 l2 := by
  have h3 := sqrt_three_mul_self
  simp only [denoteY]
  generalize x / mag x y = nx
  generalize y / mag x y = ny
  generalize 1 / mag x y = nz
  have hX : yCoordX G P nx ny nz = -(Real.sqrt 3 / 2) * yRad G P nx ny nz := by
    unfold yCoordX yRad; ring
  have hY : yCoordY G P nx ny nz = -yRad G P nx ny nz / 2 := by
    unfold yCoordY; rw [hX]; field_simp [sqrt_three_ne_zero]; ring
  have hnum : Real.sqrt 3 * yCoordX G P nx ny nz + yCoordY G P nx ny nz
      = -2 * yRad G P nx ny nz := by
    rw [hX, hY]
    linear_combination (-(yRad G P nx ny nz) / 2) * h3
  have hlen : yLen G P z nx ny nz
      = Real.sqrt (yRad G P nx ny nz * yRad G P nx ny nz
          + yCoordZ P z nx ny * yCoordZ P z nx ny) := by
    unfold yLen
    rw [hX, hY]
    congr 1
    linear_combination (yRad G P nx ny nz * yRad G P nx ny nz / 4) * h3
  rw [hnum, hlen]
  exact finish_scale (-2) _ _ _ _ _ (by norm_num)

theorem xCoord_nx_zero (G P ny nz : ℝ) (h : nz + 1 ≠ 0) :
    xDen 0 ny nz = nz + 1 ∧ xCoordY G P 0 ny nz = G + P / 2 * (1 - 3 * nz) := by
  have h1 : xDen 0 ny nz = nz + 1 := by unfold xDen; simp
  refine ⟨h1, ?_⟩
  unfold xCoordY
  rw [h1]
  field_simp
  ring

theorem denoteX_nx_zero (G P z y : ℝ) (l1 l2 : RVal) :
    denoteX (fin G) (fin P) (fin z) (fin 0) (fin y) l1 l2
      = finish (G + P / 2 * (1 - 3 * (1 / mag 0 y)))
          (Real.sqrt ((G + P / 2 * (1 - 3 * (1 / mag 0 y))) * (G + P / 2 * (1 - 3 * (1 / mag 0 y)))
            + xCoordZ P z (y / mag 0 y) * xCoordZ P z (y / mag 0 y)))
          (Real.sqrt ((G + P / 2 * (1 - 3 * (1 / mag 0 y))) * (G + P / 2 * (1 - 3 * (1 / mag 0 y)))
            + xCoordZ P z (y / mag 0 y) * xCoordZ P z (y / mag 0 y)))
          l1 l2 := by
  obtain ⟨h1, h2⟩ := xCoord_nx_zero G P (y / mag 0 y) (1 / mag 0 y) (normZ_add_one_ne_zero 0 y)
  simp only [denoteX, zero_div, h1, h2, if_neg (normZ_add_one_ne_zero 0 y), xLen]

theorem mag_rot_zero (y : ℝ) :
    mag (-0 / 2 - Real.sqrt 3 / 2 * y) (Real.sqrt 3 / 2 * 0 - y / 2) = mag 0 y :=
  mag_rot 0 y

theorem yRad_rot_nx_zero (G P z y : ℝ) :
    yRad G P ((-0 / 2 - Real.sqrt 3 / 2 * y) / mag 0 y) ((Real.sqrt 3 / 2 * 0 - y / 2) / mag 0 y)
        (1 / mag 0 y) = G + P / 2 * (1 - 3 * (1 / mag 0 y))
    ∧ yCoordZ P z ((-0 / 2 - Real.sqrt 3 / 2 * y) / mag 0 y)
        ((Real.sqrt 3 / 2 * 0 - y / 2) / mag 0 y) = xCoordZ P z (y / mag 0 y) := by
  have h3 := sqrt_three_mul_self
  have hm := mag_pos 0 y
  have hmm : mag 0 y * mag 0 y = y * y + 1 := by rw [mag_mul_self]; ring
  constructor
  · unfold yRad
    have hne : 1 / mag 0 y + 1 ≠ 0 := normZ_add_one_ne_zero 0 y
    have hq : ((-0 / 2 - Real.sqrt 3 / 2 * y) / mag 0 y
          * ((-0 / 2 - Real.sqrt 3 / 2 * y) / mag 0 y)
        + Real.sqrt 3 * ((-0 / 2 - Real.sqrt 3 / 2 * y) / mag 0 y)
          * ((Real.sqrt 3 / 2 * 0 - y / 2) / mag 0 y)) / (1 / mag 0 y + 1)
        = 3 / 2 * (1 - 1 / mag 0 y) := by
      rw [div_eq_iff hne]
      field_simp
      linear_combination (4 * y * y * mag 0 y * mag 0 y) * h3 - (12 * mag 0 y * mag 0 y) * hmm
    rw [hq]
    ring
  · unfold yCoordZ xCoordZ
    field_simp
    linear_combination (P * y * (2 * mag 0 y * mag 0 y)) * h3

theorem denoteY_rot_nx_zero (G P z y : ℝ) (l1 l2 : RVal) :
    denoteY (fin G) (fin P) (fin z) (fin (-0 / 2 - Real.sqrt 3 / 2 * y))
        (fin (Real.sqrt 3 / 2 * 0 - y / 2)) l1 l2
      = denoteX (fin G) (fin P) (fin z) (fin 0) (fin y) l1 l2 := by
  obtain ⟨h1, h2⟩ := yRad_rot_nx_zero G P z y
  rw [denoteY_eq_finish, denoteX_nx_zero, mag_rot_zero, h1, h2]

/-! ## Branch X against rotated branch Y at the tilt (3/4, 0) -/

theorem xCoord_neg (G P z nx ny nz : ℝ) :
    xDen (-nx) ny nz = xDen nx ny nz ∧ xCoordY G P (-nx) ny nz = xCoordY G P nx ny nz
      ∧ xLen G P z (-nx) ny nz = xLen G P z nx ny nz := by
  have hI : xInner (-nx) nz = xInner nx nz := by unfold xInner; ring
  have hD : xDen (-nx) ny nz = xDen nx ny nz := by unfold xDen; rw [hI]; ring
  have hY : xCoordY G P (-nx) ny nz = xCoordY G P nx ny nz := by
    unfold xCoordY; rw [hD]; ring
  refine ⟨hD, hY, ?_⟩
  unfold xLen
  rw [hY]

theorem denoteX_neg (G P z x y l1 l2 : RVal) :
    denoteX G P z (-x) y l1 l2 = denoteX G P z x y l1 l2 := by
  cases G <;> cases P <;> cases z <;> cases x <;> cases y <;>
    simp only [denoteX, neg_fin, neg_nan]
  rename_i G P z x y
  rw [mag_neg_left, neg_div]
  obtain ⟨h1, h2, h3⟩ := xCoord_neg G P z (x / mag x y) (y / mag x y) (1 / mag x y)
  rw [h1, h2, h3]

/-! ## The variables a call leaves behind -/

section Generic

variable {α : Type} [DoubleArith α]

theorem computeAngle_X_vecLength (r : CelestialRig) (g : Globals α) (zPos xVec yVec : α) :
    (r.computeAngle g NEXUS_X zPos xVec yVec).2.vecLength
      = sqrt ((r.computeAngle g NEXUS_X zPos xVec yVec).2.coordY
              * (r.computeAngle g NEXUS_X zPos xVec yVec).2.coordY
            + (r.computeAngle g NEXUS_X zPos xVec yVec).2.coordZ
              * (r.computeAngle g NEXUS_X zPos xVec yVec).2.coordZ) := rfl

theorem computeAngle_Y_vecLength (r : CelestialRig) (g : Globals α) (zPos xVec yVec : α) :
    (r.computeAngle g NEXUS_Y zPos xVec yVec).2.vecLength
      = sqrt ((r.computeAngle g NEXUS_Y zPos xVec yVec).2.coordX
              * (r.computeAngle g NEXUS_Y zPos xVec yVec).2.coordX
            + (r.computeAngle g NEXUS_Y zPos xVec yVec).2.coordY
              * (r.computeAngle g NEXUS_Y zPos xVec yVec).2.coordY
            + (r.computeAngle g NEXUS_Y zPos xVec yVec).2.coordZ
              * (r.computeAngle g NEXUS_Y zPos xVec yVec).2.coordZ) := rfl

theorem computeAngle_Z_vecLength (r : CelestialRig) (g : Globals α) (zPos xVec yVec : α) :
    (r.computeAngle g NEXUS_Z zPos xVec yVec).2.vecLength
      = sqrt ((r.computeAngle g NEXUS_Z zPos xVec yVec).2.coordX
              * (r.computeAngle g NEXUS_Z zPos xVec yVec).2.coordX
            + (r.computeAngle g NEXUS_Z zPos xVec yVec).2.coordY
              * (r.computeAngle g NEXUS_Z zPos xVec yVec).2.coordY
            + (r.computeAngle g NEXUS_Z zPos xVec yVec).2.coordZ
              * (r.computeAngle g NEXUS_Z zPos xVec yVec).2.coordZ) := rfl

end Generic

/-! ## The denominators of line 53 for tilts inside the unit disc -/

theorem norm_sq_le_half (x y : ℝ) (h : x ^ 2 + y ^ 2 ≤ 1) :
    x / mag x y * (x / mag x y) + y / mag x y * (y / mag x y) ≤ 1 / 2 := by
  have hm := mag_pos x y
  have hmm := mag_mul_self x y
  have e : x / mag x y * (x / mag x y) + y / mag x y * (y / mag x y)
      = (x * x + y * y) / (mag x y * mag x y) := by
    field_simp
  rw [e, div_le_iff₀ (by positivity)]
  nlinarith

theorem xDen_pos_of_norm_sq_le_half (nx ny nz : ℝ) (hz : 0 < nz)
    (hab : nx * nx + ny * ny ≤ 1 / 2) : 0 < xInner nx nz ∧ 0 < xDen nx ny nz := by
  have ha : 0 ≤ nx * nx := mul_self_nonneg nx
  have hb : 0 ≤ ny * ny := mul_self_nonneg ny
  have hu : 1 / 2 < nz + 1 - nx * nx := by linarith
  have hI : 1 / 2 < xInner nx nz := by
    unfold xInner
    nlinarith
  have hprod : 3 * (nx * nx) * (ny * ny) ≤ 3 / 16 := by
    nlinarith [mul_self_nonneg (nx * nx - ny * ny), mul_self_nonneg (nx * nx + ny * ny),
      mul_nonneg ha hb]
  have hIpos : 0 < xInner nx nz := by linarith
  refine ⟨hIpos, ?_⟩
  have e : xDen nx ny nz
      = ((nz + 1 - nx * nx) * xInner nx nz
          + (nx * nx * nx * nx - 3 * nx * nx * ny * ny)) / xInner nx nz := by
    unfold xDen
    field_simp
  rw [e]
  apply div_pos _ hIpos
  nlinarith [mul_pos (sub_pos.mpr hu) (sub_pos.mpr hI), mul_self_nonneg (nx * nx)]

theorem caseX_coordY_fin (g : Globals RVal) (zPos : RVal) (G P nx ny nz : ℝ)
    (hG : g.geoBaseSpan = fin G) (hP : g.geoPlateSpan = fin P) (hz : g.vecNormZ = fin nz)
    (hin : xInner nx nz ≠ 0) (hD : xDen nx ny nz ≠ 0) :
    (caseX g zPos (fin nx) (fin ny)).coordY = fin (xCoordY G P nx ny nz) := by
  have h2 : (2 : ℝ) ≠ 0 := by norm_num
  unfold xDen xInner at hD
  unfold xInner at hin
  simp only [caseX, hG, hP, hz, ofScientific_eq, lit_one, lit_two, lit_three,
    fin_mul_fin, fin_add_fin, fin_sub_fin, fin_div_fin_of_ne _ h2,
    fin_div_fin_of_ne _ hin, fin_div_fin_of_ne _ hD, xCoordY, xDen, xInner]

theorem line53_denominators_fin (nx ny nz : ℝ) (hin : xInner nx nz ≠ 0) :
    (fin nz + 1.0) * (fin nz + 1.0 - fin nx * fin nx) = fin (xInner nx nz)
      ∧ fin nz + 1.0 - fin nx * fin nx
          + (fin nx * fin nx * fin nx * fin nx - 3.0 * fin nx * fin nx * fin ny * fin ny)
            / ((fin nz + 1.0) * (fin nz + 1.0 - fin nx * fin nx))
        = fin (xDen nx ny nz) := by
  unfold xInner at hin
  constructor
  · simp only [ofScientific_eq, lit_one, fin_mul_fin, fin_add_fin, fin_sub_fin, xInner]
  · simp only [ofScientific_eq, lit_one, lit_three, fin_mul_fin, fin_add_fin, fin_sub_fin,
      fin_div_fin_of_ne _ hin, xDen, xInner]

/-! ## Binary64: NaN and the arc-cosine -/

namespace B64

theorem roundPos_ne_nan (s : Bool) (N den : Nat) : roundPos s N den ≠ nan := by
  unfold roundPos pack
  split_ifs <;> simp

theorem add_right_nan (x : B64) : B64.add x nan = nan := by cases x <;> rfl

theorem add_nonneg_ne_nan (m1 e1 m2 e2 : Nat) :
    B64.add (fin false m1 e1) (fin false m2 e2) ≠ nan := by
  simp only [B64.add, if_true]
  split
  · simp
  · exact roundPos_ne_nan _ _ _

theorem mul_fin_ne_nan (x : B64) (hx : x ≠ nan) (s : Bool) (m e : Nat) (hm : m ≠ 0) :
    B64.mul x (fin s m e) ≠ nan := by
  cases x with
  | nan => exact absurd rfl hx
  | inf s1 => simp [B64.mul, hm]
  | fin s1 m1 e1 =>
    simp only [B64.mul]
    split
    · simp
    · exact roundPos_ne_nan _ _ _

end B64

theorem acosSpec_nonempty : ∃ f, AcosSpec f :=
  ⟨fun x => if B64.inUnit x = true then B64.fin false 0 0 else B64.nan,
    fun x h => by simp [h], fun x h => ⟨0, 0, by simp [h]⟩, by decide⟩

theorem libmAcos_spec : AcosSpec libmAcos := Classical.epsilon_spec acosSpec_nonempty

theorem acos_out_of_domain {x : B64} (h : B64.inUnit x = false) :
    (acos x : B64) = B64.nan := libmAcos_spec.1 x h

theorem acos_in_domain {x : B64} (h : B64.inUnit x = true) :
    ∃ m e, (acos x : B64) = B64.fin false m e := libmAcos_spec.2.1 x h

theorem acos_neg_zero : (acos (B64.fin true 0 0) : B64) = acos (B64.fin false 0 0) :=
  libmAcos_spec.2.2

/-- An out-of-domain first arc-cosine makes the returned product NaN. -/
theorem arcSum_nan_left (a b k : B64) (h : B64.inUnit a = false) :
    (acos a + acos b) * k = B64.nan := by
  rw [acos_out_of_domain h]
  rfl

/-- An out-of-domain second arc-cosine makes the returned product NaN. -/
theorem arcSum_nan_right (a b k : B64) (h : B64.inUnit b = false) :
    (acos a + acos b) * k = B64.nan := by
  rw [acos_out_of_domain h]
  show B64.mul (B64.add _ B64.nan) k = B64.nan
  rw [B64.add_right_nan]
  rfl

/-- Two in-domain arc-cosines times a finite non-zero factor are not NaN. -/
theorem arcSum_ne_nan (a b k : B64) (s : Bool) (m e : Nat) (ha : B64.inUnit a = true)
    (hb : B64.inUnit b = true) (hk : k = B64.fin s m e) (hm : m ≠ 0) :
    (acos a + acos b) * k ≠ B64.nan := by
  obtain ⟨m1, e1, h1⟩ := acos_in_domain ha
  obtain ⟨m2, e2, h2⟩ := acos_in_domain hb
  rw [h1, h2, hk]
  exact B64.mul_fin_ne_nan _ (B64.add_nonneg_ne_nan m1 e1 m2 e2) s m e hm

/-! ## Binary64: sign symmetry of the operations -/

namespace B64

theorem neg_neg_eq (x : B64) : neg (neg x) = x := by
  cases x <;> simp [neg]

theorem pack_neg (s : Bool) (m E : Nat) : neg (pack s m E) = pack (!s) m E := by
  unfold pack
  split_ifs <;> rfl

theorem roundPos_neg (s : Bool) (N den : Nat) :
    neg (roundPos s N den) = roundPos (!s) N den :=
  pack_neg _ _ _

theorem neg_fin_eq (s : Bool) (m e : Nat) : neg (fin s m e) = fin (!s) m e := rfl

theorem mul_fin_fin (s1 : Bool) (m1 e1 : Nat) (s2 : Bool) (m2 e2 : Nat) :
    mul (fin s1 m1 e1) (fin s2 m2 e2)
      = if m1 * m2 = 0 then fin (xor s1 s2) 0 0
        else roundPos (xor s1 s2) ((m1 * m2) <<< (e1 + e2)) (1 <<< 1074) := rfl

theorem div_fin_fin (s1 : Bool) (m1 e1 : Nat) (s2 : Bool) (m2 e2 : Nat) :
    div (fin s1 m1 e1) (fin s2 m2 e2)
      = if m2 = 0 then (if m1 = 0 then nan else inf (xor s1 s2))
        else if m1 = 0 then fin (xor s1 s2) 0 0
        else roundPos (xor s1 s2) (m1 <<< (e1 + 1074)) (m2 <<< e2) := rfl

theorem mul_neg_right (a b : B64) : mul a (neg b) = neg (mul a b) := by
  cases a with
  | nan => rfl
  | inf s1 =>
    cases b with
    | nan => rfl
    | inf s2 => cases s1 <;> cases s2 <;> rfl
    | fin s2 m2 e2 =>
      cases s1 <;> cases s2 <;> simp only [mul, neg] <;> split_ifs <;> rfl
  | fin s1 m1 e1 =>
    cases b with
    | nan => rfl
    | inf s2 =>
      cases s1 <;> cases s2 <;> simp only [mul, neg] <;> split_ifs <;> rfl
    | fin s2 m2 e2 =>
      simp only [neg_fin_eq, mul_fin_fin]
      split_ifs
      · cases s1 <;> cases s2 <;> rfl
      · rw [roundPos_neg]
        cases s1 <;> cases s2 <;> rfl

theorem mul_neg_left (a b : B64) : mul (neg a) b = neg (mul a b) := by
  cases a with
  | nan => rfl
  | inf s1 =>
    cases b with
    | nan => rfl
    | inf s2 => cases s1 <;> cases s2 <;> rfl
    | fin s2 m2 e2 =>
      cases s1 <;> cases s2 <;> simp only [mul, neg] <;> split_ifs <;> rfl
  | fin s1 m1 e1 =>
    cases b with
    | nan => rfl
    | inf s2 =>
      cases s1 <;> cases s2 <;> simp only [mul, neg] <;> split_ifs <;> rfl
    | fin s2 m2 e2 =>
      simp only [neg_fin_eq, mul_fin_fin]
      split_ifs
      · cases s1 <;> cases s2 <;> rfl
      · rw [roundPos_neg]
        cases s1 <;> cases s2 <;> rfl

theorem mul_neg_neg (a : B64) : mul (neg a) (neg a) = mul a a := by
  rw [mul_neg_left, mul_neg_right, neg_neg_eq]

theorem div_neg_right (a b : B64) : div a (neg b) = neg (div a b) := by
  cases a with
  | nan => rfl
  | inf s1 =>
    cases b with
    | nan => rfl
    | inf s2 => rfl
    | fin s2 m2 e2 => cases s1 <;> cases s2 <;> rfl
  | fin s1 m1 e1 =>
    cases b with
    | nan => rfl
    | inf s2 => cases s1 <;> cases s2 <;> rfl
    | fin s2 m2 e2 =>
      simp only [neg_fin_eq, div_fin_fin]
      split_ifs
      · rfl
      · cases s1 <;> cases s2 <;> rfl
      · cases s1 <;> cases s2 <;> rfl
      · rw [roundPos_neg]
        cases s1 <;> cases s2 <;> rfl

theorem div_neg_left (a b : B64) : div (neg a) b = neg (div a b) := by
  cases a with
  | nan => rfl
  | inf s1 =>
    cases b with
    | nan => rfl
    | inf s2 => rfl
    | fin s2 m2 e2 => cases s1 <;> cases s2 <;> rfl
  | fin s1 m1 e1 =>
    cases b with
    | nan => rfl
    | inf s2 => cases s1 <;> cases s2 <;> rfl
    | fin s2 m2 e2 =>
      simp only [neg_fin_eq, div_fin_fin]
      split_ifs
      · rfl
      · cases s1 <;> cases s2 <;> rfl
      · cases s1 <;> cases s2 <;> rfl
      · rw [roundPos_neg]
        cases s1 <;> cases s2 <;> rfl

theorem add_fin_fin (s1 : Bool) (m1 e1 : Nat) (s2 : Bool) (m2 e2 : Nat) :
    add (fin s1 m1 e1) (fin s2 m2 e2)
      = if s1 = s2 then
          (if m1 <<< e1 + m2 <<< e2 = 0 then fin s1 0 0
            else roundPos s1 (m1 <<< e1 + m2 <<< e2) 1)
        else if m1 <<< e1 = m2 <<< e2 then fin false 0 0
        else if m2 <<< e2 < m1 <<< e1 then roundPos s1 (m1 <<< e1 - m2 <<< e2) 1
        else roundPos s2 (m2 <<< e2 - m1 <<< e1) 1 := rfl

theorem add_comm_eq (a b : B64) : add a b = add b a := by
  cases a with
  | nan => cases b <;> rfl
  | inf s1 =>
    cases b with
    | nan => rfl
    | inf s2 => cases s1 <;> cases s2 <;> rfl
    | fin s2 m2 e2 => rfl
  | fin s1 m1 e1 =>
    cases b with
    | nan => rfl
    | inf s2 => rfl
    | fin s2 m2 e2 =>
      rw [add_fin_fin, add_fin_fin]
      by_cases h : s1 = s2
      · subst h
        simp only [if_true, Nat.add_comm (m2 <<< e2) (m1 <<< e1)]
      · have h' : ¬ s2 = s1 := fun h2 => h h2.symm
        simp only [h, h', if_false]
        rcases Nat.lt_trichotomy (m1 <<< e1) (m2 <<< e2) with hlt | heq | hgt
        · have h1 : ¬ m1 <<< e1 = m2 <<< e2 := by omega
          have h2 : ¬ m2 <<< e2 = m1 <<< e1 := by omega
          have h3 : ¬ m2 <<< e2 < m1 <<< e1 := by omega
          simp only [h1, h2, h3, hlt, if_true, if_false]
        · simp only [heq, if_true]
        · have h1 : ¬ m1 <<< e1 = m2 <<< e2 := by omega
          have h2 : ¬ m2 <<< e2 = m1 <<< e1 := by omega
          have h3 : ¬ m1 <<< e1 < m2 <<< e2 := by omega
          simp only [h1, h2, h3, hgt, if_true, if_false]

/-- Negating both summands negates the sum, except that an exact cancellation gives `+0` both
times. -/
theorem add_neg_neg (a b : B64) :
    add (neg a) (neg b) = neg (add a b)
      ∨ (add a b = fin false 0 0 ∧ add (neg a) (neg b) = fin false 0 0) := by
  cases a with
  | nan => exact Or.inl rfl
  | inf s1 =>
    cases b with
    | nan => exact Or.inl rfl
    | inf s2 => cases s1 <;> cases s2 <;> exact Or.inl rfl
    | fin s2 m2 e2 => exact Or.inl rfl
  | fin s1 m1 e1 =>
    cases b with
    | nan => exact Or.inl rfl
    | inf s2 => exact Or.inl rfl
    | fin s2 m2 e2 =>
      simp only [neg_fin_eq, add_fin_fin]
      by_cases h : s1 = s2
      · subst h
        left
        simp only [if_true]
        split_ifs
        · rfl
        · exact (roundPos_neg _ _ _).symm
      · have h' : ¬ (!s1) = (!s2) := by
          cases s1 <;> cases s2 <;> simp at h ⊢
        simp only [h, h', if_false]
        by_cases heq : m1 <<< e1 = m2 <<< e2
        · right
          simp only [heq, if_true, and_self]
        · left
          simp only [heq, if_false]
          split_ifs
          · exact (roundPos_neg _ _ _).symm
          · exact (roundPos_neg _ _ _).symm

/-- Adding a zero of either sign to a non-zero number rounds that number. -/
theorem add_zero_of_ne (sz : Bool) (m e : Nat) (s : Bool) (hm : m <<< e ≠ 0) :
    add (fin sz m e) (fin s 0 0) = roundPos sz (m <<< e) 1 := by
  rw [add_fin_fin]
  have h0 : (0 : Nat) <<< 0 = 0 := rfl
  simp only [h0, Nat.add_zero, Nat.sub_zero]
  by_cases h : sz = s
  · simp only [h, if_true, hm, if_false]
  · have hpos : 0 < m <<< e := Nat.pos_of_ne_zero hm
    simp only [h, if_false, hm, hpos, if_true]

/-- Adding a zero to a zero gives a zero. -/
theorem add_zero_of_eq (sz : Bool) (m e : Nat) (s : Bool) (hm : m <<< e = 0) :
    ∃ s', add (fin sz m e) (fin s 0 0) = fin s' 0 0 := by
  rw [add_fin_fin]
  have h0 : (0 : Nat) <<< 0 = 0 := rfl
  simp only [h0, hm, Nat.add_zero, if_true]
  by_cases h : sz = s
  · exact ⟨sz, by simp only [h, if_true]⟩
  · exact ⟨false, by simp only [h, if_false]⟩

theorem mul_zero_zero (s1 s2 : Bool) : mul (fin s1 0 0) (fin s2 0 0) = fin (xor s1 s2) 0 0 := by
  rw [mul_fin_fin]
  simp only [Nat.mul_zero, if_true]

/-- The square of `z ± 0` does not depend on the sign of the zero. -/
theorem mul_self_add_zero (z : B64) (s t : Bool) :
    mul (add z (fin s 0 0)) (add z (fin s 0 0)) = mul (add z (fin t 0 0)) (add z (fin t 0 0)) := by
  cases z with
  | nan => rfl
  | inf sz => rfl
  | fin sz m e =>
    by_cases hm : m <<< e = 0
    · obtain ⟨a, ha⟩ := add_zero_of_eq sz m e s hm
      obtain ⟨b, hb⟩ := add_zero_of_eq sz m e t hm
      rw [ha, hb, mul_zero_zero, mul_zero_zero]
      cases a <;> cases b <;> rfl
    · rw [add_zero_of_ne sz m e s hm, add_zero_of_ne sz m e t hm]

/-- The quotient of `+0` by anything is a zero or NaN. -/
theorem pos_zero_div (x : B64) :
    div (fin false 0 0) x = nan ∨ ∃ s, div (fin false 0 0) x = fin s 0 0 := by
  cases x with
  | nan => exact Or.inl rfl
  | inf s => exact Or.inr ⟨xor false s, rfl⟩
  | fin s m e =>
    rw [div_fin_fin]
    by_cases hm : m = 0
    · left
      simp only [hm, if_true]
    · right
      exact ⟨xor false s, by simp only [hm, if_false, if_true]⟩

end B64

/-! ## Binary64: representable numbers are not rounded -/

namespace B64

theorem log2Fine_spec : ∀ (fuel n acc : Nat), 0 < n → n < 2 ^ fuel →
    ∃ t, log2Fine fuel n acc = acc + t ∧ 2 ^ t ≤ n ∧ n < 2 ^ (t + 1)
  | 0, n, acc, h0, h => by
    simp only [Nat.pow_zero] at h
    omega
  | fuel + 1, n, acc, h0, h => by
    by_cases h2 : n < 2
    · refine ⟨0, ?_, ?_, ?_⟩
      · simp only [log2Fine, h2, if_true, Nat.add_zero]
      · simpa using h0
      · simpa using h2
    · have hdiv : n >>> 1 = n / 2 := by simp [Nat.shiftRight_eq_div_pow]
      have hpos : 0 < n >>> 1 := by rw [hdiv]; omega
      have hlt : n >>> 1 < 2 ^ fuel := by
        rw [hdiv, Nat.div_lt_iff_lt_mul (by norm_num)]
        rw [Nat.pow_succ] at h
        exact h
      obtain ⟨t, ht, hlo, hhi⟩ := log2Fine_spec fuel (n >>> 1) (acc + 1) hpos hlt
      refine ⟨t + 1, ?_, ?_, ?_⟩
      · simp only [log2Fine, h2, if_false, ht]
        omega
      · rw [hdiv] at hlo
        rw [Nat.pow_succ]
        have := (Nat.le_div_iff_mul_le (by norm_num : 0 < 2)).mp hlo
        exact this
      · rw [hdiv] at hhi
        rw [Nat.pow_succ]
        exact (Nat.div_lt_iff_lt_mul (by norm_num)).mp hhi

theorem log2Coarse_spec : ∀ (fuel n acc : Nat), 0 < n → n < 2 ^ (64 * fuel + 64) →
    ∃ j, log2Coarse fuel n acc = acc + 64 * j ∧ 0 < n >>> (64 * j) ∧ n >>> (64 * j) < 2 ^ 64
  | 0, n, acc, h0, h => ⟨0, rfl, by simpa using h0, by simpa using h⟩
  | fuel + 1, n, acc, h0, h => by
    have h64 : (18446744073709551616 : Nat) = 2 ^ 64 := by norm_num
    by_cases h2 : n < 18446744073709551616
    · refine ⟨0, ?_, by simpa using h0, ?_⟩
      · simp only [log2Coarse, h2, if_true, Nat.mul_zero, Nat.add_zero]
      · rw [h64] at h2
        simpa using h2
    · have hdiv : n >>> 64 = n / 2 ^ 64 := Nat.shiftRight_eq_div_pow n 64
      have hge : 2 ^ 64 ≤ n := by
        rw [h64] at h2
        omega
      have hpos : 0 < n >>> 64 := by
        rw [hdiv]
        exact Nat.div_pos hge (by positivity)
      have hlt : n >>> 64 < 2 ^ (64 * fuel + 64) := by
        rw [hdiv, Nat.div_lt_iff_lt_mul (by positivity), ← Nat.pow_add]
        have : 64 * (fuel + 1) + 64 = 64 * fuel + 64 + 64 := by ring
        rw [this] at h
        exact h
      obtain ⟨j, hj, hlo, hhi⟩ := log2Coarse_spec fuel (n >>> 64) (acc + 64) hpos hlt
      have hsh : n >>> (64 * (j + 1)) = (n >>> 64) >>> (64 * j) := by
        rw [← Nat.shiftRight_add]
        congr 1
        ring
      refine ⟨j + 1, ?_, ?_, ?_⟩
      · simp only [log2Coarse, h2, if_false, hj]
        ring
      · rw [hsh]
        exact hlo
      · rw [hsh]
        exact hhi

/-- For `0 < n < 2^16448`, `ilog2 n` is the position of the leading bit of `n`. -/
theorem ilog2_spec (n : Nat) (h0 : 0 < n) (h : n < 2 ^ (64 * 256 + 64)) :
    2 ^ ilog2 n ≤ n ∧ n < 2 ^ (ilog2 n + 1) := by
  obtain ⟨j, hj, hlo, hhi⟩ := log2Coarse_spec 256 n 0 h0 h
  obtain ⟨t, ht, htlo, hthi⟩ := log2Fine_spec 64 (n >>> (64 * j)) (64 * j) hlo hhi
  have hc : log2Coarse 256 n 0 = 64 * j := by rw [hj, Nat.zero_add]
  have hi : ilog2 n = 64 * j + t := by
    unfold ilog2
    rw [hc, ht]
  rw [hi]
  rw [Nat.shiftRight_eq_div_pow] at htlo hthi
  constructor
  · rw [Nat.add_comm, Nat.pow_add]
    exact (Nat.le_div_iff_mul_le (by positivity)).mp htlo
  · have : 64 * j + t + 1 = (t + 1) + 64 * j := by ring
    rw [this, Nat.pow_add]
    exact (Nat.div_lt_iff_lt_mul (by positivity)).mp hthi

theorem ilog2_eq (n a : Nat) (hlo : 2 ^ a ≤ n) (hhi : n < 2 ^ (a + 1)) (ha : a < 16000) :
    ilog2 n = a := by
  have h0 : 0 < n := lt_of_lt_of_le (by positivity) hlo
  have hB : ∀ B, a + 1 ≤ B → n < 2 ^ B := fun B hB =>
    lt_of_lt_of_le hhi (Nat.pow_le_pow_right Nat.two_pos hB)
  have hn : n < 2 ^ (64 * 256 + 64) := hB _ (by omega)
  obtain ⟨h1, h2⟩ := ilog2_spec n h0 hn
  by_contra hne
  rcases Nat.lt_or_gt_of_ne hne with hlt | hgt
  · have : 2 ^ (ilog2 n + 1) ≤ 2 ^ a := Nat.pow_le_pow_right (by norm_num) (by omega)
    omega
  · have : 2 ^ (a + 1) ≤ 2 ^ ilog2 n := Nat.pow_le_pow_right (by norm_num) (by omega)
    omega

theorem roundSig_exact (m d : Nat) (hd : 0 < d) : roundSig (m * d) d = m := by
  unfold roundSig
  have h1 : m * d % d = 0 := Nat.mul_mod_left m d
  have h2 : m * d / d = m := Nat.mul_div_cancel m hd
  rw [h1, h2]
  have hc : ¬ (d < 2 * 0 ∨ (2 * 0 = d ∧ m % 2 = 1)) := by omega
  rw [if_neg hc]

theorem ilog2_one : ilog2 1 = 0 := by decide

/-- A normal significand times a power of two is its own rounding. -/
theorem roundPos_normal_exact (s : Bool) (m e : Nat) (hlo : 4503599627370496 ≤ m)
    (hhi : m < 9007199254740992) (he : e ≤ 2045) :
    roundPos s (m <<< e) 1 = fin s m e := by
  have h52 : (4503599627370496 : Nat) = 2 ^ 52 := by norm_num
  have h53 : (9007199254740992 : Nat) = 2 ^ 53 := by norm_num
  have hN : m <<< e = m * 2 ^ e := Nat.shiftLeft_eq m e
  have hlog : ilog2 (m <<< e) = 52 + e := by
    apply ilog2_eq _ _ _ _ (by omega)
    · rw [hN, Nat.pow_add]
      exact Nat.mul_le_mul_right _ (h52 ▸ hlo)
    · rw [hN, show 52 + e + 1 = 53 + e by ring, Nat.pow_add]
      exact Nat.mul_lt_mul_of_pos_right (h53 ▸ hhi) (by positivity)
  have hexp : roundExp (m <<< e) 1 = e := by
    unfold roundExp
    rw [hlog, ilog2_one, Nat.sub_zero]
    have hc : 1 <<< (52 + e) ≤ m <<< e := by
      rw [Nat.one_shiftLeft, hN, Nat.pow_add]
      exact Nat.mul_le_mul_right _ (h52 ▸ hlo)
    rw [if_pos hc]
    omega
  unfold roundPos
  rw [hexp, Nat.one_shiftLeft, hN, roundSig_exact m (2 ^ e) (by positivity)]
  unfold pack
  rw [if_neg (by omega), if_neg (by omega)]

/-- A subnormal significand is its own rounding. -/
theorem roundPos_subnormal_exact (s : Bool) (m : Nat) (h0 : 0 < m)
    (hhi : m < 4503599627370496) :
    roundPos s m 1 = fin s m 0 := by
  have h52 : (4503599627370496 : Nat) = 2 ^ 52 := by norm_num
  have hB : ∀ B, 52 ≤ B → m < 2 ^ B := fun B hB =>
    lt_of_lt_of_le (h52 ▸ hhi) (Nat.pow_le_pow_right Nat.two_pos hB)
  have hm : m < 2 ^ (64 * 256 + 64) := hB _ (by omega)
  obtain ⟨h1, h2⟩ := ilog2_spec m h0 hm
  have hlog : ilog2 m < 52 := by
    by_contra hge
    have : 2 ^ 52 ≤ 2 ^ ilog2 m := Nat.pow_le_pow_right Nat.two_pos (by omega)
    omega
  have hexp : roundExp m 1 = 0 := by
    unfold roundExp
    rw [ilog2_one, Nat.sub_zero]
    split_ifs <;> omega
  unfold roundPos
  rw [hexp]
  have hd : (1 : Nat) <<< 0 = 1 := rfl
  rw [hd]
  have hr := roundSig_exact m 1 Nat.one_pos
  rw [Nat.mul_one] at hr
  rw [hr]
  unfold pack
  rw [if_neg (by omega), if_neg (by omega)]

/-- Adding a zero of either sign to a non-zero double gives that double. -/
theorem add_zero_of_isDouble (sz : Bool) (m e : Nat) (s : Bool)
    (hz : IsDouble (fin sz m e)) (hm : m ≠ 0) :
    add (fin sz m e) (fin s 0 0) = fin sz m e := by
  have hN : m <<< e = m * 2 ^ e := Nat.shiftLeft_eq m e
  have hne : m <<< e ≠ 0 := by
    rw [hN]
    exact Nat.mul_ne_zero hm (by positivity)
  rw [add_zero_of_ne sz m e s hne]
  rcases hz with ⟨h1, h2⟩ | ⟨h1, h2, h3⟩
  · subst h2
    exact roundPos_subnormal_exact sz m (Nat.pos_of_ne_zero hm) h1
  · exact roundPos_normal_exact sz m e h1 h2 h3

/-- The square of `z ± 0` is the square of `z`, for every double `z`. -/
theorem mul_self_add_zero_of_isDouble (z : B64) (s : Bool) (hz : IsDouble z) :
    mul (add z (fin s 0 0)) (add z (fin s 0 0)) = mul z z := by
  cases z with
  | nan => rfl
  | inf sz => rfl
  | fin sz m e =>
    by_cases hm : m = 0
    · subst hm
      have he : e = 0 := by
        rcases hz with ⟨_, h2⟩ | ⟨h1, _, _⟩
        · exact h2
        · omega
      subst he
      obtain ⟨a, ha⟩ := add_zero_of_eq sz 0 0 s rfl
      rw [ha, mul_zero_zero, mul_zero_zero]
      cases a <;> cases sz <;> rfl
    · rw [add_zero_of_isDouble sz m e s hz hm]

end B64

/-! ## Binary64: sums with a zero, and their squares -/

namespace B64

theorem mul_zero_bothZero (x : B64) (s t : Bool) :
    BothZero (mul x (fin s 0 0)) (mul x (fin t 0 0)) := by
  cases x with
  | nan => exact Or.inl ⟨rfl, rfl⟩
  | inf sx => exact Or.inl ⟨rfl, rfl⟩
  | fin sx m e =>
    right
    refine ⟨xor sx s, xor sx t, ?_, ?_⟩
    · rw [mul_fin_fin]
      simp only [Nat.mul_zero, if_true]
    · rw [mul_fin_fin]
      simp only [Nat.mul_zero, if_true]

theorem bothZero_neg_left {u v : B64} (h : BothZero u v) : BothZero (neg u) v := by
  rcases h with ⟨h1, h2⟩ | ⟨s, t, h1, h2⟩
  · exact Or.inl ⟨by rw [h1]; rfl, h2⟩
  · exact Or.inr ⟨!s, t, by rw [h1]; rfl, h2⟩

/-- The square of `z + 0` does not depend on which zero is added. -/
theorem sq_add_bothZero (z : B64) {u v : B64} (h : BothZero u v) :
    mul (add z u) (add z u) = mul (add z v) (add z v) := by
  rcases h with ⟨h1, h2⟩ | ⟨s, t, h1, h2⟩
  · rw [h1, h2]
  · rw [h1, h2]
    exact mul_self_add_zero z s t

end B64

/-! ## Binary64: branches Y and Z in the untilted pose -/

theorem acos_eq_of_zero (s t : Bool) :
    (acos (B64.fin s 0 0) : B64) = acos (B64.fin t 0 0) := by
  cases s <;> cases t <;> first | rfl | exact acos_neg_zero | exact acos_neg_zero.symm

set_option maxRecDepth 100000 in
/-- The coordinates of branch Z in the untilted pose mirror those of branch Y, so the two
branches compute the same `vecLength` and the same first arc-cosine. -/
theorem untilted_Y_Z_core (G P cXy cYy cZy cXz cYz cZz : B64)
    (hXy : cXy = B64.mul (B64.fin false 7800463371553962 1021)
      (B64.add (B64.mul P (B64.fin false 4503599627370496 1022)) (B64.neg G)))
    (hYy : cYy = B64.div cXy (B64.fin false 7800463371553962 1022))
    (hXz : cXz = B64.mul (B64.fin false 7800463371553962 1021)
      (B64.add G (B64.neg (B64.mul P (B64.fin false 4503599627370496 1022)))))
    (hYz : cYz = B64.div (B64.neg cXz) (B64.fin false 7800463371553962 1022))
    (hZ : B64.mul cZy cZy = B64.mul cZz cZz) :
    (sqrt (cXy * cXy + cYy * cYy + cZy * cZy) : B64)
        = sqrt (cXz * cXz + cYz * cYz + cZz * cZz)
    ∧ ∀ L : B64, (acos ((sqrt 3.0 * cXy + cYy) / (-2.0 * L)) : B64)
        = acos ((sqrt 3.0 * cXz - cYz) / (2.0 * L)) := by
  -- the two differences `P - G` and `G - P`
  have hd := B64.add_neg_neg (B64.mul P (B64.fin false 4503599627370496 1022)) (B64.neg G)
  rw [B64.neg_neg_eq, B64.add_comm_eq (B64.neg _) G] at hd
  -- the horizontal coordinates
  have hXY : (cXz = B64.neg cXy ∧ cYz = cYy)
      ∨ (cXy = B64.fin false 0 0 ∧ cXz = B64.fin false 0 0 ∧ cYy = B64.fin false 0 0
          ∧ cYz = B64.fin true 0 0) := by
    rcases hd with h | ⟨h1, h2⟩
    · left
      have hx : cXz = B64.neg cXy := by rw [hXz, hXy, h, B64.mul_neg_right]
      exact ⟨hx, by rw [hYz, hYy, hx, B64.neg_neg_eq]⟩
    · right
      have hx1 : cXy = B64.fin false 0 0 := by rw [hXy, h1]; rfl
      have hx2 : cXz = B64.fin false 0 0 := by rw [hXz, h2]; rfl
      refine ⟨hx1, hx2, ?_, ?_⟩
      · rw [hYy, hx1]; rfl
      · rw [hYz, hx2]; rfl
  have hsq : B64.mul cXz cXz = B64.mul cXy cXy ∧ B64.mul cYz cYz = B64.mul cYy cYy := by
    rcases hXY with ⟨h1, h2⟩ | ⟨h1, h2, h3, h4⟩
    · exact ⟨by rw [h1, B64.mul_neg_neg], by rw [h2]⟩
    · exact ⟨by rw [h1, h2], by rw [h3, h4]; rfl⟩
  -- the numerators of the elevation quotients
  have hnum : B64.add (B64.mul (B64.fin false 7800463371553962 1022) cXz) (B64.neg cYz)
        = B64.neg (B64.add (B64.mul (B64.fin false 7800463371553962 1022) cXy) cYy)
      ∨ (B64.add (B64.mul (B64.fin false 7800463371553962 1022) cXy) cYy = B64.fin false 0 0
          ∧ B64.add (B64.mul (B64.fin false 7800463371553962 1022) cXz) (B64.neg cYz)
            = B64.fin false 0 0) := by
    rcases hXY with ⟨h1, h2⟩ | ⟨h1, h2, h3, h4⟩
    · rw [h1, h2, B64.mul_neg_right]
      exact B64.add_neg_neg _ _
    · right
      rw [h1, h2, h3, h4]
      exact ⟨rfl, rfl⟩
  refine ⟨?_, ?_⟩
  · show B64.sqrt (B64.add (B64.add (B64.mul cXy cXy) (B64.mul cYy cYy)) (B64.mul cZy cZy))
      = B64.sqrt (B64.add (B64.add (B64.mul cXz cXz) (B64.mul cYz cYz)) (B64.mul cZz cZz))
    rw [hsq.1, hsq.2, hZ]
  · intro L
    show libmAcos (B64.div (B64.add (B64.mul (B64.fin false 7800463371553962 1022) cXy) cYy)
          (B64.mul (B64.neg (B64.fin false 4503599627370496 1023)) L))
      = libmAcos (B64.div
          (B64.add (B64.mul (B64.fin false 7800463371553962 1022) cXz) (B64.neg cYz))
          (B64.mul (B64.fin false 4503599627370496 1023) L))
    rw [B64.mul_neg_left, B64.div_neg_right]
    rcases hnum with h | ⟨h1, h2⟩
    · rw [h, B64.div_neg_left]
    · rw [h1, h2]
      rcases B64.pos_zero_div (B64.mul (B64.fin false 4503599627370496 1023) L) with h | ⟨s, h⟩
      · rw [h]
        rfl
      · rw [h, B64.neg_fin_eq]
        exact acos_eq_of_zero _ _

/-! ## Binary64: what rounding guarantees -/

namespace B64

/-- The exponent chosen by `roundExp` brackets the quotient: with `d = den · 2^E`, the quotient
`N / d` is below `2^53`, and at least `2^52` unless `E = 0`. -/
theorem roundExp_spec (N den : Nat) (hN : 0 < N) (hd : 0 < den)
    (hNb : N < 2 ^ (64 * 256 + 64)) (hdb : den < 2 ^ (64 * 256 + 64)) :
    N < 2 ^ 53 * (den * 2 ^ roundExp N den)
    ∧ (0 < roundExp N den → 2 ^ 52 * (den * 2 ^ roundExp N den) ≤ N) := by
  obtain ⟨ha1, ha2⟩ := ilog2_spec N hN hNb
  obtain ⟨hb1, hb2⟩ := ilog2_spec den hd hdb
  unfold roundExp
  rw [Nat.shiftLeft_eq]
  generalize ilog2 N = a at ha1 ha2 ⊢
  generalize ilog2 den = b at hb1 hb2 ⊢
  have key : ∀ f : Nat, N < den * 2 ^ (f + 1) → (0 < f → den * 2 ^ f ≤ N) →
      N < 2 ^ 53 * (den * 2 ^ (f - 52))
      ∧ (0 < f - 52 → 2 ^ 52 * (den * 2 ^ (f - 52)) ≤ N) := by
    intro f hU hL
    constructor
    · by_cases hf : 52 ≤ f
      · have : f + 1 = 53 + (f - 52) := by omega
        rw [this, Nat.pow_add] at hU
        calc N < den * (2 ^ 53 * 2 ^ (f - 52)) := hU
          _ = 2 ^ 53 * (den * 2 ^ (f - 52)) := by ring
      · have h0 : f - 52 = 0 := by omega
        rw [h0, Nat.pow_zero, Nat.mul_one]
        have h1 : 2 ^ (f + 1) ≤ 2 ^ 53 := Nat.pow_le_pow_right Nat.two_pos (by omega)
        calc N < den * 2 ^ (f + 1) := hU
          _ ≤ den * 2 ^ 53 := Nat.mul_le_mul_left _ h1
          _ = 2 ^ 53 * den := by ring
    · intro hE
      have hf : 0 < f := by omega
      have := hL hf
      have h2 : f = 52 + (f - 52) := by omega
      rw [h2, Nat.pow_add] at this
      calc 2 ^ 52 * (den * 2 ^ (f - 52)) = den * (2 ^ 52 * 2 ^ (f - 52)) := by ring
        _ ≤ N := this
  by_cases hc : den * 2 ^ (a - b) ≤ N
  · rw [if_pos hc]
    apply key
    · by_cases hab : b ≤ a
      · have h1 : a + 1 = b + (a - b + 1) := by omega
        rw [h1, Nat.pow_add] at ha2
        calc N < 2 ^ b * 2 ^ (a - b + 1) := ha2
          _ ≤ den * 2 ^ (a - b + 1) := Nat.mul_le_mul_right _ hb1
      · have h0 : a - b = 0 := by omega
        rw [h0]
        have h1 : 2 ^ (a + 1) ≤ 2 ^ b := Nat.pow_le_pow_right Nat.two_pos (by omega)
        calc N < 2 ^ (a + 1) := ha2
          _ ≤ 2 ^ b := h1
          _ ≤ den := hb1
          _ ≤ den * 2 ^ (0 + 1) := Nat.le_mul_of_pos_right _ (by positivity)
    · intro _
      exact hc
  · rw [if_neg hc]
    have hc' : N < den * 2 ^ (a - b) := Nat.lt_of_not_le hc
    apply key
    · by_cases h1 : 1 ≤ a - b
      · have : a - b - 1 + 1 = a - b := by omega
        rw [this]
        exact hc'
      · have h0 : a - b = 0 := by omega
        rw [h0] at hc' ⊢
        calc N < den * 2 ^ 0 := hc'
          _ ≤ den * 2 ^ (0 - 1 + 1) := Nat.mul_le_mul_left _
              (Nat.pow_le_pow_right Nat.two_pos (by omega))
    · intro hf
      have h2 : a = (b + 1) + (a - b - 1) := by omega
      have h3 : 2 ^ a = 2 ^ (b + 1) * 2 ^ (a - b - 1) := by rw [← Nat.pow_add, ← h2]
      calc den * 2 ^ (a - b - 1) ≤ 2 ^ (b + 1) * 2 ^ (a - b - 1) :=
            Nat.mul_le_mul_right _ hb2.le
        _ = 2 ^ a := h3.symm
        _ ≤ N := ha1

/-- The significand chosen by `roundSig` is the quotient or its successor and is within half a
unit of the exact quotient. -/
theorem roundSig_spec (N d : Nat) (hd : 0 < d) :
    N / d ≤ roundSig N d ∧ roundSig N d ≤ N / d + 1
    ∧ 2 * N ≤ 2 * (roundSig N d * d) + d ∧ 2 * (roundSig N d * d) ≤ 2 * N + d := by
  have h1 := Nat.div_add_mod N d
  have h2 := Nat.mod_lt N hd
  have h3 : d * (N / d) = N / d * d := Nat.mul_comm _ _
  unfold roundSig
  split_ifs with hc
  · refine ⟨by omega, le_refl _, ?_, ?_⟩
    · rw [Nat.add_mul]; omega
    · rw [Nat.add_mul]
      rcases hc with hc | ⟨hc, _⟩ <;> omega
  · refine ⟨le_refl _, by omega, ?_, ?_⟩
    · have : ¬ d < 2 * (N % d) := fun h => hc (Or.inl h)
      omega
    · omega

end B64

/-! ## Binary64: the rounded value against the exact quotient -/

namespace B64

theorem two_pow_53_mul (k : Nat) : 2 ^ 53 * 2 ^ k = 2 ^ 52 * 2 ^ (k + 1) := by
  have h : (2 : Nat) ^ 53 = 2 ^ 52 * 2 := by norm_num
  rw [h, Nat.pow_succ]
  ring

theorem mul_two_pow_mono (c a b : Nat) (h : a ≤ b) : c * 2 ^ a ≤ c * 2 ^ b :=
  Nat.mul_le_mul_left _ (Nat.pow_le_pow_right Nat.two_pos h)

theorem two_pow_53_mul_le (M E k : Nat) (hM : 2 ^ 52 ≤ M) (hk : k + 1 ≤ E) :
    2 ^ 53 * 2 ^ k ≤ M * 2 ^ E :=
  calc 2 ^ 53 * 2 ^ k = 2 ^ 52 * 2 ^ (k + 1) := two_pow_53_mul k
    _ ≤ M * 2 ^ E := Nat.mul_le_mul hM (Nat.pow_le_pow_right Nat.two_pos hk)

/-- What `pack` returns: an infinity, only at or beyond `2^53 · 2^2045`, or a double of the
same magnitude. -/
theorem pack_spec (s : Bool) (M E : Nat) (hM : M ≤ 2 ^ 53) (hE : 0 < E → 2 ^ 52 ≤ M) :
    (pack s M E = inf s ∧ ∀ K, K ≤ 2045 → 2 ^ 53 * 2 ^ K ≤ M * 2 ^ E)
    ∨ ∃ m e, pack s M E = fin s m e ∧ IsDouble (fin s m e) ∧ m * 2 ^ e = M * 2 ^ E := by
  have h52 : (4503599627370496 : Nat) = 2 ^ 52 := by norm_num
  have h53 : (9007199254740992 : Nat) = 2 ^ 53 := by norm_num
  unfold pack
  by_cases h1 : M = 9007199254740992
  · rw [if_pos h1]
    by_cases h2 : 2045 < E + 1
    · rw [if_pos h2]
      left
      refine ⟨rfl, fun K hK => ?_⟩
      rw [h1, h53]
      exact mul_two_pow_mono _ K E (by omega)
    · rw [if_neg h2]
      right
      refine ⟨4503599627370496, E + 1, rfl, Or.inr ⟨le_refl _, by norm_num, by omega⟩, ?_⟩
      rw [h1, h52, h53, Nat.pow_succ]
      ring
  · rw [if_neg h1]
    have hlt : M < 2 ^ 53 := by
      rw [h53] at h1
      omega
    by_cases h2 : 2045 < E
    · rw [if_pos h2]
      left
      exact ⟨rfl, fun K hK => two_pow_53_mul_le M E K (hE (by omega)) (by omega)⟩
    · rw [if_neg h2]
      right
      refine ⟨M, E, rfl, ?_, rfl⟩
      by_cases h0 : E = 0
      · by_cases h4 : M < 4503599627370496
        · exact Or.inl ⟨h4, h0⟩
        · exact Or.inr ⟨by omega, by rw [h53]; exact hlt, by omega⟩
      · have hM52 := hE (by omega)
        exact Or.inr ⟨by rw [h52]; exact hM52, by rw [h53]; exact hlt, by omega⟩

/-- The significand and exponent behind a rounding, with the facts the bounds below use. -/
theorem roundPos_struct (s : Bool) (N den : Nat) (hN : 0 < N) (hd : 0 < den)
    (hNb : N < 2 ^ (64 * 256 + 64)) (hdb : den < 2 ^ (64 * 256 + 64)) :
    ∃ M E, roundPos s N den = pack s M E ∧ M ≤ 2 ^ 53 ∧ (0 < E → 2 ^ 52 ≤ M)
      ∧ N / (den * 2 ^ E) ≤ M
      ∧ 2 * N ≤ 2 * (M * (den * 2 ^ E)) + den * 2 ^ E
      ∧ 2 * (M * (den * 2 ^ E)) ≤ 2 * N + den * 2 ^ E
      ∧ N < 2 ^ 53 * (den * 2 ^ E)
      ∧ (0 < E → 2 ^ 52 * (den * 2 ^ E) ≤ N) := by
  obtain ⟨hU, hL⟩ := roundExp_spec N den hN hd hNb hdb
  have hdpos : 0 < den * 2 ^ roundExp N den := Nat.mul_pos hd (by positivity)
  obtain ⟨h1, h2, h3, h4⟩ := roundSig_spec N (den * 2 ^ roundExp N den) hdpos
  refine ⟨roundSig N (den * 2 ^ roundExp N den), roundExp N den, ?_, ?_, ?_, h1, h3, h4, hU, hL⟩
  · unfold roundPos
    rw [Nat.shiftLeft_eq]
  · have hq : N / (den * 2 ^ roundExp N den) < 2 ^ 53 := by
      rw [Nat.div_lt_iff_lt_mul hdpos]
      exact hU
    omega
  · intro hE
    have hq : 2 ^ 52 ≤ N / (den * 2 ^ roundExp N den) := by
      rw [Nat.le_div_iff_mul_le hdpos]
      exact hL hE
    omega

/-- Rounding does not go below a representable lower bound. -/
theorem round_lower_core (N den M E mv ev : Nat) (hd : 0 < den) (hmv : mv < 2 ^ 53)
    (hE : 0 < E → 2 ^ 52 ≤ M) (hq : N / (den * 2 ^ E) ≤ M)
    (h : mv * 2 ^ ev * den ≤ N) :
    mv * 2 ^ ev ≤ M * 2 ^ E := by
  by_cases hc : E ≤ ev
  · have hev : ev = (ev - E) + E := by omega
    have hdpos : 0 < den * 2 ^ E := Nat.mul_pos hd (by positivity)
    have h1 : mv * 2 ^ (ev - E) * (den * 2 ^ E) ≤ N := by
      calc mv * 2 ^ (ev - E) * (den * 2 ^ E) = mv * (2 ^ (ev - E) * 2 ^ E) * den := by ring
        _ = mv * 2 ^ ev * den := by rw [← Nat.pow_add, ← hev]
        _ ≤ N := h
    have h2 : mv * 2 ^ (ev - E) ≤ M :=
      le_trans ((Nat.le_div_iff_mul_le hdpos).mpr h1) hq
    calc mv * 2 ^ ev = mv * (2 ^ (ev - E) * 2 ^ E) := by rw [← Nat.pow_add, ← hev]
      _ = mv * 2 ^ (ev - E) * 2 ^ E := by ring
      _ ≤ M * 2 ^ E := Nat.mul_le_mul_right _ h2
  · exact le_trans (Nat.mul_le_mul_right _ hmv.le)
      (two_pow_53_mul_le M E ev (hE (by omega)) (by omega))

/-- Rounding does not go above a representable upper bound. -/
theorem round_upper_core (N den M E mv ev : Nat) (hd : 0 < den) (hmv : mv < 2 ^ 53)
    (hr : 2 * (M * (den * 2 ^ E)) ≤ 2 * N + den * 2 ^ E)
    (hL : 0 < E → 2 ^ 52 * (den * 2 ^ E) ≤ N)
    (h : N ≤ mv * 2 ^ ev * den) :
    M * 2 ^ E ≤ mv * 2 ^ ev := by
  have hdpos : 0 < den * 2 ^ E := Nat.mul_pos hd (by positivity)
  by_cases hc : E ≤ ev
  · have hev : ev = (ev - E) + E := by omega
    have h1 : N ≤ mv * 2 ^ (ev - E) * (den * 2 ^ E) := by
      calc N ≤ mv * 2 ^ ev * den := h
        _ = mv * (2 ^ (ev - E) * 2 ^ E) * den := by rw [← Nat.pow_add, ← hev]
        _ = mv * 2 ^ (ev - E) * (den * 2 ^ E) := by ring
    have h2 : M ≤ mv * 2 ^ (ev - E) := by
      by_contra hlt
      have h3 : mv * 2 ^ (ev - E) + 1 ≤ M := by omega
      have h4 : (mv * 2 ^ (ev - E) + 1) * (den * 2 ^ E) ≤ M * (den * 2 ^ E) :=
        Nat.mul_le_mul_right _ h3
      rw [Nat.add_mul, Nat.one_mul] at h4
      omega
    calc M * 2 ^ E ≤ mv * 2 ^ (ev - E) * 2 ^ E := Nat.mul_le_mul_right _ h2
      _ = mv * (2 ^ (ev - E) * 2 ^ E) := by ring
      _ = mv * 2 ^ ev := by rw [← Nat.pow_add, ← hev]
  · exfalso
    have h1 := hL (by omega)
    have h2 : 2 ^ (ev + 1) ≤ 2 ^ E := Nat.pow_le_pow_right Nat.two_pos (by omega)
    have h3 : mv * 2 ^ ev * den < 2 ^ 52 * (den * 2 ^ E) := by
      calc mv * 2 ^ ev * den < 2 ^ 53 * 2 ^ ev * den :=
            Nat.mul_lt_mul_of_pos_right (Nat.mul_lt_mul_of_pos_right hmv (by positivity)) hd
        _ = 2 ^ 52 * (den * 2 ^ (ev + 1)) := by
            rw [two_pow_53_mul]
            ring
        _ ≤ 2 ^ 52 * (den * 2 ^ E) :=
            Nat.mul_le_mul_left _ (Nat.mul_le_mul_left _ h2)
    omega

/-- Rounding a number above the midpoint below a representable `mv · 2^ev` (with
`mv > 2^52`) gives at least `mv · 2^ev`. -/
theorem round_half_core (N den M E mv ev : Nat) (hmv : mv < 2 ^ 53)
    (hmv2 : 2 ^ 52 < mv) (hE : 0 < E → 2 ^ 52 ≤ M)
    (hr : 2 * N ≤ 2 * (M * (den * 2 ^ E)) + den * 2 ^ E)
    (hU : N < 2 ^ 53 * (den * 2 ^ E))
    (h : (2 * mv - 1) * 2 ^ ev * den < 2 * N) :
    mv * 2 ^ ev ≤ M * 2 ^ E := by
  rcases Nat.lt_trichotomy E ev with hlt | heq | hgt
  · exfalso
    have h2 : 2 ^ (E + 1) ≤ 2 ^ ev := Nat.pow_le_pow_right Nat.two_pos (by omega)
    have h3 : 2 ^ 53 ≤ 2 * mv - 1 := by
      have : (2 : Nat) ^ 53 = 2 * 2 ^ 52 := by norm_num
      omega
    have h4 : 2 * (2 ^ 53 * (den * 2 ^ E)) ≤ (2 * mv - 1) * 2 ^ ev * den := by
      calc 2 * (2 ^ 53 * (den * 2 ^ E)) = 2 ^ 53 * (2 ^ E * 2) * den := by ring
        _ = 2 ^ 53 * 2 ^ (E + 1) * den := by rw [← Nat.pow_succ]
        _ ≤ (2 * mv - 1) * 2 ^ ev * den :=
            Nat.mul_le_mul_right _ (Nat.mul_le_mul h3 h2)
    omega
  · subst heq
    by_contra hlt
    have h1 : M + 1 ≤ mv := by
      by_contra h0
      exact hlt (Nat.mul_le_mul_right _ (by omega))
    have h2 : 2 * M + 1 ≤ 2 * mv - 1 := by omega
    have h3 : (2 * M + 1) * (den * 2 ^ E) ≤ (2 * mv - 1) * (den * 2 ^ E) :=
      Nat.mul_le_mul_right _ h2
    have h4 : (2 * M + 1) * (den * 2 ^ E) = 2 * (M * (den * 2 ^ E)) + den * 2 ^ E := by ring
    have h5 : (2 * mv - 1) * (den * 2 ^ E) = (2 * mv - 1) * 2 ^ E * den := by ring
    omega
  · exact le_trans (Nat.mul_le_mul_right _ hmv.le)
      (two_pow_53_mul_le M E ev (hE (by omega)) (by omega))

end B64

/-! ## Binary64: lower bounds through sums and squares -/

namespace B64

theorem lt_two_pow_of_le (x c B : Nat) (h : x < 2 ^ c) (hc : c ≤ B) : x < 2 ^ B :=
  lt_of_lt_of_le h (Nat.pow_le_pow_right Nat.two_pos hc)

theorem two_pow_lt_two_pow (a B : Nat) (h : a < B) : 2 ^ a < 2 ^ B :=
  Nat.pow_lt_pow_right (by norm_num) h

theorem one_lt_two_pow_bound (B : Nat) (h : 0 < B) : 1 < 2 ^ B :=
  Nat.one_lt_two_pow (by omega)

theorem mul_mag_lt (m1 m2 e1 e2 k : Nat) (h1 : m1 < 2 ^ 53) (h2 : m2 < 2 ^ 53) (he1 : e1 ≤ k)
    (he2 : e2 ≤ k) : m1 * m2 * 2 ^ (e1 + e2) < 2 ^ (53 + 53 + (k + k)) := by
  rw [Nat.pow_add 2 (53 + 53), Nat.pow_add 2 53 53]
  exact Nat.mul_lt_mul_of_lt_of_le (Nat.mul_lt_mul'' h1 h2)
    (Nat.pow_le_pow_right Nat.two_pos (by omega)) (by positivity)

theorem isDouble_bounds {s : Bool} {m e : Nat} (h : IsDouble (fin s m e)) :
    m < 2 ^ 53 ∧ e ≤ 2045 := by
  have h52 : (4503599627370496 : Nat) = 2 ^ 52 := by norm_num
  have h53 : (9007199254740992 : Nat) = 2 ^ 53 := by norm_num
  rcases h with ⟨h1, h2⟩ | ⟨_, h2, h3⟩
  · constructor
    · have : (2 : Nat) ^ 52 < 2 ^ 53 := by norm_num
      omega
    · omega
  · exact ⟨h53 ▸ h2, h3⟩

/-- The magnitude of a double is below `2^(53 + 2045)`. -/
theorem mag_lt {s : Bool} {m e : Nat} (h : IsDouble (fin s m e)) (k : Nat) (hk : 2045 ≤ k) :
    m * 2 ^ e < 2 ^ (53 + k) := by
  obtain ⟨h1, h2⟩ := isDouble_bounds h
  rw [Nat.pow_add]
  exact Nat.mul_lt_mul_of_lt_of_le h1 (Nat.pow_le_pow_right Nat.two_pos (by omega))
    (by positivity)

theorem atLeast_mono {a b : Nat} {v : B64} (h : AtLeast a v) (hab : b ≤ a) : AtLeast b v := by
  cases v with
  | nan => exact h
  | inf s => cases s <;> exact h
  | fin s m e =>
    cases s with
    | true => exact h
    | false => exact ⟨h.1, le_trans hab h.2⟩

/-- A rounding of a positive quotient with the sign bit clear is at least every representable
lower bound of the quotient. -/
theorem roundPos_atLeast (N den mv ev : Nat) (hN : 0 < N) (hd : 0 < den)
    (hNb : N < 2 ^ (64 * 256 + 64)) (hdb : den < 2 ^ (64 * 256 + 64)) (hmv : mv < 2 ^ 53)
    (h : mv * 2 ^ ev * den ≤ N) :
    AtLeast (mv * 2 ^ ev) (roundPos false N den) := by
  obtain ⟨M, E, hr, hM, hE, hq, _, _, _, _⟩ := roundPos_struct false N den hN hd hNb hdb
  have hlow := round_lower_core N den M E mv ev hd hmv hE hq h
  rw [hr]
  rcases pack_spec false M E hM hE with ⟨hp, _⟩ | ⟨m, e, hp, hdbl, hval⟩
  · rw [hp]
    trivial
  · rw [hp]
    exact ⟨hdbl, hval ▸ hlow⟩

/-- A rounding of a positive quotient is a double. -/
theorem roundPos_atLeast_zero (N den : Nat) (hN : 0 < N) (hd : 0 < den)
    (hNb : N < 2 ^ (64 * 256 + 64)) (hdb : den < 2 ^ (64 * 256 + 64)) :
    AtLeast 0 (roundPos false N den) := by
  have h := roundPos_atLeast N den 0 0 hN hd hNb hdb (by positivity) (by simp)
  simpa using h

theorem roundPos_shift_atLeast_zero (N c : Nat) (hN : 0 < N)
    (hNb : N < 2 ^ (64 * 256 + 64)) (hc : c < 64 * 256 + 64) :
    AtLeast 0 (roundPos false N (1 <<< c)) := by
  rw [Nat.one_shiftLeft]
  exact roundPos_atLeast_zero N (2 ^ c) hN (Nat.two_pow_pos c) hNb (two_pow_lt_two_pow c _ hc)

/-- A sum of doubles that are not negative is at least the left summand. -/
theorem add_atLeast_left (a b : Nat) (u v : B64) (hu : AtLeast a u) (hv : AtLeast b v) :
    AtLeast a (add u v) := by
  cases u with
  | nan => exact absurd hu id
  | inf s1 =>
    cases s1 with
    | true => exact absurd hu id
    | false =>
      cases v with
      | nan => exact absurd hv id
      | inf s2 =>
        cases s2 with
        | true => exact absurd hv id
        | false => trivial
      | fin s2 m2 e2 => trivial
  | fin s1 m1 e1 =>
    cases s1 with
    | true => exact absurd hu id
    | false =>
      cases v with
      | nan => exact absurd hv id
      | inf s2 =>
        cases s2 with
        | true => exact absurd hv id
        | false => trivial
      | fin s2 m2 e2 =>
        cases s2 with
        | true => exact absurd hv id
        | false =>
          obtain ⟨hd1, hl1⟩ := hu
          obtain ⟨hd2, _⟩ := hv
          rw [add_fin_fin, if_pos rfl, Nat.shiftLeft_eq, Nat.shiftLeft_eq]
          by_cases h0 : m1 * 2 ^ e1 + m2 * 2 ^ e2 = 0
          · rw [if_pos h0]
            exact ⟨Or.inl ⟨by norm_num, rfl⟩, by omega⟩
          · rw [if_neg h0]
            have hb1 := mag_lt hd1 2045 (le_refl _)
            have hb2 := mag_lt hd2 2045 (le_refl _)
            have hsum : m1 * 2 ^ e1 + m2 * 2 ^ e2 < 2 ^ (53 + 2045 + 1) := by
              rw [Nat.pow_succ]
              omega
            have hr := roundPos_atLeast (m1 * 2 ^ e1 + m2 * 2 ^ e2) 1 m1 e1
              (Nat.pos_of_ne_zero h0) Nat.one_pos
              (lt_two_pow_of_le _ _ _ hsum (by omega))
              (one_lt_two_pow_bound _ (by omega)) (isDouble_bounds hd1).1 (by omega)
            exact atLeast_mono hr hl1

/-- A sum of doubles that are not negative is at least the right summand. -/
theorem add_atLeast_right (a b : Nat) (u v : B64) (hu : AtLeast a u) (hv : AtLeast b v) :
    AtLeast b (add u v) := by
  rw [add_comm_eq]
  exact add_atLeast_left b a v u hv hu

/-- The square of a finite double is a double that is not negative. -/
theorem mul_self_atLeast_zero (s : Bool) (m e : Nat) (h : IsDouble (fin s m e)) :
    AtLeast 0 (mul (fin s m e) (fin s m e)) := by
  rw [mul_fin_fin]
  have hx : xor s s = false := by cases s <;> rfl
  rw [hx]
  by_cases h0 : m * m = 0
  · rw [if_pos h0]
    exact ⟨Or.inl ⟨by norm_num, rfl⟩, Nat.zero_le _⟩
  · rw [if_neg h0, Nat.shiftLeft_eq]
    obtain ⟨hm, he⟩ := isDouble_bounds h
    have hN := mul_mag_lt m m e e 2045 hm hm he he
    exact roundPos_shift_atLeast_zero (m * m * 2 ^ (e + e)) 1074
      (Nat.mul_pos (Nat.pos_of_ne_zero h0) (Nat.two_pow_pos (e + e)))
      (lt_two_pow_of_le _ _ _ hN (by omega)) (by omega)

end B64

/-! ## Binary64: the integer square root, and magnitudes up to 1 -/

namespace B64

theorem isqrtAux_spec : ∀ (i n r : Nat), r * r ≤ n → n < (r + 2 ^ i) * (r + 2 ^ i) →
    isqrtAux i n r * isqrtAux i n r ≤ n ∧ n < (isqrtAux i n r + 1) * (isqrtAux i n r + 1)
  | 0, n, r, h1, h2 => by
    simp only [Nat.pow_zero] at h2
    exact ⟨h1, h2⟩
  | i + 1, n, r, h1, h2 => by
    simp only [isqrtAux, Nat.one_shiftLeft]
    by_cases hc : (r + 2 ^ i) * (r + 2 ^ i) ≤ n
    · rw [if_pos hc]
      apply isqrtAux_spec i n (r + 2 ^ i) hc
      have : r + 2 ^ i + 2 ^ i = r + 2 ^ (i + 1) := by rw [Nat.pow_succ]; ring
      rw [this]
      exact h2
    · rw [if_neg hc]
      exact isqrtAux_spec i n r h1 (Nat.lt_of_not_le hc)

/-- The integer square root, for `0 < n < 2^16448`. -/
theorem isqrt_spec (n : Nat) (h0 : 0 < n) (hb : n < 2 ^ (64 * 256 + 64)) :
    isqrt n * isqrt n ≤ n ∧ n < (isqrt n + 1) * (isqrt n + 1) := by
  obtain ⟨_, h2⟩ := ilog2_spec n h0 hb
  unfold isqrt
  apply isqrtAux_spec _ n 0 (Nat.zero_le _)
  rw [Nat.zero_add, ← Nat.pow_add]
  exact lt_of_lt_of_le h2 (Nat.pow_le_pow_right Nat.two_pos (by omega))

theorem le_isqrt (n v : Nat) (h0 : 0 < n) (hb : n < 2 ^ (64 * 256 + 64)) (h : v * v ≤ n) :
    v ≤ isqrt n := by
  obtain ⟨_, h2⟩ := isqrt_spec n h0 hb
  by_contra hlt
  have h3 : isqrt n + 1 ≤ v := by omega
  have h4 := Nat.mul_le_mul h3 h3
  omega

theorem isqrt_le_self (n : Nat) (h0 : 0 < n) (hb : n < 2 ^ (64 * 256 + 64)) : isqrt n ≤ n := by
  obtain ⟨h1, _⟩ := isqrt_spec n h0 hb
  by_cases hz : isqrt n = 0
  · omega
  · exact le_trans (Nat.le_mul_self _) h1

/-- A rounding of a quotient above the midpoint below `mv · 2^ev` is at least `mv · 2^ev`. -/
theorem roundPos_atLeast_half (N den mv ev : Nat) (hN : 0 < N) (hd : 0 < den)
    (hNb : N < 2 ^ (64 * 256 + 64)) (hdb : den < 2 ^ (64 * 256 + 64)) (hmv : mv < 2 ^ 53)
    (hmv2 : 2 ^ 52 < mv) (h : (2 * mv - 1) * 2 ^ ev * den < 2 * N) :
    AtLeast (mv * 2 ^ ev) (roundPos false N den) := by
  obtain ⟨M, E, hr, hM, hE, _, hr1, _, hU, _⟩ := roundPos_struct false N den hN hd hNb hdb
  have hlow := round_half_core N den M E mv ev hmv hmv2 hE hr1 hU h
  rw [hr]
  rcases pack_spec false M E hM hE with ⟨hp, _⟩ | ⟨m, e, hp, hdbl, hval⟩
  · rw [hp]
    trivial
  · rw [hp]
    exact ⟨hdbl, hval ▸ hlow⟩

theorem inUnit_fin (s : Bool) (m e k : Nat) (hk : k = 1074) (h : m * 2 ^ e ≤ 2 ^ k) :
    inUnit (fin s m e) = true := by
  unfold inUnit
  rw [decide_eq_true_eq, ← hk, Nat.shiftLeft_eq, Nat.one_shiftLeft]
  exact h

/-- A rounding of a quotient that is at most `2^k` (a double) is at most `2^k`. -/
theorem roundPos_le_two_pow (s : Bool) (N den k : Nat) (hN : 0 < N) (hd : 0 < den)
    (hNb : N < 2 ^ (64 * 256 + 64)) (hdb : den < 2 ^ (64 * 256 + 64))
    (hk1 : 52 ≤ k) (hk2 : k ≤ 52 + 2045) (h : N ≤ 2 ^ k * den) :
    ∃ m e, roundPos s N den = fin s m e ∧ IsDouble (fin s m e) ∧ m * 2 ^ e ≤ 2 ^ k := by
  obtain ⟨M, E, hr, hM, hE, _, _, hr2, _, hL⟩ := roundPos_struct s N den hN hd hNb hdb
  have hk : 2 ^ k = 2 ^ 52 * 2 ^ (k - 52) := by
    have hexp : 52 + (k - 52) = k := by omega
    rw [← Nat.pow_add, hexp]
  rw [hk] at h
  have hup := round_upper_core N den M E (2 ^ 52) (k - 52) hd (by norm_num) hr2 hL h
  rw [hr]
  rcases pack_spec s M E hM hE with ⟨_, hbig⟩ | ⟨m, e, hp, hdbl, hval⟩
  · exfalso
    have h1 := hbig (k - 52) (by omega)
    have h2 : 2 ^ 52 * 2 ^ (k - 52) < 2 ^ 53 * 2 ^ (k - 52) :=
      Nat.mul_lt_mul_of_pos_right (by norm_num) (Nat.two_pow_pos _)
    omega
  · exact ⟨m, e, hp, hdbl, by rw [hk, hval]; exact hup⟩

end B64

/-! ## Binary64: the square root -/

namespace B64

theorem sqrt_fin_eq (s : Bool) (m e : Nat) :
    sqrt (fin s m e)
      = if m = 0 then fin s 0 0
        else if s = true then nan
        else roundPos false
          (2 * isqrt (m <<< (e + 1074))
            + (if isqrt (m <<< (e + 1074)) * isqrt (m <<< (e + 1074)) = m <<< (e + 1074)
                then 0 else 1))
          2 := rfl

/-- The radicand handed to `isqrt` by `sqrt`, with its bounds. -/
theorem sqrt_radicand (m e k : Nat) (hk : k = 1074) (hd : IsDouble (fin false m e))
    (hm : m ≠ 0) :
    m <<< (e + k) = m * 2 ^ e * 2 ^ k ∧ 0 < m <<< (e + k)
    ∧ m <<< (e + k) < 2 ^ (64 * 256 + 64) := by
  have h1 : m <<< (e + k) = m * 2 ^ e * 2 ^ k := by
    rw [Nat.shiftLeft_eq, Nat.pow_add, Nat.mul_assoc]
  obtain ⟨hb1, hb2⟩ := isDouble_bounds hd
  refine ⟨h1, ?_, ?_⟩
  · rw [h1]
    exact Nat.mul_pos (Nat.mul_pos (Nat.pos_of_ne_zero hm) (Nat.two_pow_pos _))
      (Nat.two_pow_pos _)
  · rw [Nat.shiftLeft_eq]
    have h2 : m * 2 ^ (e + k) < 2 ^ (53 + (e + k)) := by
      rw [Nat.pow_add 2 53]
      exact Nat.mul_lt_mul_of_pos_right hb1 (Nat.two_pow_pos _)
    exact lt_two_pow_of_le _ _ _ h2 (by omega)

/-- The numerator handed to `roundPos` by `sqrt`, with its bounds. -/
theorem sqrt_numerator (n B : Nat) (h0 : 0 < n) (hb : n < 2 ^ B)
    (hB : B + 2 ≤ 64 * 256 + 64) :
    0 < 2 * isqrt n + (if isqrt n * isqrt n = n then 0 else 1)
    ∧ 2 * isqrt n + (if isqrt n * isqrt n = n then 0 else 1) < 2 ^ (64 * 256 + 64) := by
  have hb' : n < 2 ^ (64 * 256 + 64) := lt_two_pow_of_le _ _ _ hb (by omega)
  have h1 : 1 ≤ isqrt n := le_isqrt n 1 h0 hb' (by omega)
  have h2 := isqrt_le_self n h0 hb'
  constructor
  · omega
  · have h3 : 2 * isqrt n + (if isqrt n * isqrt n = n then 0 else 1) < 4 * n := by
      split_ifs <;> omega
    have h4 : 4 * n < 2 ^ (B + 2) := by
      rw [Nat.pow_add]
      have : (2 : Nat) ^ 2 = 4 := by norm_num
      omega
    exact lt_two_pow_of_le _ _ _ (lt_trans h3 h4) hB

theorem sqrt_radicand_small (m e k : Nat) (hk : k = 1074) (hd : IsDouble (fin false m e)) :
    m <<< (e + k) < 2 ^ (53 + (2045 + 1074)) := by
  obtain ⟨hb1, hb2⟩ := isDouble_bounds hd
  rw [Nat.shiftLeft_eq]
  have h2 : m * 2 ^ (e + k) < 2 ^ (53 + (e + k)) := by
    rw [Nat.pow_add 2 53]
    exact Nat.mul_lt_mul_of_pos_right hb1 (Nat.two_pow_pos _)
  exact lt_two_pow_of_le _ _ _ h2 (by omega)

/-- The square root is at least every representable number whose square is at most the
radicand. -/
theorem sqrt_atLeast (lb mv ev k : Nat) (S : B64) (hk : k = 1074) (hS : AtLeast lb S)
    (hmv : mv < 2 ^ 53) (h : mv * 2 ^ ev * (mv * 2 ^ ev) ≤ lb * 2 ^ k) :
    AtLeast (mv * 2 ^ ev) (sqrt S) := by
  cases S with
  | nan => exact absurd hS id
  | inf s =>
    cases s with
    | true => exact absurd hS id
    | false => trivial
  | fin s m e =>
    cases s with
    | true => exact absurd hS id
    | false =>
      obtain ⟨hd, hl⟩ := hS
      rw [sqrt_fin_eq]
      by_cases hm : m = 0
      · rw [if_pos hm]
        refine ⟨Or.inl ⟨by norm_num, rfl⟩, ?_⟩
        rw [hm, Nat.zero_mul] at hl
        have hl0 : lb = 0 := by omega
        rw [hl0, Nat.zero_mul] at h
        have : mv * 2 ^ ev = 0 := by
          by_contra hne
          have := Nat.mul_pos (Nat.pos_of_ne_zero hne) (Nat.pos_of_ne_zero hne)
          omega
        omega
      · rw [if_neg hm, if_neg (by simp), ← hk]
        obtain ⟨hn1, hn2, hn3⟩ := sqrt_radicand m e k hk hd hm
        obtain ⟨hN1, hN2⟩ := sqrt_numerator _ _ hn2 (sqrt_radicand_small m e k hk hd) (by omega)
        have hv : mv * 2 ^ ev ≤ isqrt (m <<< (e + k)) := by
          apply le_isqrt _ _ hn2 hn3
          rw [hn1]
          exact le_trans h (Nat.mul_le_mul_right _ hl)
        apply roundPos_atLeast _ 2 mv ev hN1 (by norm_num) hN2
          (lt_two_pow_of_le 2 2 _ (by norm_num) (by omega)) hmv
        omega

/-- The square root is at least a representable `mv · 2^ev` as soon as the radicand exceeds
the square of the midpoint below it. -/
theorem sqrt_atLeast_half (lb mv ev k : Nat) (S : B64) (hk : k = 1074) (hS : AtLeast lb S)
    (hmv : mv < 2 ^ 53) (hmv2 : 2 ^ 52 < mv) (hev : 1 ≤ ev)
    (h : (2 * mv - 1) * 2 ^ (ev - 1) * ((2 * mv - 1) * 2 ^ (ev - 1)) < lb * 2 ^ k) :
    AtLeast (mv * 2 ^ ev) (sqrt S) := by
  cases S with
  | nan => exact absurd hS id
  | inf s =>
    cases s with
    | true => exact absurd hS id
    | false => trivial
  | fin s m e =>
    cases s with
    | true => exact absurd hS id
    | false =>
      obtain ⟨hd, hl⟩ := hS
      rw [sqrt_fin_eq]
      by_cases hm : m = 0
      · exfalso
        rw [hm, Nat.zero_mul] at hl
        have hl0 : lb = 0 := by omega
        rw [hl0, Nat.zero_mul] at h
        omega
      · rw [if_neg hm, if_neg (by simp), ← hk]
        obtain ⟨hn1, hn2, hn3⟩ := sqrt_radicand m e k hk hd hm
        obtain ⟨hN1, hN2⟩ := sqrt_numerator _ _ hn2 (sqrt_radicand_small m e k hk hd) (by omega)
        have hlt : (2 * mv - 1) * 2 ^ (ev - 1) * ((2 * mv - 1) * 2 ^ (ev - 1))
            < m <<< (e + k) := by
          rw [hn1]
          exact lt_of_lt_of_le h (Nat.mul_le_mul_right _ hl)
        have hw : (2 * mv - 1) * 2 ^ (ev - 1) ≤ isqrt (m <<< (e + k)) :=
          le_isqrt _ _ hn2 hn3 hlt.le
        have h2w : (2 * mv - 1) * 2 ^ ev = 2 * ((2 * mv - 1) * 2 ^ (ev - 1)) := by
          have : ev = (ev - 1) + 1 := by omega
          rw [this, Nat.pow_succ]
          simp only [Nat.add_sub_cancel]
          ring
        apply roundPos_atLeast_half _ 2 mv ev hN1 (by norm_num) hN2
          (lt_two_pow_of_le 2 2 _ (by norm_num) (by omega)) hmv hmv2
        rw [h2w]
        generalize (2 * mv - 1) * 2 ^ (ev - 1) = w at hlt hw ⊢
        generalize m <<< (e + k) = n at hlt hw ⊢
        by_cases heq : isqrt n * isqrt n = n
        · rw [if_pos heq]
          have : w ≠ isqrt n := by
            intro hc
            rw [hc] at hlt
            omega
          omega
        · rw [if_neg heq]
          omega

end B64

/-! ## Binary64: the square root of a sum of squares -/

namespace B64

/-- The square of a normal double of magnitude at least `2^(-511)`, as `mul` computes it. -/
theorem mul_self_eq (s : Bool) (m e k : Nat) (hk : k = 1074) (hm : m ≠ 0) :
    mul (fin s m e) (fin s m e) = roundPos false (m * m * 2 ^ (e + e)) (2 ^ k) := by
  have hx : xor s s = false := by cases s <;> rfl
  have hmm : m * m ≠ 0 := Nat.mul_ne_zero hm hm
  rw [mul_fin_fin, if_neg hmm, hx, ← hk, Nat.shiftLeft_eq, Nat.one_shiftLeft]

/-- The arithmetic behind `sqrt (x · x) ≥ |x|`: the rounding error of the square is less than
the gap between `x²` and the square of the midpoint below `x`. -/
theorem sq_midpoint_lt (m M d T : Nat) (hm1 : 2 ^ 52 < m)
    (hr : 2 * (m * m * (4 * T)) ≤ 2 * (M * d) + d) (hd : d < (8 * m - 2) * T) :
    (2 * m - 1) * (2 * m - 1) * T < M * d := by
  have h1 : (2 * m - 1) * (2 * m - 1) + (4 * m - 1) = 4 * (m * m) := by
    obtain ⟨u, hu⟩ : ∃ u, m = u + 1 := ⟨m - 1, by omega⟩
    subst hu
    have e1 : 2 * (u + 1) - 1 = 2 * u + 1 := by omega
    have e2 : 4 * (u + 1) - 1 = 4 * u + 3 := by omega
    rw [e1, e2]
    ring
  have h2 : 2 * ((2 * m - 1) * (2 * m - 1) * T) + (8 * m - 2) * T = 2 * (m * m * (4 * T)) := by
    have e3 : 8 * m - 2 = 2 * (4 * m - 1) := by omega
    rw [e3]
    calc 2 * ((2 * m - 1) * (2 * m - 1) * T) + 2 * (4 * m - 1) * T
        = 2 * (((2 * m - 1) * (2 * m - 1) + (4 * m - 1)) * T) := by ring
      _ = 2 * (4 * (m * m) * T) := by rw [h1]
      _ = 2 * (m * m * (4 * T)) := by ring
  omega

/-- The square root of anything at least `x · x` is at least `|x|`, for a normal double `x`
of magnitude at least `2^(-511)`. -/
theorem sqrt_mul_self_atLeast (s : Bool) (m e : Nat) (S : B64) (hx : IsDouble (fin s m e))
    (hm : 2 ^ 52 ≤ m) (he : 511 ≤ e)
    (hS : ∀ lb, AtLeast lb (mul (fin s m e) (fin s m e)) → AtLeast lb S) :
    AtLeast (m * 2 ^ e) (sqrt S) := by
  obtain ⟨k, hk⟩ : ∃ k, k = 1074 := ⟨_, rfl⟩
  obtain ⟨hb1, hb2⟩ := isDouble_bounds hx
  have hm0 : m ≠ 0 := by
    have : 0 < 2 ^ 52 := Nat.two_pow_pos 52
    omega
  have hmul := mul_self_eq s m e k hk hm0
  have hNpos : 0 < m * m * 2 ^ (e + e) :=
    Nat.mul_pos (Nat.mul_pos (Nat.pos_of_ne_zero hm0) (Nat.pos_of_ne_zero hm0))
      (Nat.two_pow_pos _)
  have hNb : m * m * 2 ^ (e + e) < 2 ^ (64 * 256 + 64) :=
    lt_two_pow_of_le _ _ _ (mul_mag_lt m m e e 2045 hb1 hb1 hb2 hb2) (by omega)
  have hdb : 2 ^ k < 2 ^ (64 * 256 + 64) := two_pow_lt_two_pow k _ (by omega)
  by_cases hm2 : m = 2 ^ 52
  · -- the square is exact
    have hpow : 2 ^ (e + e - 1022) * 2 ^ k = 2 ^ 52 * 2 ^ (e + e) := by
      have hexp : e + e - 1022 + k = 52 + (e + e) := by omega
      rw [← Nat.pow_add, ← Nat.pow_add, hexp]
    have h1 : AtLeast (2 ^ 52 * 2 ^ (e + e - 1022)) (mul (fin s m e) (fin s m e)) := by
      rw [hmul]
      apply roundPos_atLeast _ _ (2 ^ 52) (e + e - 1022) hNpos (Nat.two_pow_pos k) hNb hdb
        (by norm_num)
      rw [Nat.mul_assoc, hpow, hm2, Nat.mul_assoc]
    have h2 := hS _ h1
    apply sqrt_atLeast _ m e k S hk h2 hb1
    rw [Nat.mul_assoc (2 ^ 52), hpow, hm2]
    apply le_of_eq
    rw [Nat.pow_add]
    ring
  · have hm1 : 2 ^ 52 < m := lt_of_le_of_ne hm (Ne.symm hm2)
    obtain ⟨M, E, hr, hM, hE, _, hr1, _, _, hL⟩ :=
      roundPos_struct false (m * m * 2 ^ (e + e)) (2 ^ k) hNpos (Nat.two_pow_pos k) hNb hdb
    have h2e : 2 ^ e = 2 * 2 ^ (e - 1) := by
      have : e = (e - 1) + 1 := by omega
      rw [this, Nat.pow_succ]
      simp only [Nat.add_sub_cancel]
      ring
    have hT : 0 < 2 ^ (e - 1) * 2 ^ (e - 1) := Nat.mul_pos (Nat.two_pow_pos _) (Nat.two_pow_pos _)
    have hee : 2 ^ (e + e) = 4 * (2 ^ (e - 1) * 2 ^ (e - 1)) := by
      rw [Nat.pow_add, h2e]
      ring
    have hw : (2 * m - 1) * 2 ^ (e - 1) * ((2 * m - 1) * 2 ^ (e - 1))
        = (2 * m - 1) * (2 * m - 1) * (2 ^ (e - 1) * 2 ^ (e - 1)) := by ring
    rcases pack_spec false M E hM hE with ⟨hp, _⟩ | ⟨m1, e1, hp, hdbl, hval⟩
    · -- the square overflows
      have h1 : AtLeast ((2 * m - 1) * 2 ^ (e - 1) * ((2 * m - 1) * 2 ^ (e - 1)) + 1)
          (mul (fin s m e) (fin s m e)) := by
        rw [hmul, hr, hp]
        trivial
      have h2 := hS _ h1
      apply sqrt_atLeast_half _ m e k S hk h2 hb1 hm1 (by omega)
      have : 1 ≤ 2 ^ k := Nat.two_pow_pos k
      calc (2 * m - 1) * 2 ^ (e - 1) * ((2 * m - 1) * 2 ^ (e - 1))
          < ((2 * m - 1) * 2 ^ (e - 1) * ((2 * m - 1) * 2 ^ (e - 1)) + 1) * 1 := by omega
        _ ≤ ((2 * m - 1) * 2 ^ (e - 1) * ((2 * m - 1) * 2 ^ (e - 1)) + 1) * 2 ^ k :=
            Nat.mul_le_mul_left _ this
    · have h1 : AtLeast (m1 * 2 ^ e1) (mul (fin s m e) (fin s m e)) := by
        rw [hmul, hr, hp]
        exact ⟨hdbl, le_refl _⟩
      have h2 := hS _ h1
      apply sqrt_atLeast_half _ m e k S hk h2 hb1 hm1 (by omega)
      rw [hw, hval]
      have hd1 : 2 ^ k * 2 ^ E < (8 * m - 2) * (2 ^ (e - 1) * 2 ^ (e - 1)) := by
        by_cases hE0 : E = 0
        · rw [hE0, Nat.pow_zero, Nat.mul_one]
          have h3 : 2 ^ k ≤ 2 ^ (55 + ((e - 1) + (e - 1))) :=
            Nat.pow_le_pow_right Nat.two_pos (by omega)
          have h4 : 2 ^ (55 + ((e - 1) + (e - 1))) = 2 ^ 55 * (2 ^ (e - 1) * 2 ^ (e - 1)) := by
            rw [Nat.pow_add, Nat.pow_add]
          have h5 : 2 ^ 55 < 8 * m - 2 := by
            have : (2 : Nat) ^ 55 = 8 * 2 ^ 52 := by norm_num
            omega
          calc 2 ^ k ≤ 2 ^ 55 * (2 ^ (e - 1) * 2 ^ (e - 1)) := h4 ▸ h3
            _ < (8 * m - 2) * (2 ^ (e - 1) * 2 ^ (e - 1)) := Nat.mul_lt_mul_of_pos_right h5 hT
        · have h3 := hL (by omega)
          rw [hee] at h3
          by_contra hcon
          have h4 : (8 * m - 2) * (2 ^ (e - 1) * 2 ^ (e - 1)) ≤ 2 ^ k * 2 ^ E :=
            Nat.le_of_not_lt hcon
          have h5 : 2 ^ 52 * ((8 * m - 2) * (2 ^ (e - 1) * 2 ^ (e - 1)))
              ≤ m * m * (4 * (2 ^ (e - 1) * 2 ^ (e - 1))) :=
            le_trans (Nat.mul_le_mul_left _ h4) h3
          have h6 : 2 ^ 52 * (8 * m - 2) * (2 ^ (e - 1) * 2 ^ (e - 1))
              ≤ 4 * (m * m) * (2 ^ (e - 1) * 2 ^ (e - 1)) := by
            calc 2 ^ 52 * (8 * m - 2) * (2 ^ (e - 1) * 2 ^ (e - 1))
                = 2 ^ 52 * ((8 * m - 2) * (2 ^ (e - 1) * 2 ^ (e - 1))) := by ring
              _ ≤ m * m * (4 * (2 ^ (e - 1) * 2 ^ (e - 1))) := h5
              _ = 4 * (m * m) * (2 ^ (e - 1) * 2 ^ (e - 1)) := by ring
          have h7 : 2 ^ 52 * (8 * m - 2) ≤ 4 * (m * m) := Nat.le_of_mul_le_mul_right h6 hT
          have h8 : m * m ≤ m * (2 ^ 53 - 1) := Nat.mul_le_mul_left m (by omega)
          have h9 : 2 ^ 52 * (8 * m - 2) = 2 ^ 52 * 8 * m - 2 ^ 52 * 2 := by
            rw [Nat.mul_sub, Nat.mul_assoc]
          have h10 : m * (2 ^ 53 - 1) = 2 ^ 53 * m - m := by
            rw [Nat.mul_sub, Nat.mul_one, Nat.mul_comm]
          norm_num at h7 h8 h9 h10 hm1
          omega
      have hr1' : 2 * (m * m * (4 * (2 ^ (e - 1) * 2 ^ (e - 1))))
          ≤ 2 * (M * (2 ^ k * 2 ^ E)) + 2 ^ k * 2 ^ E := by
        rw [← hee]
        exact hr1
      have := sq_midpoint_lt m M (2 ^ k * 2 ^ E) (2 ^ (e - 1) * 2 ^ (e - 1)) hm1 hr1' hd1
      calc (2 * m - 1) * (2 * m - 1) * (2 ^ (e - 1) * 2 ^ (e - 1)) < M * (2 ^ k * 2 ^ E) := this
        _ = M * 2 ^ E * 2 ^ k := by ring

end B64

/-! ## Binary64: quotients by a number of larger magnitude -/

namespace B64

/-- The quotient of a double by a double of at least its magnitude: a double with the sign of
the dividend and magnitude at most 1. -/
theorem div_form (s : Bool) (m e lb k : Nat) (L : B64) (hk : k = 1074)
    (hx : IsDouble (fin s m e)) (hL : AtLeast lb L) (hlb : 0 < lb) (h : m * 2 ^ e ≤ lb) :
    ∃ m' e', div (fin s m e) L = fin s m' e' ∧ m' * 2 ^ e' ≤ 2 ^ k := by
  have hxs : xor s false = s := by cases s <;> rfl
  cases L with
  | nan => exact absurd hL id
  | inf sL =>
    cases sL with
    | true => exact absurd hL id
    | false => exact ⟨0, 0, by show fin (xor s false) 0 0 = fin s 0 0; rw [hxs], by simp⟩
  | fin sL mL eL =>
    cases sL with
    | true => exact absurd hL id
    | false =>
      obtain ⟨hdL, hlL⟩ := hL
      have hmL : mL ≠ 0 := by
        intro h0
        rw [h0, Nat.zero_mul] at hlL
        omega
      rw [div_fin_fin, if_neg hmL, hxs]
      by_cases hm : m = 0
      · rw [if_pos hm]
        exact ⟨0, 0, rfl, by simp⟩
      · rw [if_neg hm, ← hk, Nat.shiftLeft_eq, Nat.shiftLeft_eq]
        obtain ⟨hb1, hb2⟩ := isDouble_bounds hx
        have hN : m * 2 ^ (e + k) < 2 ^ (53 + (e + k)) := by
          rw [Nat.pow_add 2 53]
          exact Nat.mul_lt_mul_of_pos_right hb1 (Nat.two_pow_pos _)
        have hle : m * 2 ^ (e + k) ≤ 2 ^ k * (mL * 2 ^ eL) := by
          calc m * 2 ^ (e + k) = m * 2 ^ e * 2 ^ k := by rw [Nat.pow_add, Nat.mul_assoc]
            _ ≤ mL * 2 ^ eL * 2 ^ k := Nat.mul_le_mul_right _ (le_trans h hlL)
            _ = 2 ^ k * (mL * 2 ^ eL) := Nat.mul_comm _ _
        obtain ⟨m', e', hr, _, hle'⟩ := roundPos_le_two_pow s (m * 2 ^ (e + k))
          (mL * 2 ^ eL) k (Nat.mul_pos (Nat.pos_of_ne_zero hm) (Nat.two_pow_pos _))
          (Nat.mul_pos (Nat.pos_of_ne_zero hmL) (Nat.two_pow_pos _))
          (lt_two_pow_of_le _ _ _ hN (by omega))
          (lt_two_pow_of_le _ _ _ (mag_lt hdL 2045 (le_refl _)) (by omega))
          (by omega) (by omega) hle
        exact ⟨m', e', hr, hle'⟩

/-- The quotient of a double by a double of at least its magnitude lies in `[-1, 1]`. -/
theorem div_inUnit (s : Bool) (m e lb : Nat) (L : B64) (hx : IsDouble (fin s m e))
    (hL : AtLeast lb L) (hlb : 0 < lb) (h : m * 2 ^ e ≤ lb) :
    inUnit (div (fin s m e) L) = true := by
  obtain ⟨k, hk⟩ : ∃ k, k = 1074 := ⟨_, rfl⟩
  obtain ⟨m', e', hr, hle⟩ := div_form s m e lb k L hk hx hL hlb h
  rw [hr]
  exact inUnit_fin s m' e' k hk hle

/-- The double 1.0 is at least 1. -/
theorem one_atLeast (q : Nat) (hq : q = 1022) :
    AtLeast (2 ^ 52 * 2 ^ q) (fin false 4503599627370496 1022) := by
  have h52 : (4503599627370496 : Nat) = 2 ^ 52 := by norm_num
  refine ⟨Or.inr ⟨le_refl _, by norm_num, by norm_num⟩, ?_⟩
  rw [← hq, h52]

/-- The magnitude `sqrt (x·x + y·y + 1)` of line 44 is at least 1 (possibly `+∞`), for all
finite doubles. -/
theorem mag_atLeast_one (sx : Bool) (mx ex : Nat) (sy : Bool) (my ey q : Nat) (hq : q = 1022)
    (hx : IsDouble (fin sx mx ex)) (hy : IsDouble (fin sy my ey)) :
    AtLeast (2 ^ 52 * 2 ^ q)
      (sqrt (add (add (mul (fin sx mx ex) (fin sx mx ex)) (mul (fin sy my ey) (fin sy my ey)))
        (fin false 4503599627370496 1022))) := by
  obtain ⟨k, hk⟩ : ∃ k, k = 1074 := ⟨_, rfl⟩
  have h1 := add_atLeast_left 0 0 _ _ (mul_self_atLeast_zero sx mx ex hx)
    (mul_self_atLeast_zero sy my ey hy)
  have h2 := add_atLeast_right 0 _ _ _ h1 (one_atLeast q hq)
  apply sqrt_atLeast _ (2 ^ 52) q k _ hk h2 (by norm_num)
  have hkq : 2 ^ 52 * 2 ^ q = 2 ^ k := by
    have hexp : 52 + q = k := by omega
    rw [← Nat.pow_add, hexp]
  rw [hkq]

/-- The magnitude `sqrt (x·x + y·y + 1)` of line 44 is at least `|x|`. -/
theorem mag_atLeast_left (sx : Bool) (mx ex : Nat) (sy : Bool) (my ey : Nat)
    (hx : IsDouble (fin sx mx ex)) (hy : IsDouble (fin sy my ey)) :
    AtLeast (mx * 2 ^ ex)
      (sqrt (add (add (mul (fin sx mx ex) (fin sx mx ex)) (mul (fin sy my ey) (fin sy my ey)))
        (fin false 4503599627370496 1022))) := by
  obtain ⟨q, hq⟩ : ∃ q, q = 1022 := ⟨_, rfl⟩
  have hone := mag_atLeast_one sx mx ex sy my ey q hq hx hy
  by_cases hsmall : mx * 2 ^ ex ≤ 2 ^ 52 * 2 ^ q
  · exact atLeast_mono hone hsmall
  · have hbig : 2 ^ 52 * 2 ^ q < mx * 2 ^ ex := Nat.lt_of_not_le hsmall
    have h52 : (4503599627370496 : Nat) = 2 ^ 52 := by norm_num
    have h53 : (9007199254740992 : Nat) = 2 ^ 53 := by norm_num
    have hnorm : 2 ^ 52 ≤ mx ∧ 511 ≤ ex := by
      rcases hx with ⟨h1, h2⟩ | ⟨h1, h2, h3⟩
      · exfalso
        rw [h2, Nat.pow_zero, Nat.mul_one] at hbig
        have : 2 ^ 52 * 1 ≤ 2 ^ 52 * 2 ^ q := Nat.mul_le_mul_left _ (Nat.two_pow_pos q)
        omega
      · refine ⟨h52 ▸ h1, ?_⟩
        by_contra hex
        have hle : ex + 1 ≤ q := by omega
        have h4 : mx * 2 ^ ex ≤ 2 ^ 53 * 2 ^ ex :=
          Nat.mul_le_mul_right _ (by rw [← h53]; exact h2.le)
        have h5 := two_pow_53_mul ex
        have h6 : 2 ^ 52 * 2 ^ (ex + 1) ≤ 2 ^ 52 * 2 ^ q := mul_two_pow_mono _ _ _ hle
        omega
    apply sqrt_mul_self_atLeast sx mx ex _ hx hnorm.1 hnorm.2
    intro lb hlb
    exact add_atLeast_left lb _ _ _
      (add_atLeast_left lb 0 _ _ hlb (mul_self_atLeast_zero sy my ey hy)) (one_atLeast q hq)

/-- The magnitude `sqrt (x·x + y·y + 1)` of line 44 is at least `|y|`. -/
theorem mag_atLeast_right (sx : Bool) (mx ex : Nat) (sy : Bool) (my ey : Nat)
    (hx : IsDouble (fin sx mx ex)) (hy : IsDouble (fin sy my ey)) :
    AtLeast (my * 2 ^ ey)
      (sqrt (add (add (mul (fin sx mx ex) (fin sx mx ex)) (mul (fin sy my ey) (fin sy my ey)))
        (fin false 4503599627370496 1022))) := by
  have h := mag_atLeast_left sy my ey sx mx ex hy hx
  rw [add_comm_eq (mul (fin sy my ey) (fin sy my ey))] at h
  exact h

end B64

/-! ## Binary64: the normalisation of lines 44-47 -/

namespace B64

theorem le_one_of_atLeast (q : Nat) (hq : q = 1022) (v : B64)
    (h : AtLeast (2 ^ 52 * 2 ^ q) v) : le (fin false 4503599627370496 1022) v = true := by
  have h52 : (4503599627370496 : Nat) = 2 ^ 52 := by norm_num
  cases v with
  | nan => exact absurd h id
  | inf s =>
    cases s with
    | true => exact absurd h id
    | false => rfl
  | fin s m e =>
    cases s with
    | true => exact absurd h id
    | false =>
      unfold le
      simp only
      rw [decide_eq_true_eq, ← hq, Nat.shiftLeft_eq, Nat.shiftLeft_eq, h52]
      exact h.2

theorem zero_le_fin (m e : Nat) : le (fin false 0 0) (fin false m e) = true := by
  unfold le
  simp only
  rw [decide_eq_true_eq]
  simp

theorem fin_le_one (m e k : Nat) (hk : k = 1074) (h : m * 2 ^ e ≤ 2 ^ k) :
    le (fin false m e) (fin false 4503599627370496 1022) = true := by
  have h52 : (4503599627370496 : Nat) = 2 ^ 52 := by norm_num
  obtain ⟨q, hq⟩ : ∃ q, q = 1022 := ⟨_, rfl⟩
  have hkq : 2 ^ 52 * 2 ^ q = 2 ^ k := by
    have hexp : 52 + q = k := by omega
    rw [← Nat.pow_add, hexp]
  unfold le
  simp only
  rw [decide_eq_true_eq, ← hq, Nat.shiftLeft_eq, Nat.shiftLeft_eq, h52, hkq]
  exact h

end B64

set_option maxRecDepth 100000 in
/-- The normalisation of lines 44-47 on finite doubles: `vecNormMag ≥ 1` (possibly `+∞`),
`|normX| ≤ 1`, `|normY| ≤ 1` and `0 ≤ vecNormZ ≤ 1`. -/
theorem normalizeVec_bounds (x y : B64) (hx : B64.IsDouble x) (hxf : B64.IsFinite x)
    (hy : B64.IsDouble y) (hyf : B64.IsFinite y) :
    B64.le 1.0 (normalizeVec x y).1 = true
    ∧ B64.inUnit (normalizeVec x y).2.1 = true
    ∧ B64.inUnit (normalizeVec x y).2.2.1 = true
    ∧ B64.le 0.0 (normalizeVec x y).2.2.2 = true
    ∧ B64.le (normalizeVec x y).2.2.2 1.0 = true := by
  cases x with
  | nan => exact absurd hxf id
  | inf s => exact absurd hxf id
  | fin sx mx ex =>
    cases y with
    | nan => exact absurd hyf id
    | inf s => exact absurd hyf id
    | fin sy my ey =>
      obtain ⟨q, hq⟩ : ∃ q, q = 1022 := ⟨_, rfl⟩
      obtain ⟨k, hk⟩ : ∃ k, k = 1074 := ⟨_, rfl⟩
      have hone := B64.mag_atLeast_one sx mx ex sy my ey q hq hx hy
      have hleft := B64.mag_atLeast_left sx mx ex sy my ey hx hy
      have hright := B64.mag_atLeast_right sx mx ex sy my ey hx hy
      have hpos : 0 < 2 ^ 52 * 2 ^ q := Nat.mul_pos (Nat.two_pow_pos 52) (Nat.two_pow_pos q)
      have h52 : (4503599627370496 : Nat) = 2 ^ 52 := by norm_num
      show B64.le (B64.fin false 4503599627370496 1022)
          (B64.sqrt (B64.add (B64.add (B64.mul (B64.fin sx mx ex) (B64.fin sx mx ex))
            (B64.mul (B64.fin sy my ey) (B64.fin sy my ey)))
            (B64.fin false 4503599627370496 1022))) = true
        ∧ B64.inUnit (B64.div (B64.fin sx mx ex)
          (B64.sqrt (B64.add (B64.add (B64.mul (B64.fin sx mx ex) (B64.fin sx mx ex))
            (B64.mul (B64.fin sy my ey) (B64.fin sy my ey)))
            (B64.fin false 4503599627370496 1022)))) = true
        ∧ B64.inUnit (B64.div (B64.fin sy my ey)
          (B64.sqrt (B64.add (B64.add (B64.mul (B64.fin sx mx ex) (B64.fin sx mx ex))
            (B64.mul (B64.fin sy my ey) (B64.fin sy my ey)))
            (B64.fin false 4503599627370496 1022)))) = true
        ∧ B64.le (B64.fin false 0 0) (B64.div (B64.fin false 4503599627370496 1022)
          (B64.sqrt (B64.add (B64.add (B64.mul (B64.fin sx mx ex) (B64.fin sx mx ex))
            (B64.mul (B64.fin sy my ey) (B64.fin sy my ey)))
            (B64.fin false 4503599627370496 1022)))) = true
        ∧ B64.le (B64.div (B64.fin false 4503599627370496 1022)
          (B64.sqrt (B64.add (B64.add (B64.mul (B64.fin sx mx ex) (B64.fin sx mx ex))
            (B64.mul (B64.fin sy my ey) (B64.fin sy my ey)))
            (B64.fin false 4503599627370496 1022)))) (B64.fin false 4503599627370496 1022)
          = true
      generalize B64.sqrt (B64.add (B64.add (B64.mul (B64.fin sx mx ex) (B64.fin sx mx ex))
            (B64.mul (B64.fin sy my ey) (B64.fin sy my ey)))
            (B64.fin false 4503599627370496 1022)) = mag at hone hleft hright ⊢
      have hdiv : ∀ (s : Bool) (m e : Nat), B64.IsDouble (B64.fin s m e) →
          B64.AtLeast (m * 2 ^ e) mag → B64.inUnit (B64.div (B64.fin s m e) mag) = true := by
        intro s m e hd hl
        by_cases hsmall : m * 2 ^ e ≤ 2 ^ 52 * 2 ^ q
        · exact B64.div_inUnit s m e _ mag hd hone hpos hsmall
        · exact B64.div_inUnit s m e _ mag hd hl (by omega) (le_refl _)
      obtain ⟨m', e', hr, hle⟩ := B64.div_form false 4503599627370496 1022 _ k mag hk
        (Or.inr ⟨le_refl _, by norm_num, by norm_num⟩) hone hpos
        (by rw [← hq, h52])
      refine ⟨B64.le_one_of_atLeast q hq mag hone, hdiv sx mx ex hx hleft,
        hdiv sy my ey hy hright, ?_, ?_⟩
      · rw [hr]
        exact B64.zero_le_fin m' e'
      · rw [hr]
        exact B64.fin_le_one m' e' k hk hle

/-! ## Binary64: the operations return doubles -/

namespace B64

theorem isDouble_roundPos (s : Bool) (N den : Nat) (hN : 0 < N) (hd : 0 < den)
    (hNb : N < 2 ^ (64 * 256 + 64)) (hdb : den < 2 ^ (64 * 256 + 64)) :
    IsDouble (roundPos s N den) := by
  obtain ⟨M, E, hr, hM, hE, _⟩ := roundPos_struct s N den hN hd hNb hdb
  rw [hr]
  rcases pack_spec s M E hM hE with ⟨hp, _⟩ | ⟨m, e, hp, hdbl, _⟩
  · rw [hp]
    trivial
  · rw [hp]
    exact hdbl

theorem isDouble_zero (s : Bool) : IsDouble (fin s 0 0) := Or.inl ⟨by norm_num, rfl⟩

theorem isDouble_neg (a : B64) (ha : IsDouble a) : IsDouble (neg a) := by
  cases a with
  | nan => trivial
  | inf s => trivial
  | fin s m e => exact ha

theorem isDouble_add (a b : B64) (ha : IsDouble a) (hb : IsDouble b) : IsDouble (add a b) := by
  cases a with
  | nan => trivial
  | inf s1 =>
    cases b with
    | nan => trivial
    | inf s2 =>
      show IsDouble (if s1 = s2 then inf s1 else nan)
      split_ifs <;> trivial
    | fin s2 m2 e2 => trivial
  | fin s1 m1 e1 =>
    cases b with
    | nan => trivial
    | inf s2 => trivial
    | fin s2 m2 e2 =>
      have hb1 := mag_lt ha 2045 (le_refl _)
      have hb2 := mag_lt hb 2045 (le_refl _)
      have hone : (1 : Nat) < 2 ^ (64 * 256 + 64) := one_lt_two_pow_bound _ (by omega)
      rw [add_fin_fin, Nat.shiftLeft_eq, Nat.shiftLeft_eq]
      split_ifs with h1 h2 h3 h4
      · exact isDouble_zero _
      · apply isDouble_roundPos _ _ _ (Nat.pos_of_ne_zero h2) Nat.one_pos _ hone
        have hsum : m1 * 2 ^ e1 + m2 * 2 ^ e2 < 2 ^ (53 + 2045 + 1) := by
          rw [Nat.pow_succ]
          omega
        exact lt_two_pow_of_le _ _ _ hsum (by omega)
      · exact isDouble_zero _
      · apply isDouble_roundPos _ _ _ (by omega) Nat.one_pos _ hone
        exact lt_two_pow_of_le _ _ _ (lt_of_le_of_lt (Nat.sub_le _ _) hb1) (by omega)
      · apply isDouble_roundPos _ _ _ (by omega) Nat.one_pos _ hone
        exact lt_two_pow_of_le _ _ _ (lt_of_le_of_lt (Nat.sub_le _ _) hb2) (by omega)

theorem isDouble_mul (a b : B64) (ha : IsDouble a) (hb : IsDouble b) : IsDouble (mul a b) := by
  cases a with
  | nan => trivial
  | inf s1 =>
    cases b with
    | nan => trivial
    | inf s2 => trivial
    | fin s2 m2 e2 =>
      show IsDouble (if m2 = 0 then nan else inf (xor s1 s2))
      split_ifs <;> trivial
  | fin s1 m1 e1 =>
    cases b with
    | nan => trivial
    | inf s2 =>
      show IsDouble (if m1 = 0 then nan else inf (xor s1 s2))
      split_ifs <;> trivial
    | fin s2 m2 e2 =>
      obtain ⟨h1, h2⟩ := isDouble_bounds ha
      obtain ⟨h3, h4⟩ := isDouble_bounds hb
      obtain ⟨k, hk⟩ : ∃ k, k = 1074 := ⟨_, rfl⟩
      rw [mul_fin_fin, ← hk, Nat.shiftLeft_eq, Nat.one_shiftLeft]
      split_ifs with h0
      · exact isDouble_zero _
      · exact isDouble_roundPos _ _ _
          (Nat.mul_pos (Nat.pos_of_ne_zero h0) (Nat.two_pow_pos _)) (Nat.two_pow_pos k)
          (lt_two_pow_of_le _ _ _ (mul_mag_lt m1 m2 e1 e2 2045 h1 h3 h2 h4) (by omega))
          (two_pow_lt_two_pow k _ (by omega))

theorem isDouble_div (a b : B64) (ha : IsDouble a) (hb : IsDouble b) : IsDouble (div a b) := by
  cases a with
  | nan => trivial
  | inf s1 =>
    cases b with
    | nan => trivial
    | inf s2 => trivial
    | fin s2 m2 e2 => trivial
  | fin s1 m1 e1 =>
    cases b with
    | nan => trivial
    | inf s2 => exact isDouble_zero _
    | fin s2 m2 e2 =>
      obtain ⟨h1, h2⟩ := isDouble_bounds ha
      obtain ⟨k, hk⟩ : ∃ k, k = 1074 := ⟨_, rfl⟩
      rw [div_fin_fin, ← hk, Nat.shiftLeft_eq, Nat.shiftLeft_eq]
      split_ifs with h0 h3 h4
      · trivial
      · trivial
      · exact isDouble_zero _
      · have hN : m1 * 2 ^ (e1 + k) < 2 ^ (53 + (e1 + k)) := by
          rw [Nat.pow_add 2 53]
          exact Nat.mul_lt_mul_of_pos_right h1 (Nat.two_pow_pos _)
        exact isDouble_roundPos _ _ _
          (Nat.mul_pos (Nat.pos_of_ne_zero h4) (Nat.two_pow_pos _))
          (Nat.mul_pos (Nat.pos_of_ne_zero h0) (Nat.two_pow_pos _))
          (lt_two_pow_of_le _ _ _ hN (by omega))
          (lt_two_pow_of_le _ _ _ (mag_lt hb 2045 (le_refl _)) (by omega))

theorem isDouble_sqrt (a : B64) (ha : IsDouble a) : IsDouble (sqrt a) := by
  cases a with
  | nan => trivial
  | inf s =>
    show IsDouble (if s = true then nan else inf false)
    split_ifs <;> trivial
  | fin s m e =>
    obtain ⟨k, hk⟩ : ∃ k, k = 1074 := ⟨_, rfl⟩
    rw [sqrt_fin_eq, ← hk]
    by_cases h0 : m = 0
    · rw [if_pos h0]
      exact isDouble_zero _
    · rw [if_neg h0]
      by_cases h1 : s = true
      · rw [if_pos h1]
        trivial
      · rw [if_neg h1]
        have hs : s = false := by cases s <;> simp at h1 ⊢
        subst hs
        obtain ⟨_, hn2, _⟩ := sqrt_radicand m e k hk ha h0
        obtain ⟨hN1, hN2⟩ :=
          sqrt_numerator _ _ hn2 (sqrt_radicand_small m e k hk ha) (by omega)
        exact isDouble_roundPos _ _ _ hN1 (by norm_num) hN2
          (lt_two_pow_of_le 2 2 _ (by norm_num) (by omega))

end B64

theorem isDouble_hadd (a b : B64) (ha : B64.IsDouble a) (hb : B64.IsDouble b) :
    B64.IsDouble (a + b) := B64.isDouble_add a b ha hb

theorem isDouble_hsub (a b : B64) (ha : B64.IsDouble a) (hb : B64.IsDouble b) :
    B64.IsDouble (a - b) := B64.isDouble_add a _ ha (B64.isDouble_neg b hb)

theorem isDouble_hmul (a b : B64) (ha : B64.IsDouble a) (hb : B64.IsDouble b) :
    B64.IsDouble (a * b) := B64.isDouble_mul a b ha hb

theorem isDouble_hdiv (a b : B64) (ha : B64.IsDouble a) (hb : B64.IsDouble b) :
    B64.IsDouble (a / b) := B64.isDouble_div a b ha hb

theorem isDouble_hsqrt (a : B64) (ha : B64.IsDouble a) : B64.IsDouble (sqrt a) :=
  B64.isDouble_sqrt a ha

/-! ## Binary64: the elevation quotient of node X -/

namespace B64

/-- The square of a double that is not NaN is a double that is not negative (possibly `+∞`). -/
theorem mul_self_atLeast_zero_of_ne_nan (a : B64) (ha : IsDouble a) (hn : a ≠ nan) :
    AtLeast 0 (mul a a) := by
  cases a with
  | nan => exact absurd rfl hn
  | inf s => cases s <;> trivial
  | fin s m e => exact mul_self_atLeast_zero s m e ha

theorem sqrt_nan_of_nan : sqrt nan = nan := rfl

/-- A zero divided by a positive double (or `+∞`) is a zero. -/
theorem zero_div_pos (s : Bool) (e : Nat) (L : B64) (hL : lt (fin false 0 0) L = true) :
    ∃ s', div (fin s 0 e) L = fin s' 0 0 := by
  cases L with
  | nan => exact absurd hL (by simp [lt])
  | inf sL => exact ⟨_, rfl⟩
  | fin sL mL eL =>
    cases sL with
    | true => exact absurd hL (by simp [lt])
    | false =>
      have hne : mL ≠ 0 := by
        intro h0
        subst h0
        simp [lt] at hL
      rw [div_fin_fin, if_neg hne, if_pos rfl]
      exact ⟨_, rfl⟩

/-- The quotient `y / sqrt (y·y + z·z)` of line 56 lies in `[-1, 1]` when the square root is
positive and `y` is a zero or a normal double whose square does not underflow. -/
theorem elevation_core (s : Bool) (m e : Nat) (Z : B64) (hx : IsDouble (fin s m e))
    (hZ : IsDouble Z) (hm : m = 0 ∨ (4503599627370496 ≤ m ∧ 511 ≤ e))
    (hL : lt (fin false 0 0) (sqrt (add (mul (fin s m e) (fin s m e)) (mul Z Z))) = true) :
    inUnit (div (fin s m e) (sqrt (add (mul (fin s m e) (fin s m e)) (mul Z Z)))) = true := by
  obtain ⟨k, hk⟩ : ∃ k, k = 1074 := ⟨_, rfl⟩
  rcases hm with h0 | ⟨hm1, he⟩
  · subst h0
    obtain ⟨s', hs'⟩ := zero_div_pos s e _ hL
    rw [hs']
    exact inUnit_fin s' 0 0 k hk (by simp)
  · have h52 : (4503599627370496 : Nat) = 2 ^ 52 := by norm_num
    have hZn : Z ≠ nan := by
      intro h
      subst h
      rw [show mul nan nan = nan from rfl, add_right_nan, sqrt_nan_of_nan] at hL
      exact absurd hL (by simp [lt])
    have hzz := mul_self_atLeast_zero_of_ne_nan Z hZ hZn
    have hS : ∀ lb, AtLeast lb (mul (fin s m e) (fin s m e)) →
        AtLeast lb (add (mul (fin s m e) (fin s m e)) (mul Z Z)) :=
      fun lb h => add_atLeast_left lb 0 _ _ h hzz
    have hge := sqrt_mul_self_atLeast s m e _ hx (h52 ▸ hm1) he hS
    have hpos : 0 < m * 2 ^ e := Nat.mul_pos (by omega) (Nat.two_pow_pos e)
    exact div_inUnit s m e _ _ hx hge hpos (le_refl _)

end B64

/-- The coordinates `coordY` and `coordZ` that node X computes from doubles are doubles. -/
theorem caseX_coords_isDouble (r : CelestialRig) (g : Globals B64) (zPos xVec yVec : B64)
    (hG : B64.IsDouble g.geoBaseSpan) (hP : B64.IsDouble g.geoPlateSpan)
    (hz : B64.IsDouble zPos) (hx : B64.IsDouble xVec) (hy : B64.IsDouble yVec) :
    B64.IsDouble (r.computeAngle g NEXUS_X zPos xVec yVec).2.coordY
    ∧ B64.IsDouble (r.computeAngle g NEXUS_X zPos xVec yVec).2.coordZ := by
  have h1 : B64.IsDouble (1.0 : B64) := by decide
  have h2 : B64.IsDouble (2.0 : B64) := by decide
  have h3 : B64.IsDouble (3.0 : B64) := by decide
  have hmag : B64.IsDouble (normalizeVec xVec yVec).1 :=
    isDouble_hsqrt _ (isDouble_hadd _ _ (isDouble_hadd _ _ (isDouble_hmul _ _ hx hx)
      (isDouble_hmul _ _ hy hy)) h1)
  have hnx : B64.IsDouble (normalizeVec xVec yVec).2.1 := isDouble_hdiv _ _ hx hmag
  have hny : B64.IsDouble (normalizeVec xVec yVec).2.2.1 := isDouble_hdiv _ _ hy hmag
  have hnz : B64.IsDouble (normalizeVec xVec yVec).2.2.2 := isDouble_hdiv _ _ h1 hmag
  generalize hvx : (normalizeVec xVec yVec).2.1 = nx at hnx
  generalize hvy : (normalizeVec xVec yVec).2.2.1 = ny at hny
  generalize hvz : (normalizeVec xVec yVec).2.2.2 = nz at hnz
  have hY : (r.computeAngle g NEXUS_X zPos xVec yVec).2.coordY
      = g.geoBaseSpan + (g.geoPlateSpan / 2.0) * (1.0 - (nx * nx + 3.0 * nz * nz + 3.0 * nz)
          / (nz + 1.0 - nx * nx + (nx * nx * nx * nx - 3.0 * nx * nx * ny * ny)
            / ((nz + 1.0) * (nz + 1.0 - nx * nx)))) := by
    rw [← hvx, ← hvy, ← hvz]
    rfl
  have hZ : (r.computeAngle g NEXUS_X zPos xVec yVec).2.coordZ = zPos + g.geoPlateSpan * ny := by
    rw [← hvy]
    rfl
  rw [hY, hZ]
  have hxx := isDouble_hmul _ _ hnx hnx
  have hz1 := isDouble_hadd _ _ hnz h1
  have hd := isDouble_hsub _ _ hz1 hxx
  refine ⟨?_, isDouble_hadd _ _ hz (isDouble_hmul _ _ hP hny)⟩
  refine isDouble_hadd _ _ hG (isDouble_hmul _ _ (isDouble_hdiv _ _ hP h2)
    (isDouble_hsub _ _ h1 (isDouble_hdiv _ _ ?_ ?_)))
  · exact isDouble_hadd _ _ (isDouble_hadd _ _ hxx
      (isDouble_hmul _ _ (isDouble_hmul _ _ h3 hnz) hnz)) (isDouble_hmul _ _ h3 hnz)
  · refine isDouble_hadd _ _ hd (isDouble_hdiv _ _ ?_ (isDouble_hmul _ _ hz1 hd))
    exact isDouble_hsub _ _ (isDouble_hmul _ _ (isDouble_hmul _ _ hxx hnx) hnx)
      (isDouble_hmul _ _ (isDouble_hmul _ _ (isDouble_hmul _ _ (isDouble_hmul _ _ h3 hnx) hnx)
        hny) hny)

/-! ## Binary64: exact operations on whole numbers -/

namespace B64

/-- A magnitude has one representation as a double. -/
theorem isDouble_unique {s t : Bool} {m e m' e' : Nat} (h : IsDouble (fin s m e))
    (h' : IsDouble (fin t m' e')) (heq : m * 2 ^ e = m' * 2 ^ e') : m = m' ∧ e = e' := by
  have h52 : (4503599627370496 : Nat) = 2 ^ 52 := by norm_num
  have h53 : (9007199254740992 : Nat) = 2 ^ 53 := by norm_num
  have key : ∀ (a ea b eb : Nat), 2 ^ 52 ≤ a → b < 2 ^ 53 → a * 2 ^ ea = b * 2 ^ eb →
      ea ≤ eb := by
    intro a ea b eb ha hb hab
    by_contra hlt
    have h1 : 2 ^ (eb + 1) ≤ 2 ^ ea := Nat.pow_le_pow_right Nat.two_pos (by omega)
    have h2 : 2 ^ 53 * 2 ^ eb ≤ a * 2 ^ ea := by
      calc 2 ^ 53 * 2 ^ eb = 2 ^ 52 * 2 ^ (eb + 1) := two_pow_53_mul eb
        _ ≤ a * 2 ^ ea := Nat.mul_le_mul ha h1
    have h3 : b * 2 ^ eb < 2 ^ 53 * 2 ^ eb := Nat.mul_lt_mul_of_pos_right hb (Nat.two_pow_pos _)
    omega
  rcases h with ⟨h1, h2⟩ | ⟨h1, h2, _⟩ <;> rcases h' with ⟨h1', h2'⟩ | ⟨h1', h2', _⟩
  · subst h2 h2'
    simpa using heq
  · subst h2
    rw [h52] at h1 h1'
    rw [Nat.pow_zero, Nat.mul_one] at heq
    have : m' ≤ m' * 2 ^ e' := Nat.le_mul_of_pos_right _ (Nat.two_pow_pos _)
    omega
  · subst h2'
    rw [h52] at h1 h1'
    rw [Nat.pow_zero, Nat.mul_one] at heq
    have : m ≤ m * 2 ^ e := Nat.le_mul_of_pos_right _ (Nat.two_pow_pos _)
    omega
  · rw [h52] at h1 h1'
    rw [h53] at h2 h2'
    have he : e = e' :=
      le_antisymm (key m e m' e' h1 h2' heq) (key m' e' m e h1' h2 heq.symm)
    subst he
    exact ⟨Nat.eq_of_mul_eq_mul_right (Nat.two_pow_pos e) heq, rfl⟩

/-- A quotient that is a double is its own rounding. -/
theorem roundPos_exact (s : Bool) (N den m e : Nat) (hd : 0 < den) (hm : 0 < m)
    (hx : IsDouble (fin s m e)) (hdb : den < 2 ^ 8000) (h : N = m * 2 ^ e * den) :
    roundPos s N den = fin s m e := by
  obtain ⟨hb1, hb2⟩ := isDouble_bounds hx
  obtain ⟨K, hK⟩ : ∃ K, K = 2045 := ⟨_, rfl⟩
  obtain ⟨B, hB⟩ : ∃ B, B = 8000 := ⟨_, rfl⟩
  rw [← hB] at hdb
  have hmag : m * 2 ^ e < 2 ^ (53 + K) := mag_lt hx K (by omega)
  have hN : 0 < N := by
    rw [h]
    exact Nat.mul_pos (Nat.mul_pos hm (Nat.two_pow_pos e)) hd
  have hNb : N < 2 ^ (64 * 256 + 64) := by
    rw [h]
    have h1 : m * 2 ^ e * den < 2 ^ (53 + K) * 2 ^ B := Nat.mul_lt_mul'' hmag hdb
    rw [← Nat.pow_add] at h1
    exact lt_two_pow_of_le _ _ _ h1 (by omega)
  have hdb' : den < 2 ^ (64 * 256 + 64) := lt_two_pow_of_le _ _ _ hdb (by omega)
  obtain ⟨M, E, hr, hM, hE, hq, hr1, hr2, hU, hL⟩ := roundPos_struct s N den hN hd hNb hdb'
  have hlow := round_lower_core N den M E m e hd hb1 hE hq (le_of_eq h.symm)
  have hup := round_upper_core N den M E m e hd hb1 hr2 hL (le_of_eq h)
  have hME : M * 2 ^ E = m * 2 ^ e := le_antisymm hup hlow
  rw [hr]
  rcases pack_spec s M E hM hE with ⟨_, hinf⟩ | ⟨m', e', hp, hdbl, hmag'⟩
  · exfalso
    have h1 := hinf e hb2
    rw [hME] at h1
    have h2 : m * 2 ^ e < 2 ^ 53 * 2 ^ e := Nat.mul_lt_mul_of_pos_right hb1 (Nat.two_pow_pos _)
    omega
  · rw [hp]
    obtain ⟨e1, e2⟩ := isDouble_unique hdbl hx (hmag'.trans hME)
    rw [e1, e2]

/-- Every whole number from 1 to `2^53 - 1` is a normal double. -/
theorem whole_exists (n k : Nat) (hk : k = 1074) (hn : 0 < n) (hlt : n < 2 ^ 53) :
    ∃ m e, IsDouble (fin false m e) ∧ 0 < m ∧ m * 2 ^ e = n * 2 ^ k := by
  have h52 : (4503599627370496 : Nat) = 2 ^ 52 := by norm_num
  have h53 : (9007199254740992 : Nat) = 2 ^ 53 := by norm_num
  obtain ⟨hlo, hhi⟩ := ilog2_spec n hn (lt_two_pow_of_le _ _ _ hlt (by norm_num))
  generalize ilog2 n = b at hlo hhi
  have hb : b ≤ 52 := by
    by_contra hgt
    have : 2 ^ 53 ≤ 2 ^ b := Nat.pow_le_pow_right Nat.two_pos (by omega)
    omega
  have hsplit : 2 ^ b * 2 ^ (52 - b) = 2 ^ 52 := by
    rw [← Nat.pow_add]
    congr 1
    omega
  have hsplit' : 2 ^ (b + 1) * 2 ^ (52 - b) = 2 ^ 53 := by
    rw [← Nat.pow_add]
    congr 1
    omega
  refine ⟨n * 2 ^ (52 - b), 1022 + b, Or.inr ⟨?_, ?_, by omega⟩, ?_, ?_⟩
  · rw [h52, ← hsplit]
    exact Nat.mul_le_mul_right _ hlo
  · rw [h53, ← hsplit']
    exact Nat.mul_lt_mul_of_pos_right hhi (Nat.two_pow_pos _)
  · exact Nat.mul_pos hn (Nat.two_pow_pos _)
  · rw [Nat.mul_assoc, ← Nat.pow_add]
    have hexp : 52 - b + (1022 + b) = k := by omega
    rw [hexp]

/-- Rounding a quotient that is a whole number below `2^53` gives that number. -/
theorem whole_round (s : Bool) (n k N den : Nat) (hk : k = 1074) (hn : 0 < n)
    (hlt : n < 2 ^ 53) (hd : 0 < den) (hdb : den < 2 ^ 8000) (h : N = n * 2 ^ k * den) :
    ∃ m e, roundPos s N den = fin s m e ∧ IsDouble (fin s m e) ∧ m * 2 ^ e = n * 2 ^ k := by
  obtain ⟨m, e, hx, hm, hme⟩ := whole_exists n k hk hn hlt
  exact ⟨m, e, roundPos_exact s N den m e hd hm hx hdb (by rw [hme]; exact h), hx, hme⟩

theorem isWhole_fin (n k m e : Nat) (hk : k = 1074) :
    IsWhole n (fin false m e) ↔ IsDouble (fin false m e) ∧ m * 2 ^ e = n * 2 ^ k := by
  show (IsDouble (fin false m e) ∧ m <<< e = n <<< 1074) ↔ _
  rw [← hk, Nat.shiftLeft_eq, Nat.shiftLeft_eq]

/-- What `IsWhole` says, with the exponent 1074 kept symbolic. -/
theorem isWhole_elim (n k : Nat) (hk : k = 1074) (x : B64) (h : IsWhole n x) :
    ∃ m e, x = fin false m e ∧ IsDouble (fin false m e) ∧ m * 2 ^ e = n * 2 ^ k := by
  cases x with
  | nan => exact absurd h id
  | inf s => exact absurd h id
  | fin s m e =>
    cases s with
    | true => exact absurd h id
    | false => exact ⟨m, e, rfl, (isWhole_fin n k m e hk).mp h⟩

theorem isWhole_zero : IsWhole 0 (fin false 0 0) := by
  obtain ⟨k, hk⟩ : ∃ k, k = 1074 := ⟨_, rfl⟩
  rw [isWhole_fin 0 k 0 0 hk]
  exact ⟨isDouble_zero false, by simp⟩

theorem whole_zero_iff {n k m e : Nat} (h : m * 2 ^ e = n * 2 ^ k) : m = 0 ↔ n = 0 := by
  have h1 : 0 < 2 ^ e := Nat.two_pow_pos e
  have h2 : 0 < 2 ^ k := Nat.two_pow_pos k
  constructor
  · intro hm
    rw [hm, Nat.zero_mul] at h
    rcases Nat.mul_eq_zero.mp h.symm with h3 | h3
    · exact h3
    · omega
  · intro hn
    rw [hn, Nat.zero_mul] at h
    rcases Nat.mul_eq_zero.mp h with h3 | h3
    · exact h3
    · omega

/-- The product of two whole numbers, below `2^53`, is computed exactly. -/
theorem mul_isWhole (a b : Nat) (x y : B64) (hx : IsWhole a x) (hy : IsWhole b y)
    (hlt : a * b < 2 ^ 53) : IsWhole (a * b) (mul x y) := by
  obtain ⟨k, hk⟩ : ∃ k, k = 1074 := ⟨_, rfl⟩
  obtain ⟨m1, e1, rfl, hd1, h1⟩ := isWhole_elim a k hk x hx
  obtain ⟨m2, e2, rfl, hd2, h2⟩ := isWhole_elim b k hk y hy
  rw [mul_fin_fin]
  have hxor : xor false false = false := rfl
  rw [hxor]
  by_cases h0 : m1 * m2 = 0
  · rw [if_pos h0]
    have hab : a * b = 0 := by
      rcases Nat.mul_eq_zero.mp h0 with h | h
      · rw [(whole_zero_iff h1).mp h, Nat.zero_mul]
      · rw [(whole_zero_iff h2).mp h, Nat.mul_zero]
    rw [hab]
    exact isWhole_zero
  · rw [if_neg h0, ← hk, Nat.shiftLeft_eq, Nat.one_shiftLeft]
    have hab : 0 < a * b := by
      apply Nat.pos_of_ne_zero
      intro hab
      rcases Nat.mul_eq_zero.mp hab with h | h
      · exact h0 (by rw [(whole_zero_iff h1).mpr h, Nat.zero_mul])
      · exact h0 (by rw [(whole_zero_iff h2).mpr h, Nat.mul_zero])
    have hN : m1 * m2 * 2 ^ (e1 + e2) = a * b * 2 ^ k * 2 ^ k := by
      calc m1 * m2 * 2 ^ (e1 + e2) = (m1 * 2 ^ e1) * (m2 * 2 ^ e2) := by
            rw [Nat.pow_add]; ring
        _ = a * b * 2 ^ k * 2 ^ k := by rw [h1, h2]; ring
    obtain ⟨m, e, hr, hdm, hme⟩ := whole_round false (a * b) k _ (2 ^ k) hk hab hlt
      (Nat.two_pow_pos k) (two_pow_lt_two_pow k 8000 (by omega)) hN
    rw [hr, isWhole_fin (a * b) k m e hk]
    exact ⟨hdm, hme⟩

/-- The sum of two whole numbers, below `2^53`, is computed exactly. -/
theorem add_isWhole (a b : Nat) (x y : B64) (hx : IsWhole a x) (hy : IsWhole b y)
    (hlt : a + b < 2 ^ 53) : IsWhole (a + b) (add x y) := by
  obtain ⟨k, hk⟩ : ∃ k, k = 1074 := ⟨_, rfl⟩
  obtain ⟨m1, e1, rfl, hd1, h1⟩ := isWhole_elim a k hk x hx
  obtain ⟨m2, e2, rfl, hd2, h2⟩ := isWhole_elim b k hk y hy
  rw [add_fin_fin, if_pos rfl, Nat.shiftLeft_eq, Nat.shiftLeft_eq, h1, h2, ← Nat.add_mul]
  by_cases h0 : a + b = 0
  · rw [h0, Nat.zero_mul, if_pos rfl]
    exact isWhole_zero
  · have hne : (a + b) * 2 ^ k ≠ 0 :=
      Nat.mul_ne_zero h0 (Nat.pos_iff_ne_zero.mp (Nat.two_pow_pos k))
    rw [if_neg hne]
    obtain ⟨m, e, hr, hdm, hme⟩ := whole_round false (a + b) k _ 1 hk (Nat.pos_of_ne_zero h0)
      hlt Nat.one_pos (one_lt_two_pow_bound 8000 (by omega)) (Nat.mul_one _).symm
    rw [hr, isWhole_fin (a + b) k m e hk]
    exact ⟨hdm, hme⟩

/-- The difference of two whole numbers is computed exactly: not negative. -/
theorem sub_isWhole_of_le (a b : Nat) (x y : B64) (hx : IsWhole a x) (hy : IsWhole b y)
    (ha : a < 2 ^ 53) (hle : b ≤ a) : IsWhole (a - b) (add x (neg y)) := by
  obtain ⟨k, hk⟩ : ∃ k, k = 1074 := ⟨_, rfl⟩
  obtain ⟨m1, e1, rfl, hd1, h1⟩ := isWhole_elim a k hk x hx
  obtain ⟨m2, e2, rfl, hd2, h2⟩ := isWhole_elim b k hk y hy
  have hpos : 0 < 2 ^ k := Nat.two_pow_pos k
  rw [neg_fin_eq, add_fin_fin, if_neg (by simp), Nat.shiftLeft_eq, Nat.shiftLeft_eq, h1, h2]
  by_cases heq : a = b
  · rw [heq, if_pos rfl, Nat.sub_self]
    exact isWhole_zero
  · have hlt : b < a := by omega
    have hne : a * 2 ^ k ≠ b * 2 ^ k := fun h => heq (Nat.eq_of_mul_eq_mul_right hpos h)
    rw [if_neg hne, if_pos (Nat.mul_lt_mul_of_pos_right hlt hpos), ← Nat.sub_mul]
    obtain ⟨m, e, hr, hdm, hme⟩ := whole_round false (a - b) k _ 1 hk (by omega)
      (by omega) Nat.one_pos (one_lt_two_pow_bound 8000 (by omega)) (Nat.mul_one _).symm
    rw [hr, isWhole_fin (a - b) k m e hk]
    exact ⟨hdm, hme⟩

/-- The difference of two whole numbers is computed exactly: negative. -/
theorem sub_isWhole_of_lt (a b : Nat) (x y : B64) (hx : IsWhole a x) (hy : IsWhole b y)
    (hb : b < 2 ^ 53) (hlt : a < b) :
    ∃ m e, add x (neg y) = fin true m e ∧ IsWhole (b - a) (fin false m e) := by
  obtain ⟨k, hk⟩ : ∃ k, k = 1074 := ⟨_, rfl⟩
  obtain ⟨m1, e1, rfl, hd1, h1⟩ := isWhole_elim a k hk x hx
  obtain ⟨m2, e2, rfl, hd2, h2⟩ := isWhole_elim b k hk y hy
  have hpos : 0 < 2 ^ k := Nat.two_pow_pos k
  rw [neg_fin_eq, add_fin_fin, if_neg (by simp), Nat.shiftLeft_eq, Nat.shiftLeft_eq, h1, h2]
  have hne : a * 2 ^ k ≠ b * 2 ^ k := fun h => by
    have := Nat.eq_of_mul_eq_mul_right hpos h
    omega
  have hnlt : ¬ b * 2 ^ k < a * 2 ^ k := by
    have := Nat.mul_lt_mul_of_pos_right hlt hpos
    omega
  rw [if_neg hne, if_neg hnlt, ← Nat.sub_mul]
  obtain ⟨m, e, hr, hdm, hme⟩ := whole_round (!false) (b - a) k _ 1 hk (by omega)
    (by omega) Nat.one_pos (one_lt_two_pow_bound 8000 (by omega)) (Nat.mul_one _).symm
  refine ⟨m, e, hr, ?_⟩
  rw [isWhole_fin (b - a) k m e hk]
  exact ⟨hdm, hme⟩

theorem inUnit_fin_false (s : Bool) (m e k : Nat) (hk : k = 1074) (h : 2 ^ k < m * 2 ^ e) :
    inUnit (fin s m e) = false := by
  unfold inUnit
  rw [decide_eq_false_iff_not, ← hk, Nat.shiftLeft_eq, Nat.one_shiftLeft]
  omega

/-- A quotient of whole numbers above 1 rounds to a double above 1. -/
theorem div_whole_gt_one (s : Bool) (n d k m1 e1 m2 e2 : Nat) (hk : k = 1074)
    (hd1 : IsDouble (fin s m1 e1)) (hd2 : IsDouble (fin false m2 e2))
    (h1 : m1 * 2 ^ e1 = n * 2 ^ k) (h2 : m2 * 2 ^ e2 = d * 2 ^ k)
    (hd : 0 < d) (hdlt : d < 2 ^ 53) (hlt : d < n) :
    inUnit (div (fin s m1 e1) (fin false m2 e2)) = false := by
  have hxs : xor s false = s := by cases s <;> rfl
  obtain ⟨q, hq⟩ : ∃ q, q = 1022 := ⟨_, rfl⟩
  have hkq : k = q + 52 := by omega
  have hm1 : m1 ≠ 0 := fun h => by
    have := (whole_zero_iff h1).mp h
    omega
  have hm2 : m2 ≠ 0 := fun h => by
    have := (whole_zero_iff h2).mp h
    omega
  rw [div_fin_fin, if_neg hm2, if_neg hm1, hxs, ← hk, Nat.shiftLeft_eq, Nat.shiftLeft_eq]
  obtain ⟨hb1, hb2⟩ := isDouble_bounds hd1
  have hN : m1 * 2 ^ (e1 + k) = n * 2 ^ k * 2 ^ k := by
    rw [Nat.pow_add, ← Nat.mul_assoc, h1]
  have hNpos : 0 < m1 * 2 ^ (e1 + k) := Nat.mul_pos (Nat.pos_of_ne_zero hm1) (Nat.two_pow_pos _)
  have hdpos : 0 < m2 * 2 ^ e2 := Nat.mul_pos (Nat.pos_of_ne_zero hm2) (Nat.two_pow_pos _)
  have hNb : m1 * 2 ^ (e1 + k) < 2 ^ (53 + (e1 + k)) := by
    rw [Nat.pow_add 2 53]
    exact Nat.mul_lt_mul_of_pos_right hb1 (Nat.two_pow_pos _)
  obtain ⟨M, E, hr, hM, hE, hqq, hr1, hr2, hU, hL⟩ := roundPos_struct s (m1 * 2 ^ (e1 + k))
    (m2 * 2 ^ e2) hNpos hdpos (lt_two_pow_of_le _ _ _ hNb (by omega))
    (lt_two_pow_of_le _ _ _ (mag_lt hd2 2045 (le_refl _)) (by omega))
  have h53 : (2 : Nat) ^ 53 = 2 * 2 ^ 52 := by norm_num
  have hmid : (2 * (2 ^ 52 + 1) - 1) * 2 ^ q * (m2 * 2 ^ e2) < 2 * (m1 * 2 ^ (e1 + k)) := by
    rw [hN, h2]
    have e1' : 2 * (2 ^ 52 + 1) - 1 = 2 ^ 53 + 1 := by omega
    have e2' : (2 : Nat) ^ k = 2 ^ q * 2 ^ 52 := by rw [hkq, Nat.pow_add]
    rw [e1']
    have hkey : (2 ^ 53 + 1) * d < n * 2 ^ 53 := by
      have : (d + 1) * 2 ^ 53 ≤ n * 2 ^ 53 := Nat.mul_le_mul_right _ hlt
      have e3 : (d + 1) * 2 ^ 53 = d * 2 ^ 53 + 2 ^ 53 := by ring
      have e4 : (2 ^ 53 + 1) * d = d * 2 ^ 53 + d := by ring
      omega
    have hpp : 0 < 2 ^ q * 2 ^ k := Nat.mul_pos (Nat.two_pow_pos _) (Nat.two_pow_pos _)
    calc (2 ^ 53 + 1) * 2 ^ q * (d * 2 ^ k) = (2 ^ 53 + 1) * d * (2 ^ q * 2 ^ k) := by ring
      _ < n * 2 ^ 53 * (2 ^ q * 2 ^ k) := Nat.mul_lt_mul_of_pos_right hkey hpp
      _ = 2 * (n * 2 ^ k * 2 ^ k) := by rw [e2', h53]; ring
  have hge := round_half_core (m1 * 2 ^ (e1 + k)) (m2 * 2 ^ e2) M E (2 ^ 52 + 1) q
    (by norm_num) (by norm_num) hE hr1 hU hmid
  have hgt : 2 ^ k < M * 2 ^ E := by
    have e2' : (2 : Nat) ^ k = 2 ^ 52 * 2 ^ q := by rw [hkq, Nat.pow_add, Nat.mul_comm]
    have : 2 ^ 52 * 2 ^ q < (2 ^ 52 + 1) * 2 ^ q :=
      Nat.mul_lt_mul_of_pos_right (by norm_num) (Nat.two_pow_pos _)
    omega
  rw [hr]
  rcases pack_spec s M E hM hE with ⟨hp, _⟩ | ⟨m', e', hp, _, hmag⟩
  · rw [hp]
    rfl
  · rw [hp]
    exact inUnit_fin_false s m' e' k hk (by rw [hmag]; exact hgt)

/-- A quotient of whole numbers lies in `[-1, 1]` exactly when the numerator is at most the
denominator. -/
theorem div_whole_inUnit (s : Bool) (n d m e : Nat) (y : B64)
    (hx : IsWhole n (fin false m e)) (hy : IsWhole d y) (hd : 0 < d) (hdlt : d < 2 ^ 53) :
    inUnit (div (fin s m e) y) = true ↔ n ≤ d := by
  obtain ⟨k, hk⟩ : ∃ k, k = 1074 := ⟨_, rfl⟩
  obtain ⟨hd1, h1⟩ := (isWhole_fin n k m e hk).mp hx
  obtain ⟨m2, e2, rfl, hd2, h2⟩ := isWhole_elim d k hk y hy
  constructor
  · intro h
    by_contra hlt
    have hf := div_whole_gt_one s n d k m e m2 e2 hk hd1 hd2 h1 h2 hd hdlt (by omega)
    rw [h] at hf
    exact absurd hf (by simp)
  · intro hle
    have hpos : 0 < m2 * 2 ^ e2 := by
      rw [h2]
      exact Nat.mul_pos hd (Nat.two_pow_pos _)
    exact div_inUnit s m e (m2 * 2 ^ e2) (fin false m2 e2) hd1 ⟨hd2, le_refl _⟩ hpos
      (by rw [h1, h2]; exact Nat.mul_le_mul_right _ hle)

end B64

/-! ## Binary64: the law-of-cosines quotient on whole-number lengths -/

theorem triangle_whole_arith_pos (L l1 l2 : Nat) (hle : l2 * l2 ≤ L * L + l1 * l1) :
    L * L + l1 * l1 - l2 * l2 ≤ 2 * L * l1 ↔ (l1 ≤ L + l2 ∧ l2 ≤ L + l1 ∧ L ≤ l1 + l2) := by
  rw [Nat.sub_le_iff_le_add]
  constructor
  · intro h
    refine ⟨?_, ?_, ?_⟩
    · by_contra hc
      push_neg at hc
      nlinarith
    · by_contra hc
      push_neg at hc
      nlinarith
    · by_contra hc
      push_neg at hc
      nlinarith
  · rintro ⟨h1, h2, h3⟩
    zify at h1 h2 h3 ⊢
    nlinarith [mul_nonneg (sub_nonneg.mpr h1) (sub_nonneg.mpr h3)]

theorem triangle_whole_arith_neg (L l1 l2 : Nat) (hlt : L * L + l1 * l1 < l2 * l2) :
    l2 * l2 - (L * L + l1 * l1) ≤ 2 * L * l1 ↔ (l1 ≤ L + l2 ∧ l2 ≤ L + l1 ∧ L ≤ l1 + l2) := by
  rw [Nat.sub_le_iff_le_add]
  constructor
  · intro h
    refine ⟨?_, ?_, ?_⟩
    · by_contra hc
      push_neg at hc
      nlinarith
    · by_contra hc
      push_neg at hc
      nlinarith
    · by_contra hc
      push_neg at hc
      nlinarith
  · rintro ⟨h1, h2, h3⟩
    nlinarith

set_option maxRecDepth 100000 in
/-- On doubles that hold whole numbers `L, l1 > 0` and `l2` below `2^26`, every operation of
the law-of-cosines quotient but the final division is exact, and the quotient lies in
`[-1, 1]` exactly when `L`, `l1`, `l2` form a (possibly degenerate) triangle. -/
theorem triangleArg_whole (L l1 l2 : Nat) (v p q : B64) (hL : 0 < L) (h1 : 0 < l1)
    (hLb : L < 2 ^ 26) (h1b : l1 < 2 ^ 26) (h2b : l2 < 2 ^ 26)
    (hv : B64.IsWhole L v) (hp : B64.IsWhole l1 p) (hq : B64.IsWhole l2 q) :
    B64.inUnit (triangleArg v p q) = true ↔ (l1 ≤ L + l2 ∧ l2 ≤ L + l1 ∧ L ≤ l1 + l2) := by
  have hLL : L * L < 2 ^ 52 := by
    have := Nat.mul_lt_mul'' hLb hLb
    rwa [← Nat.pow_add] at this
  have h11 : l1 * l1 < 2 ^ 52 := by
    have := Nat.mul_lt_mul'' h1b h1b
    rwa [← Nat.pow_add] at this
  have h22 : l2 * l2 < 2 ^ 53 := by
    have : l2 * l2 ≤ 2 ^ 26 * 2 ^ 26 := Nat.mul_le_mul h2b.le h2b.le
    rw [← Nat.pow_add] at this
    have h' : (2 : Nat) ^ (26 + 26) < 2 ^ 53 := by norm_num
    omega
  have hL1 : L * l1 < 2 ^ 52 := by
    have := Nat.mul_lt_mul'' hLb h1b
    rwa [← Nat.pow_add] at this
  have h53 : (2 : Nat) ^ 53 = 2 * 2 ^ 52 := by norm_num
  have hD : 2 * L * l1 < 2 ^ 53 := by
    rw [Nat.mul_assoc]
    omega
  have hDpos : 0 < 2 * L * l1 := Nat.mul_pos (Nat.mul_pos (by norm_num) hL) h1
  have htwo : B64.IsWhole 2 (B64.fin false 4503599627370496 1023) := by decide
  have hvv := B64.mul_isWhole L L v v hv hv (by omega)
  have hpp := B64.mul_isWhole l1 l1 p p hp hp (by omega)
  have hqq := B64.mul_isWhole l2 l2 q q hq hq h22
  have hsum := B64.add_isWhole (L * L) (l1 * l1) _ _ hvv hpp (by omega)
  have h2v := B64.mul_isWhole 2 L _ v htwo hv (by omega)
  have hden := B64.mul_isWhole (2 * L) l1 _ p h2v hp hD
  show B64.inUnit (B64.div (B64.add (B64.add (B64.mul v v) (B64.mul p p))
      (B64.neg (B64.mul q q)))
    (B64.mul (B64.mul (B64.fin false 4503599627370496 1023) v) p)) = true ↔ _
  obtain ⟨k, hk⟩ : ∃ k, k = 1074 := ⟨_, rfl⟩
  by_cases hle : l2 * l2 ≤ L * L + l1 * l1
  · have hnum := B64.sub_isWhole_of_le _ _ _ _ hsum hqq (by omega) hle
    obtain ⟨m, e, hme, hdm, hmag⟩ := B64.isWhole_elim _ k hk _ hnum
    rw [hme]
    rw [B64.div_whole_inUnit false _ _ m e _ ((B64.isWhole_fin _ k m e hk).mpr ⟨hdm, hmag⟩)
      hden hDpos hD]
    exact triangle_whole_arith_pos L l1 l2 hle
  · obtain ⟨m, e, hme, hw⟩ := B64.sub_isWhole_of_lt _ _ _ _ hsum hqq h22 (by omega)
    rw [hme]
    rw [B64.div_whole_inUnit true _ _ m e _ hw hden hDpos hD]
    exact triangle_whole_arith_neg L l1 l2 (by omega)

/-! ## Binary64: the untilted pose with equal base and plate spans -/

namespace B64

end B64

/-! ## The formulas before rounding: identities in exact real arithmetic -/

/-- In exact real arithmetic, in the untilted pose, with `geoBaseSpan ≥ geoPlateSpan` and
`linkPrimary > 0`, for each node: if `|z1| ≤ |z2|`, both calls return a real angle, and
`(geoBaseSpan - geoPlateSpan)² + z2² ≤ linkPrimary² - linkSecondary²`, then the magnitude of
the angle at `z1` is at most the magnitude of the angle at `z2`.  (Between neighbouring doubles
the rounded angle can drop by a unit in the last place.) -/
theorem untilted_angle_monotone_exact (r : CelestialRig) (g : Globals RVal) (node : Nat)
    (G P l1 l2 z1 z2 a1 a2 : ℝ)
    (hnode : node = NEXUS_X ∨ node = NEXUS_Y ∨ node = NEXUS_Z)
    (hG : g.geoBaseSpan = fin G) (hP : g.geoPlateSpan = fin P)
    (hl1 : g.linkPrimary = fin l1) (hl2 : g.linkSecondary = fin l2)
    (hGP : P ≤ G) (hpos : 0 < l1) (hz : |z1| ≤ |z2|)
    (hrange : (G - P) ^ 2 + z2 ^ 2 ≤ l1 ^ 2 - l2 ^ 2)
    (h1 : (r.computeAngle g node (fin z1) (fin 0) (fin 0)).1 = fin a1)
    (h2 : (r.computeAngle g node (fin z2) (fin 0) (fin 0)).1 = fin a2) :
    |a1| ≤ |a2| := by
  rw [computeAngle_untilted r g node G P z1 hnode hG hP, hl1, hl2] at h1
  rw [computeAngle_untilted r g node G P z2 hnode hG hP, hl1, hl2] at h2
  exact finish_untilted_mono (sub_nonneg.mpr hGP) hpos hz hrange h1 h2

/-- In exact real arithmetic, branch Y at a tilt `(x, y)` returns what branch Z returns at the
tilt rotated by 120° about the vertical axis, `(-x/2 - (√3/2)·y, (√3/2)·x - y/2)`, for every
geometry, `zPos` and real tilt.  (In doubles the two agree only up to rounding.) -/
theorem branch_Y_eq_branch_Z_rotated_exact (r : CelestialRig) (g : Globals RVal) (zPos : RVal)
    (x y : ℝ) :
    (r.computeAngle g NEXUS_Y zPos (fin x) (fin y)).1
      = (r.computeAngle g NEXUS_Z zPos (fin (-x / 2 - Real.sqrt 3 / 2 * y))
          (fin (Real.sqrt 3 / 2 * x - y / 2))).1 := by
  rw [computeAngle_Y_eq, computeAngle_Z_eq]
  exact denoteY_eq_denoteZ_rot _ _ _ _ _ _ _

/-- In exact real arithmetic, for every tilt with `xVec = 0`, branch X at `(0, y)` returns what
branch Y returns at `(0, y)` rotated by 120° about the vertical axis,
`(-0/2 - (√3/2)·y, (√3/2)·0 - y/2)`.  (In doubles the two agree only up to rounding.) -/
theorem branch_X_eq_branch_Y_rotated_exact (r : CelestialRig) (g : Globals RVal)
    (zPos : RVal) (y : ℝ) :
    (r.computeAngle g NEXUS_X zPos (fin 0) (fin y)).1
      = (r.computeAngle g NEXUS_Y zPos (fin (-0 / 2 - Real.sqrt 3 / 2 * y))
          (fin (Real.sqrt 3 / 2 * 0 - y / 2))).1 := by
  rw [computeAngle_X_eq, computeAngle_Y_eq]
  cases g.geoBaseSpan with
  | nan => simp only [denoteX, denoteY]
  | fin G =>
  cases g.geoPlateSpan with
  | nan => simp only [denoteX, denoteY]
  | fin P =>
  cases zPos with
  | nan => simp only [denoteX, denoteY]
  | fin z => exact (denoteY_rot_nx_zero G P z y _ _).symm

/-! ## Claims -/

set_option maxRecDepth 100000 in
/-- C1, as stated, fails in binary64: with geometry (50.3, 5, 80, 120), `zPos = 0` and no
tilt, node Y returns NaN (its joint vector has the rounded length 45.29999999999999 and the
elevation quotient is 1.0000000000000002, outside the domain of `acos`), while node X returns
a number (its two arc-cosine arguments are 1.0 and about -0.82). -/
theorem untilted_X_differs_from_Y_in_binary64 :
    (CelestialRig.mk.computeAngle
        (CelestialRig.new (50.3 : B64) 5.0 80.0 120.0 Globals.init).2
        NEXUS_Y 0.0 0.0 0.0).1 = B64.nan
    ∧ (CelestialRig.mk.computeAngle
        (CelestialRig.new (50.3 : B64) 5.0 80.0 120.0 Globals.init).2
        NEXUS_X 0.0 0.0 0.0).1 ≠ B64.nan
    ∧ (CelestialRig.mk.computeAngle
        (CelestialRig.new (50.3 : B64) 5.0 80.0 120.0 Globals.init).2
        NEXUS_Y 0.0 0.0 0.0).2.vecLength = B64.fin false 6375408222496357 1027
    ∧ (CelestialRig.mk.computeAngle
        (CelestialRig.new (50.3 : B64) 5.0 80.0 120.0 Globals.init).2
        NEXUS_X 0.0 0.0 0.0).2.vecLength = B64.fin false 6375408222496358 1027 := by
  refine ⟨?_, ?_, by decide, by decide⟩
  · rw [computeAngle_Y_fst]
    exact arcSum_nan_left _ _ _ (by decide)
  · rw [computeAngle_X_fst]
    exact arcSum_ne_nan _ _ _ false 8063664102031864 1027 (by decide) (by decide) (by decide)
      (by decide)

set_option maxRecDepth 100000 in
/-- C1, amended: in binary64, in the untilted pose (`xVec = yVec = 0`) nodes Y and Z return the
same value (the same double, or NaN both), for every geometry and every `zPos`. -/
theorem untilted_Y_Z_agree (r : CelestialRig) (g : Globals B64) (zPos : B64) :
    (r.computeAngle g NEXUS_Y zPos 0.0 0.0).1 = (r.computeAngle g NEXUS_Z zPos 0.0 0.0).1 := by
  have h1 : (r.computeAngle g NEXUS_Y zPos 0.0 0.0).2.coordZ
      = B64.add zPos
          (B64.neg (B64.mul (B64.div g.geoPlateSpan (B64.fin false 4503599627370496 1023))
            (B64.fin false 0 0))) := rfl
  have h2 : (r.computeAngle g NEXUS_Z zPos 0.0 0.0).2.coordZ
      = B64.add zPos
          (B64.mul (B64.div g.geoPlateSpan (B64.fin false 4503599627370496 1023))
            (B64.fin false 0 0)) := rfl
  have hZ : B64.mul (r.computeAngle g NEXUS_Y zPos 0.0 0.0).2.coordZ
        (r.computeAngle g NEXUS_Y zPos 0.0 0.0).2.coordZ
      = B64.mul (r.computeAngle g NEXUS_Z zPos 0.0 0.0).2.coordZ
        (r.computeAngle g NEXUS_Z zPos 0.0 0.0).2.coordZ := by
    rw [h1, h2]
    exact B64.sq_add_bothZero zPos (B64.bothZero_neg_left (B64.mul_zero_bothZero _ false false))
  obtain ⟨hL, hE⟩ := untilted_Y_Z_core g.geoBaseSpan g.geoPlateSpan
    (r.computeAngle g NEXUS_Y zPos 0.0 0.0).2.coordX
    (r.computeAngle g NEXUS_Y zPos 0.0 0.0).2.coordY
    (r.computeAngle g NEXUS_Y zPos 0.0 0.0).2.coordZ
    (r.computeAngle g NEXUS_Z zPos 0.0 0.0).2.coordX
    (r.computeAngle g NEXUS_Z zPos 0.0 0.0).2.coordY
    (r.computeAngle g NEXUS_Z zPos 0.0 0.0).2.coordZ rfl rfl rfl rfl hZ
  have hLen : (r.computeAngle g NEXUS_Y zPos 0.0 0.0).2.vecLength
      = (r.computeAngle g NEXUS_Z zPos 0.0 0.0).2.vecLength :=
    (computeAngle_Y_vecLength r g zPos 0.0 0.0).trans
      (hL.trans (computeAngle_Z_vecLength r g zPos 0.0 0.0).symm)
  rw [computeAngle_Y_fst, computeAngle_Z_fst, hLen, hE]

/-- C2: for a node in `{NEXUS_X, NEXUS_Y, NEXUS_Z}` the returned value depends only on the four
geometry parameters and on the arguments: two states that agree on the geometry give the same
result, whatever their scratch variables hold.  Holds for every arithmetic `α`. -/
theorem computeAngle_ignores_scratch {α : Type} [DoubleArith α] (r₁ r₂ : CelestialRig)
    (g₁ g₂ : Globals α) (node : Nat) (zPos xVec yVec : α)
    (hnode : node = NEXUS_X ∨ node = NEXUS_Y ∨ node = NEXUS_Z)
    (hB : g₁.geoBaseSpan = g₂.geoBaseSpan) (hP : g₁.geoPlateSpan = g₂.geoPlateSpan)
    (h1 : g₁.linkPrimary = g₂.linkPrimary) (h2 : g₁.linkSecondary = g₂.linkSecondary) :
    (r₁.computeAngle g₁ node zPos xVec yVec).1 = (r₂.computeAngle g₂ node zPos xVec yVec).1 :=
  computeAngle_congr_geometry r₁ r₂ g₁ g₂ node zPos xVec yVec hnode hB hP h1 h2

/-- Witness for C2: the state left behind by an earlier call for node Y and the fresh state
give the same result for node X. -/
theorem computeAngle_ignores_scratch_witness :
    (NEXUS_X = NEXUS_X ∨ NEXUS_X = NEXUS_Y ∨ NEXUS_X = NEXUS_Z)
    ∧ (CelestialRig.new (fin 50) (fin 40) (fin 80) (fin 120) Globals.init).2.geoBaseSpan
        = (CelestialRig.mk.computeAngle
            (CelestialRig.new (fin 50) (fin 40) (fin 80) (fin 120) Globals.init).2
            NEXUS_Y (fin 150) (fin 1) (fin 2)).2.geoBaseSpan
    ∧ (CelestialRig.mk.computeAngle
          (CelestialRig.new (fin 50) (fin 40) (fin 80) (fin 120) Globals.init).2
          NEXUS_X (fin 150) (fin 0) (fin 0)).1
        = (CelestialRig.mk.computeAngle
            (CelestialRig.mk.computeAngle
              (CelestialRig.new (fin 50) (fin 40) (fin 80) (fin 120) Globals.init).2
              NEXUS_Y (fin 150) (fin 1) (fin 2)).2
            NEXUS_X (fin 150) (fin 0) (fin 0)).1 :=
  ⟨Or.inl rfl, rfl,
    computeAngle_ignores_scratch _ _ _ _ _ _ _ _ (Or.inl rfl) rfl rfl rfl rfl⟩

/-- C3: negating the X tilt swaps nodes Y and Z exactly. -/
theorem negate_xVec_swaps_Y_Z (r : CelestialRig) (g : Globals RVal) (zPos xVec yVec : RVal) :
    (r.computeAngle g NEXUS_Y zPos (-xVec) yVec).1
      = (r.computeAngle g NEXUS_Z zPos xVec yVec).1 := by
  rw [computeAngle_Y_eq, computeAngle_Z_eq]
  exact denoteY_neg_eq_denoteZ _ _ _ _ _ _ _

/-- C4, as stated, fails: for geometry (50, 40, 80, 120) and pose (150, 0, 0) the angle returned
for node X is not the triangle-correction term `acos ((150² + 80² - 120²) / (2·150·80))` in
degrees, neither with the factor `180/π` nor with the factor of line 80.  The elevation term
is `acos (10 / √22600)`, about 86°, not `acos (150/150) = 0`. -/
theorem scenario_angle_is_not_triangle_term_alone :
    (CelestialRig.mk.computeAngle
        (CelestialRig.new (fin 50) (fin 40) (fin 80) (fin 120) Globals.init).2
        NEXUS_X (fin 150) (fin 0) (fin 0)).1
      ≠ fin (180 / Real.pi
          * Real.arccos ((150 ^ 2 + 80 ^ 2 - 120 ^ 2) / (2 * 150 * 80)))
    ∧ (CelestialRig.mk.computeAngle
        (CelestialRig.new (fin 50) (fin 40) (fin 80) (fin 120) Globals.init).2
        NEXUS_X (fin 150) (fin 0) (fin 0)).1
      ≠ fin (180 / 3.141592653589793
          * Real.arccos ((150 ^ 2 + 80 ^ 2 - 120 ^ 2) / (2 * 150 * 80))) := by
  have hval := scenario_X Globals.init
  have hgt := scenario_angle_gt
  have hc : Real.arccos ((150 ^ 2 + 80 ^ 2 - 120 ^ 2) / (2 * 150 * 80)) < Real.pi / 2 :=
    Real.arccos_lt_pi_div_two.mpr (by norm_num)
  have hpi := Real.pi_pos
  have hk := degFactor_pos
  have hkpi := degFactor_mul_pi_gt
  constructor
  · rw [hval]
    apply fin_ne_fin
    have h1 : 180 / Real.pi * Real.arccos ((150 ^ 2 + 80 ^ 2 - 120 ^ 2) / (2 * 150 * 80))
        < 180 / Real.pi * (Real.pi / 2) := mul_lt_mul_of_pos_left hc (by positivity)
    have h2 : 180 / Real.pi * (Real.pi / 2) = 90 := by field_simp; ring
    intro h
    linarith
  · rw [hval]
    apply fin_ne_fin
    have h1 : 180 / 3.141592653589793
          * Real.arccos ((150 ^ 2 + 80 ^ 2 - 120 ^ 2) / (2 * 150 * 80))
        < degFactor * (Real.pi / 2) := mul_lt_mul_of_pos_left hc hk
    intro h
    linarith

/-- C4, amended: for geometry (50, 40, 80, 120) and pose (150, 0, 0) each of the three nodes
returns the same real angle `θ = (acos ((50 - 40) / L) + acos ((L² + 80² - 120²) / (2·L·80)))
· (180 / 3.141592653589793)` with `L = √((50 - 40)² + 150²)`: the elevation term is
`acos (coordY / L)` with `coordY = geoBaseSpan - geoPlateSpan`, added to the triangle term. -/
theorem scenario_angle_closed_form (g : Globals RVal) :
    ((CelestialRig.new (fin 50) (fin 40) (fin 80) (fin 120) g).1.computeAngle
        (CelestialRig.new (fin 50) (fin 40) (fin 80) (fin 120) g).2
        NEXUS_X (fin 150) (fin 0) (fin 0)).1
      = fin ((Real.arccos ((50 - 40) / Real.sqrt ((50 - 40) ^ 2 + 150 ^ 2))
          + Real.arccos ((Real.sqrt ((50 - 40) ^ 2 + 150 ^ 2) ^ 2 + 80 ^ 2 - 120 ^ 2)
              / (2 * Real.sqrt ((50 - 40) ^ 2 + 150 ^ 2) * 80)))
          * (180 / 3.141592653589793))
    ∧ ((CelestialRig.new (fin 50) (fin 40) (fin 80) (fin 120) g).1.computeAngle
        (CelestialRig.new (fin 50) (fin 40) (fin 80) (fin 120) g).2
        NEXUS_Y (fin 150) (fin 0) (fin 0)).1
      = fin ((Real.arccos ((50 - 40) / Real.sqrt ((50 - 40) ^ 2 + 150 ^ 2))
          + Real.arccos ((Real.sqrt ((50 - 40) ^ 2 + 150 ^ 2) ^ 2 + 80 ^ 2 - 120 ^ 2)
              / (2 * Real.sqrt ((50 - 40) ^ 2 + 150 ^ 2) * 80)))
          * (180 / 3.141592653589793))
    ∧ ((CelestialRig.new (fin 50) (fin 40) (fin 80) (fin 120) g).1.computeAngle
        (CelestialRig.new (fin 50) (fin 40) (fin 80) (fin 120) g).2
        NEXUS_Z (fin 150) (fin 0) (fin 0)).1
      = fin ((Real.arccos ((50 - 40) / Real.sqrt ((50 - 40) ^ 2 + 150 ^ 2))
          + Real.arccos ((Real.sqrt ((50 - 40) ^ 2 + 150 ^ 2) ^ 2 + 80 ^ 2 - 120 ^ 2)
              / (2 * Real.sqrt ((50 - 40) ^ 2 + 150 ^ 2) * 80)))
          * (180 / 3.141592653589793)) := by
  have hform : (Real.arccos ((50 - 40) / Real.sqrt ((50 - 40) ^ 2 + 150 ^ 2))
          + Real.arccos ((Real.sqrt ((50 - 40) ^ 2 + 150 ^ 2) ^ 2 + 80 ^ 2 - 120 ^ 2)
              / (2 * Real.sqrt ((50 - 40) ^ 2 + 150 ^ 2) * 80)))
          * (180 / 3.141592653589793)
      = (Real.arccos ((50 - 40) / Real.sqrt ((50 - 40) * (50 - 40) + 150 * 150))
          + Real.arccos (triArg (Real.sqrt ((50 - 40) * (50 - 40) + 150 * 150)) 80 120))
          * degFactor := by
    unfold triArg degFactor
    simp only [sq]
  rw [hform]
  exact ⟨scenario_X g, scenario_Y g, scenario_Z g⟩

/-- C6, as stated, fails: rig A is built with geometry (2, 1, 1, 1), then rig B with
(2, 1, 1, 2); afterwards `A.computeAngle` no longer returns the angle it returned before B
was built. -/
theorem second_rig_changes_first_rig_angle :
    ((CelestialRig.new (fin 2) (fin 1) (fin 1) (fin 1) (Globals.init : Globals RVal)).1.computeAngle
        (CelestialRig.new (fin 2) (fin 1) (fin 1) (fin 2)
          (CelestialRig.new (fin 2) (fin 1) (fin 1) (fin 1) Globals.init).2).2
        NEXUS_X (fin 0) (fin 0) (fin 0)).1
      ≠ ((CelestialRig.new (fin 2) (fin 1) (fin 1) (fin 1) (Globals.init : Globals RVal)).1.computeAngle
          (CelestialRig.new (fin 2) (fin 1) (fin 1) (fin 1) Globals.init).2
          NEXUS_X (fin 0) (fin 0) (fin 0)).1 := by
  have hA : ((CelestialRig.new (fin 2) (fin 1) (fin 1) (fin 1)
        (Globals.init : Globals RVal)).1.computeAngle
        (CelestialRig.new (fin 2) (fin 1) (fin 1) (fin 1) Globals.init).2
        NEXUS_X (fin 0) (fin 0) (fin 0)).1 = fin (Real.arccos (1 / 2) * degFactor) := by
    norm_num [CelestialRig.computeAngle, CelestialRig.new, normalizeVec, caseX, NEXUS_X,
      fin_div_fin, sqrt_fin, acos_fin, degFactor]
  have hB : ((CelestialRig.new (fin 2) (fin 1) (fin 1) (fin 1)
        (Globals.init : Globals RVal)).1.computeAngle
        (CelestialRig.new (fin 2) (fin 1) (fin 1) (fin 2)
          (CelestialRig.new (fin 2) (fin 1) (fin 1) (fin 1) Globals.init).2).2
        NEXUS_X (fin 0) (fin 0) (fin 0)).1 = fin (Real.pi * degFactor) := by
    norm_num [CelestialRig.computeAngle, CelestialRig.new, normalizeVec, caseX, NEXUS_X,
      fin_div_fin, sqrt_fin, acos_fin, degFactor]
  rw [hA, hB]
  apply fin_ne_fin
  have hk := degFactor_pos
  have := arccos_half_lt_pi
  intro h
  have := mul_right_cancel₀ hk.ne' h
  linarith

/-- C6, amended: the geometry lives in file-scope variables shared by every rig.  After rig A
is built with `v1..v4` and then rig B with `w1..w4`, both `A.computeAngle` and `B.computeAngle`
return, for every valid node and pose, the angle determined by `w1..w4` (the value a rig built
with `w1..w4` from any other state returns). -/
theorem geometry_is_shared_between_rigs {α : Type} [DoubleArith α] (g g' : Globals α)
    (v1 v2 v3 v4 w1 w2 w3 w4 : α) (node : Nat) (zPos xVec yVec : α)
    (hnode : node = NEXUS_X ∨ node = NEXUS_Y ∨ node = NEXUS_Z) :
    ((CelestialRig.new v1 v2 v3 v4 g).1.computeAngle
        (CelestialRig.new w1 w2 w3 w4 (CelestialRig.new v1 v2 v3 v4 g).2).2
        node zPos xVec yVec).1
      = ((CelestialRig.new w1 w2 w3 w4 g').1.computeAngle (CelestialRig.new w1 w2 w3 w4 g').2
          node zPos xVec yVec).1
    ∧ ((CelestialRig.new w1 w2 w3 w4 (CelestialRig.new v1 v2 v3 v4 g).2).1.computeAngle
        (CelestialRig.new w1 w2 w3 w4 (CelestialRig.new v1 v2 v3 v4 g).2).2
        node zPos xVec yVec).1
      = ((CelestialRig.new w1 w2 w3 w4 g').1.computeAngle (CelestialRig.new w1 w2 w3 w4 g').2
          node zPos xVec yVec).1 :=
  ⟨computeAngle_congr_geometry _ _ _ _ node zPos xVec yVec hnode rfl rfl rfl rfl,
    computeAngle_congr_geometry _ _ _ _ node zPos xVec yVec hnode rfl rfl rfl rfl⟩

/-- Witness for the amended C6 at the rigs of the counterexample. -/
theorem geometry_is_shared_between_rigs_witness :
    (NEXUS_X = NEXUS_X ∨ NEXUS_X = NEXUS_Y ∨ NEXUS_X = NEXUS_Z)
    ∧ ((CelestialRig.new (fin 2) (fin 1) (fin 1) (fin 1) (Globals.init : Globals RVal)).1.computeAngle
        (CelestialRig.new (fin 2) (fin 1) (fin 1) (fin 2)
          (CelestialRig.new (fin 2) (fin 1) (fin 1) (fin 1) Globals.init).2).2
        NEXUS_X (fin 0) (fin 0) (fin 0)).1
      = ((CelestialRig.new (fin 2) (fin 1) (fin 1) (fin 2)
            (Globals.init : Globals RVal)).1.computeAngle
          (CelestialRig.new (fin 2) (fin 1) (fin 1) (fin 2) Globals.init).2
          NEXUS_X (fin 0) (fin 0) (fin 0)).1 :=
  ⟨Or.inl rfl,
    (geometry_is_shared_between_rigs Globals.init Globals.init (fin 2) (fin 1) (fin 1) (fin 1)
      (fin 2) (fin 1) (fin 1) (fin 2) NEXUS_X (fin 0) (fin 0) (fin 0) (Or.inl rfl)).1⟩

set_option maxRecDepth 100000 in
/-- C7, as stated, fails in binary64: with geometry (5, 5, 3, 1), `zPos = 4.000000000000000888`
and no tilt, node X leaves `vecLength = 4.000000000000001`, which exceeds
`linkPrimary + linkSecondary = 4`, yet the law-of-cosines quotient rounds to exactly 1.0, inside
the domain of `acos`, and the call returns a number, not NaN. -/
theorem unreachable_pose_returns_number_in_binary64 :
    (CelestialRig.mk.computeAngle
        (CelestialRig.new (5.0 : B64) 5.0 3.0 1.0 Globals.init).2
        NEXUS_X 4.000000000000000888 0.0 0.0).2.vecLength = B64.fin false 4503599627370497 1024
    ∧ B64.lt ((3.0 : B64) + 1.0)
        (CelestialRig.mk.computeAngle
          (CelestialRig.new (5.0 : B64) 5.0 3.0 1.0 Globals.init).2
          NEXUS_X 4.000000000000000888 0.0 0.0).2.vecLength = true
    ∧ triangleArg
        (CelestialRig.mk.computeAngle
          (CelestialRig.new (5.0 : B64) 5.0 3.0 1.0 Globals.init).2
          NEXUS_X 4.000000000000000888 0.0 0.0).2.vecLength 3.0 1.0 = (1.0 : B64)
    ∧ (CelestialRig.mk.computeAngle
        (CelestialRig.new (5.0 : B64) 5.0 3.0 1.0 Globals.init).2
        NEXUS_X 4.000000000000000888 0.0 0.0).1 ≠ B64.nan := by
  refine ⟨by decide, by decide, by decide, ?_⟩
  rw [computeAngle_X_fst]
  exact arcSum_ne_nan _ _ _ false 8063664102031864 1027 (by decide) (by decide) (by decide)
    (by decide)

/-- C7, amended: for each of the three nodes, in binary64, if the law-of-cosines quotient
`(L² + linkPrimary² - linkSecondary²) / (2·L·linkPrimary)` that the call computes from its
`vecLength` `L` is NaN or outside `[-1, 1]`, the second arc-cosine is out of domain and
`computeAngle` returns NaN. -/
theorem out_of_domain_quotient_yields_nan (r : CelestialRig) (g : Globals B64) (node : Nat)
    (zPos xVec yVec : B64)
    (hnode : node = NEXUS_X ∨ node = NEXUS_Y ∨ node = NEXUS_Z)
    (hq : B64.inUnit (triangleArg (r.computeAngle g node zPos xVec yVec).2.vecLength
        g.linkPrimary g.linkSecondary) = false) :
    (r.computeAngle g node zPos xVec yVec).1 = B64.nan := by
  rcases hnode with h | h | h <;> subst h
  · rw [computeAngle_X_fst]
    exact arcSum_nan_right _ _ _ hq
  · rw [computeAngle_Y_fst]
    exact arcSum_nan_right _ _ _ hq
  · rw [computeAngle_Z_fst]
    exact arcSum_nan_right _ _ _ hq

set_option maxRecDepth 100000 in
/-- Witness for the amended C7: base 50, plate 10, links 20 and 25, height 30, no tilt, node X:
the joint vector has length 50, the quotient is 1.1375 and the call returns NaN. -/
theorem out_of_domain_quotient_yields_nan_witness :
    triangleArg
        (CelestialRig.mk.computeAngle
          (CelestialRig.new (50.0 : B64) 10.0 20.0 25.0 Globals.init).2
          NEXUS_X 30.0 0.0 0.0).2.vecLength 20.0 25.0 = B64.fin false 5122844576133939 1022
    ∧ (CelestialRig.mk.computeAngle
        (CelestialRig.new (50.0 : B64) 10.0 20.0 25.0 Globals.init).2
        NEXUS_X 30.0 0.0 0.0).1 = B64.nan :=
  ⟨by decide,
    out_of_domain_quotient_yields_nan CelestialRig.mk
      (CelestialRig.new (50.0 : B64) 10.0 20.0 25.0 Globals.init).2 NEXUS_X 30.0 0.0 0.0
      (Or.inl rfl) (by decide)⟩

set_option maxRecDepth 100000 in
/-- C10, as stated, fails in binary64: at `xVec = 1e8`, `yVec = 0` the quotient `normX` rounds
to exactly 1.0 (not below 1), and at `xVec = 1e200` the square overflows, `vecNormMag` is
`+∞` and the normalised vector is `(0, 0, 0)`, whose squares sum to 0 and whose `vecNormZ` is
not positive. -/
theorem normalization_not_unit_in_binary64 :
    (normalizeVec (1e8 : B64) 0.0).2.1 = 1.0
    ∧ normalizeVec (1e200 : B64) 0.0 = (B64.inf false, 0.0, 0.0, 0.0)
    ∧ (0.0 : B64) * 0.0 + 0.0 * 0.0 + 0.0 * 0.0 = 0.0 := by
  refine ⟨by decide, by decide, by decide⟩

set_option maxRecDepth 100000 in
/-- C10, amended: in binary64, for all finite doubles `xVec`, `yVec` (arbitrarily large) the
normalisation of lines 44-47 divides by a `vecNormMag` that is at least 1 (never zero; `+∞`
when a square overflows) and yields `|normX| ≤ 1`, `|normY| ≤ 1` and `0 ≤ vecNormZ ≤ 1`, and
`computeAngle` stores that `vecNormMag` and `vecNormZ` whatever the node.  At the example
`xVec = yVec = 1e6` of the specification the code computes `vecNormMag = 1414213.5623734486`,
`normX = normY = 0.7071067811863707` and `vecNormZ = 7.071067811863708e-07`, strictly inside
the bounds, and the rounded squares sum to exactly 1.0. -/
theorem normalization_within_unit_bounds :
    (∀ x y : B64, B64.IsDouble x → B64.IsFinite x → B64.IsDouble y → B64.IsFinite y →
      B64.le 1.0 (normalizeVec x y).1 = true
      ∧ B64.inUnit (normalizeVec x y).2.1 = true
      ∧ B64.inUnit (normalizeVec x y).2.2.1 = true
      ∧ B64.le 0.0 (normalizeVec x y).2.2.2 = true
      ∧ B64.le (normalizeVec x y).2.2.2 1.0 = true
      ∧ ∀ (r : CelestialRig) (g : Globals B64) (node : Nat) (zPos : B64),
          (r.computeAngle g node zPos x y).2.vecNormMag = (normalizeVec x y).1
          ∧ (r.computeAngle g node zPos x y).2.vecNormZ = (normalizeVec x y).2.2.2)
    ∧ (normalizeVec (1e6 : B64) 1e6
          = (B64.fin false 6074000999953618 1042, B64.fin false 6369051672524180 1021,
              B64.fin false 6369051672524180 1021, B64.fin false 6678434726568715 1001)
      ∧ B64.lt 1.0 (normalizeVec (1e6 : B64) 1e6).1 = true
      ∧ B64.lt (normalizeVec (1e6 : B64) 1e6).2.1 1.0 = true
      ∧ B64.lt (normalizeVec (1e6 : B64) 1e6).2.2.1 1.0 = true
      ∧ B64.lt 0.0 (normalizeVec (1e6 : B64) 1e6).2.2.2 = true
      ∧ B64.lt (normalizeVec (1e6 : B64) 1e6).2.2.2 1.0 = true
      ∧ (normalizeVec (1e6 : B64) 1e6).2.1 * (normalizeVec (1e6 : B64) 1e6).2.1
          + (normalizeVec (1e6 : B64) 1e6).2.2.1 * (normalizeVec (1e6 : B64) 1e6).2.2.1
          + (normalizeVec (1e6 : B64) 1e6).2.2.2 * (normalizeVec (1e6 : B64) 1e6).2.2.2
        = (1.0 : B64)) := by
  refine ⟨?_, by decide, by decide, by decide, by decide, by decide, by decide, by decide⟩
  intro x y hx hxf hy hyf
  obtain ⟨h1, h2, h3, h4, h5⟩ := normalizeVec_bounds x y hx hxf hy hyf
  refine ⟨h1, h2, h3, h4, h5, ?_⟩
  intro r g node zPos
  constructor
  · unfold CelestialRig.computeAngle
    split <;> rfl
  · unfold CelestialRig.computeAngle
    split <;> rfl

set_option maxRecDepth 100000 in
/-- Witness for the amended C10: at `xVec = 1e8`, `yVec = -3.5` the bounds hold, with
`normX` exactly 1.0. -/
theorem normalization_within_unit_bounds_witness :
    B64.IsDouble (1e8 : B64) ∧ B64.IsFinite (1e8 : B64)
    ∧ B64.IsDouble (-3.5 : B64) ∧ B64.IsFinite (-3.5 : B64)
    ∧ B64.le 1.0 (normalizeVec (1e8 : B64) (-3.5)).1 = true
    ∧ B64.inUnit (normalizeVec (1e8 : B64) (-3.5)).2.1 = true
    ∧ B64.inUnit (normalizeVec (1e8 : B64) (-3.5)).2.2.1 = true
    ∧ B64.le 0.0 (normalizeVec (1e8 : B64) (-3.5)).2.2.2 = true
    ∧ B64.le (normalizeVec (1e8 : B64) (-3.5)).2.2.2 1.0 = true :=
  have h := normalization_within_unit_bounds.1 (1e8 : B64) (-3.5) (by decide) (by decide)
    (by decide) (by decide)
  ⟨by decide, by decide, by decide, by decide, h.1, h.2.1, h.2.2.1, h.2.2.2.1, h.2.2.2.2.1⟩

set_option maxRecDepth 100000 in
/-- C11, as stated, fails in binary64, in both directions.  Only if: for `L = 3.00000001`,
`linkPrimary = 3`, `linkSecondary = 0` the quotient the code computes is exactly 1.0, inside
`[-1, 1]`, although `L > linkPrimary + linkSecondary` (no triangle); node X reaches this `L` with
geometry (5, 5, 3, 0) at `zPos = 3.00000001` without tilt and returns a number.  If: for
`linkPrimary = 1.1`, `linkSecondary = 2.2` and `L = 3.3000000000000003`, which as doubles are
`4953959590107546·2^(-52)`, `4953959590107546·2^(-51)` and `7430939385161319·2^(-51)`, so that
`L = linkPrimary + linkSecondary` exactly (a degenerate triangle), the computed quotient is
1.0000000000000002, outside `[-1, 1]`; node X reaches this `L` with geometry (5, 5, 1.1, 2.2)
at `zPos = 3.3000000000000003` without tilt and returns NaN. -/
theorem triangle_argument_in_range_without_triangle_in_binary64 :
    (triangleArg (3.00000001 : B64) 3.0 0.0 = 1.0
    ∧ B64.inUnit (triangleArg (3.00000001 : B64) 3.0 0.0) = true
    ∧ B64.lt ((3.0 : B64) + 0.0) 3.00000001 = true
    ∧ (CelestialRig.mk.computeAngle
        (CelestialRig.new (5.0 : B64) 5.0 3.0 0.0 Globals.init).2
        NEXUS_X 3.00000001 0.0 0.0).2.vecLength = 3.00000001
    ∧ (CelestialRig.mk.computeAngle
        (CelestialRig.new (5.0 : B64) 5.0 3.0 0.0 Globals.init).2
        NEXUS_X 3.00000001 0.0 0.0).1 ≠ B64.nan)
    ∧ ((1.1 : B64) = B64.fin false 4953959590107546 1022
    ∧ (2.2 : B64) = B64.fin false 4953959590107546 1023
    ∧ (3.3000000000000003 : B64) = B64.fin false 7430939385161319 1023
    ∧ 4953959590107546 + 2 * 4953959590107546 = 2 * 7430939385161319
    ∧ triangleArg (3.3000000000000003 : B64) 1.1 2.2 = B64.fin false 4503599627370497 1022
    ∧ B64.inUnit (triangleArg (3.3000000000000003 : B64) 1.1 2.2) = false
    ∧ (CelestialRig.mk.computeAngle
        (CelestialRig.new (5.0 : B64) 5.0 1.1 2.2 Globals.init).2
        NEXUS_X 3.3000000000000003 0.0 0.0).2.vecLength = 3.3000000000000003
    ∧ (CelestialRig.mk.computeAngle
        (CelestialRig.new (5.0 : B64) 5.0 1.1 2.2 Globals.init).2
        NEXUS_X 3.3000000000000003 0.0 0.0).1 = B64.nan) := by
  refine ⟨⟨by decide, by decide, by decide, by decide, ?_⟩,
    ⟨by decide, by decide, by decide, by decide, by decide, by decide, by decide, ?_⟩⟩
  · rw [computeAngle_X_fst]
    exact arcSum_ne_nan _ _ _ false 8063664102031864 1027 (by decide) (by decide) (by decide)
      (by decide)
  · rw [computeAngle_X_fst]
    exact arcSum_nan_right _ _ _ (by decide)

/-- C11, amended: each of the three branches hands to its second arc-cosine the quotient
`triangleArg vecLength linkPrimary linkSecondary`, that is
`(L² + linkPrimary² - linkSecondary²) / (2·L·linkPrimary)` evaluated in the arithmetic of the
code on the branch's own `vecLength` (for every arithmetic).  In binary64, on doubles that hold
whole numbers `L > 0`, `linkPrimary > 0` and `linkSecondary ≥ 0` below `2^26` (every operation
but the final division is then exact), that quotient lies in `[-1, 1]` if and only if
`|linkPrimary - linkSecondary| ≤ L ≤ linkPrimary + linkSecondary`. -/
theorem triangle_argument_in_range_iff :
    (∀ (α : Type) [DoubleArith α] (r : CelestialRig) (g : Globals α) (node : Nat)
        (zPos xVec yVec : α), node = NEXUS_X ∨ node = NEXUS_Y ∨ node = NEXUS_Z →
        ∃ elevation : α,
          (r.computeAngle g node zPos xVec yVec).2.arcResult
            = acos elevation
              + acos (triangleArg (r.computeAngle g node zPos xVec yVec).2.vecLength
                  g.linkPrimary g.linkSecondary))
    ∧ (∀ (L l1 l2 : Nat) (v p q : B64), 0 < L → 0 < l1 →
        L < 2 ^ 26 → l1 < 2 ^ 26 → l2 < 2 ^ 26 →
        B64.IsWhole L v → B64.IsWhole l1 p → B64.IsWhole l2 q →
        (B64.inUnit (triangleArg v p q) = true
          ↔ ((l1 ≤ L + l2 ∧ l2 ≤ L + l1) ∧ L ≤ l1 + l2))) := by
  refine ⟨?_, ?_⟩
  · intro α _ r g node zPos xVec yVec hnode
    rcases hnode with h | h | h <;> subst h
    · exact ⟨_, rfl⟩
    · exact ⟨_, rfl⟩
    · exact ⟨_, rfl⟩
  · intro L l1 l2 v p q hL h1 hLb h1b h2b hv hp hq
    rw [triangleArg_whole L l1 l2 v p q hL h1 hLb h1b h2b hv hp hq]
    constructor
    · rintro ⟨a, b, c⟩
      exact ⟨⟨a, b⟩, c⟩
    · rintro ⟨⟨a, b⟩, c⟩
      exact ⟨a, b, c⟩

set_option maxRecDepth 100000 in
/-- Witness for the amended C11: the doubles 5.0, 4.0, 3.0 hold the whole numbers 5, 4, 3, which
form a triangle, and the computed quotient `(25 + 16 - 9) / 40 = 0.8` lies in `[-1, 1]`; the
doubles 9.0, 4.0, 3.0 do not, and the computed quotient `(81 + 16 - 9) / 72` does not. -/
theorem triangle_argument_in_range_iff_witness :
    B64.IsWhole 5 (5.0 : B64) ∧ B64.IsWhole 4 (4.0 : B64) ∧ B64.IsWhole 3 (3.0 : B64)
    ∧ B64.IsWhole 9 (9.0 : B64)
    ∧ (B64.inUnit (triangleArg (5.0 : B64) 4.0 3.0) = true
        ↔ ((4 ≤ 5 + 3 ∧ 3 ≤ 5 + 4) ∧ 5 ≤ 4 + 3))
    ∧ B64.inUnit (triangleArg (5.0 : B64) 4.0 3.0) = true
    ∧ (B64.inUnit (triangleArg (9.0 : B64) 4.0 3.0) = true
        ↔ ((4 ≤ 9 + 3 ∧ 3 ≤ 9 + 4) ∧ 9 ≤ 4 + 3))
    ∧ B64.inUnit (triangleArg (9.0 : B64) 4.0 3.0) = false :=
  ⟨by decide, by decide, by decide, by decide,
    triangle_argument_in_range_iff.2 5 4 3 5.0 4.0 3.0 (by norm_num) (by norm_num)
      (by norm_num) (by norm_num) (by norm_num) (by decide) (by decide) (by decide),
    by decide,
    triangle_argument_in_range_iff.2 9 4 3 9.0 4.0 3.0 (by norm_num) (by norm_num)
      (by norm_num) (by norm_num) (by norm_num) (by decide) (by decide) (by decide),
    by decide⟩

/-- C12: `computeAngle` never modifies the stored geometry: for every node value (valid or
not), every pose and every prior state the four geometry variables are the same after the
call as before.  Holds for every arithmetic `α`. -/
theorem computeAngle_preserves_geometry {α : Type} [DoubleArith α] (r : CelestialRig)
    (g : Globals α) (node : Nat) (zPos xVec yVec : α) :
    (r.computeAngle g node zPos xVec yVec).2.geoBaseSpan = g.geoBaseSpan
    ∧ (r.computeAngle g node zPos xVec yVec).2.geoPlateSpan = g.geoPlateSpan
    ∧ (r.computeAngle g node zPos xVec yVec).2.linkPrimary = g.linkPrimary
    ∧ (r.computeAngle g node zPos xVec yVec).2.linkSecondary = g.linkSecondary := by
  unfold CelestialRig.computeAngle
  split <;> exact ⟨rfl, rfl, rfl, rfl⟩

set_option maxRecDepth 100000 in
/-- C13, as stated, fails in binary64: with geometry (4, 0, 8, 4), `zPos = 0` and no tilt, the
closed form has `L = sqrt ((4 - 0)² + 0²) = 4` and both its arc-cosine arguments are 1.0, so it
is a number; node Y leaves `vecLength = 3.9999999999999996` (the rounded value of
`sqrt (coordX² + coordY² + 0²)` with `coordX = -(√3/2)·4`, `coordY = coordX/√3`), its
law-of-cosines quotient is 1.0000000000000002 and the call returns NaN. -/
theorem untilted_closed_form_fails_for_Y_in_binary64 :
    (sqrt (((4.0 : B64) - 0.0) * (4.0 - 0.0) + 0.0 * 0.0) : B64) = 4.0
    ∧ (CelestialRig.mk.computeAngle
        (CelestialRig.new (4.0 : B64) 0.0 8.0 4.0 Globals.init).2
        NEXUS_Y 0.0 0.0 0.0).2.vecLength = B64.fin false 9007199254740991 1023
    ∧ (CelestialRig.mk.computeAngle
        (CelestialRig.new (4.0 : B64) 0.0 8.0 4.0 Globals.init).2
        NEXUS_Y 0.0 0.0 0.0).1 = B64.nan
    ∧ (acos (((4.0 : B64) - 0.0) / 4.0) + acos (triangleArg (4.0 : B64) 8.0 4.0))
        * (180.0 / 3.141592653589793) ≠ B64.nan := by
  refine ⟨by decide, by decide, ?_, ?_⟩
  · rw [computeAngle_Y_fst]
    exact arcSum_nan_right _ _ _ (by decide)
  · exact arcSum_ne_nan _ _ _ false 8063664102031864 1027 (by decide) (by decide) (by decide)
      (by decide)

set_option maxRecDepth 100000 in
/-- C13, amended: closed form of the untilted pose for node X, in binary64.  For
`xVec = yVec = 0`, every double `zPos` and every geometry whose `geoPlateSpan` is finite and
halves exactly (`geoPlateSpan / 2 * 2 = geoPlateSpan`, true of every finite double but those
with the smallest exponent and an odd significand), the call leaves
`vecLength = L = sqrt ((geoBaseSpan - geoPlateSpan)² + zPos²)` and returns
`(acos ((geoBaseSpan - geoPlateSpan) / L) + acos ((L² + linkPrimary² - linkSecondary²)
/ (2·L·linkPrimary)))` multiplied by the factor `180.0 / 3.141592653589793` of line 80, each
operation being the double operation. -/
theorem untilted_closed_form_X (r : CelestialRig) (g : Globals B64) (zPos : B64)
    (hz : B64.IsDouble zPos) (hfin : B64.IsFinite g.geoPlateSpan)
    (hhalf : g.geoPlateSpan / 2.0 * 2.0 = g.geoPlateSpan) :
    (r.computeAngle g NEXUS_X zPos 0.0 0.0).2.vecLength
        = sqrt ((g.geoBaseSpan - g.geoPlateSpan) * (g.geoBaseSpan - g.geoPlateSpan)
            + zPos * zPos)
    ∧ (r.computeAngle g NEXUS_X zPos 0.0 0.0).1
        = (acos ((g.geoBaseSpan - g.geoPlateSpan)
              / sqrt ((g.geoBaseSpan - g.geoPlateSpan) * (g.geoBaseSpan - g.geoPlateSpan)
                  + zPos * zPos))
            + acos (triangleArg
                (sqrt ((g.geoBaseSpan - g.geoPlateSpan) * (g.geoBaseSpan - g.geoPlateSpan)
                  + zPos * zPos))
                g.linkPrimary g.linkSecondary))
          * (180.0 / 3.141592653589793) := by
  have hY : (r.computeAngle g NEXUS_X zPos 0.0 0.0).2.coordY
      = g.geoBaseSpan - g.geoPlateSpan := by
    have h1 : (r.computeAngle g NEXUS_X zPos 0.0 0.0).2.coordY
        = B64.add g.geoBaseSpan
            (B64.mul (B64.div g.geoPlateSpan (B64.fin false 4503599627370496 1023))
              (B64.neg (B64.fin false 4503599627370496 1023))) := rfl
    have h2 : B64.mul (B64.div g.geoPlateSpan (B64.fin false 4503599627370496 1023))
        (B64.fin false 4503599627370496 1023) = g.geoPlateSpan := hhalf
    rw [h1, B64.mul_neg_right, h2]
    rfl
  have hZ : (r.computeAngle g NEXUS_X zPos 0.0 0.0).2.coordZ
        * (r.computeAngle g NEXUS_X zPos 0.0 0.0).2.coordZ = zPos * zPos := by
    have h1 : (r.computeAngle g NEXUS_X zPos 0.0 0.0).2.coordZ
        = B64.add zPos (B64.mul g.geoPlateSpan (B64.fin false 0 0)) := rfl
    rw [h1]
    cases hP : g.geoPlateSpan with
    | nan => rw [hP] at hfin; exact absurd hfin id
    | inf s => rw [hP] at hfin; exact absurd hfin id
    | fin s m e =>
      have h2 : B64.mul (B64.fin s m e) (B64.fin false 0 0) = B64.fin (xor s false) 0 0 := by
        rw [B64.mul_fin_fin]
        simp only [Nat.mul_zero, if_true]
      rw [h2]
      exact B64.mul_self_add_zero_of_isDouble zPos _ hz
  have hL : (r.computeAngle g NEXUS_X zPos 0.0 0.0).2.vecLength
      = sqrt ((g.geoBaseSpan - g.geoPlateSpan) * (g.geoBaseSpan - g.geoPlateSpan)
          + zPos * zPos) := by
    rw [computeAngle_X_vecLength, hY, hZ]
  refine ⟨hL, ?_⟩
  rw [computeAngle_X_fst, hL, hY]
  rfl

set_option maxRecDepth 100000 in
/-- Witness for the amended C13: geometry (4, 1, 6, 3) at height 4, node X: `L = 5` and the
call returns `(acos (3/5) + acos ((25 + 36 - 9) / 60)) · (180.0 / 3.141592653589793)` in
doubles, the arc-cosine arguments being 0.6 and 0.8666666666666667. -/
theorem untilted_closed_form_X_witness :
    B64.IsDouble (4.0 : B64) ∧ B64.IsFinite (1.0 : B64) ∧ (1.0 : B64) / 2.0 * 2.0 = 1.0
    ∧ (CelestialRig.mk.computeAngle
          (CelestialRig.new (4.0 : B64) 1.0 6.0 3.0 Globals.init).2
          NEXUS_X 4.0 0.0 0.0).2.vecLength = 5.0
    ∧ (CelestialRig.mk.computeAngle
          (CelestialRig.new (4.0 : B64) 1.0 6.0 3.0 Globals.init).2
          NEXUS_X 4.0 0.0 0.0).1
        = (acos ((3.0 : B64) / 5.0) + acos (triangleArg (5.0 : B64) 6.0 3.0))
          * (180.0 / 3.141592653589793) := by
  have h := untilted_closed_form_X CelestialRig.mk
    (CelestialRig.new (4.0 : B64) 1.0 6.0 3.0 Globals.init).2 4.0 (by decide) (by decide)
    (by decide)
  have e1 : (sqrt (((4.0 : B64) - 1.0) * (4.0 - 1.0) + 4.0 * 4.0) : B64) = 5.0 := by decide
  have e2 : ((4.0 : B64) - 1.0) = 3.0 := by decide
  refine ⟨by decide, by decide, by decide, h.1.trans e1, h.2.trans ?_⟩
  show (acos (((4.0 : B64) - 1.0) / sqrt (((4.0 : B64) - 1.0) * (4.0 - 1.0) + 4.0 * 4.0))
      + acos (triangleArg (sqrt (((4.0 : B64) - 1.0) * (4.0 - 1.0) + 4.0 * 4.0)) 6.0 3.0))
        * (180.0 / 3.141592653589793) = _
  rw [e1, e2]

/-- C14: for a node value outside `{0, 1, 2}` no case of the `switch` runs: `computeAngle`
leaves `arcResult` as it was and returns that stale `arcResult` times the degree factor.  The
result does not depend on `zPos`, `xVec`, `yVec`; it repeats the value returned by the previous
call, and it is `0.0` times the degree factor when no call preceded (zero-initialised globals,
which the constructor does not touch).  Holds for every arithmetic `α`. -/
theorem invalid_node_returns_stale_arcResult {α : Type} [DoubleArith α] (r : CelestialRig)
    (g : Globals α) (node : Nat) (zPos xVec yVec : α) (hnode : 3 ≤ node) :
    (r.computeAngle g node zPos xVec yVec).1 = g.arcResult * (180.0 / 3.141592653589793)
    ∧ (r.computeAngle g node zPos xVec yVec).2.arcResult = g.arcResult
    ∧ (∀ z' x' y' : α,
        (r.computeAngle g node z' x' y').1 = (r.computeAngle g node zPos xVec yVec).1)
    ∧ (∀ (r₀ : CelestialRig) (g₀ : Globals α) (n₀ : Nat) (z₀ x₀ y₀ : α),
        (r.computeAngle (r₀.computeAngle g₀ n₀ z₀ x₀ y₀).2 node zPos xVec yVec).1
          = (r₀.computeAngle g₀ n₀ z₀ x₀ y₀).1)
    ∧ (∀ v1 v2 v3 v4 : α,
        (r.computeAngle (CelestialRig.new v1 v2 v3 v4 Globals.init).2 node zPos xVec yVec).1
          = 0.0 * (180.0 / 3.141592653589793)) := by
  obtain ⟨k, rfl⟩ : ∃ k, node = k + 3 := ⟨node - 3, by omega⟩
  exact ⟨rfl, rfl, fun _ _ _ => rfl, fun _ _ _ _ _ _ => rfl, fun _ _ _ _ => rfl⟩

/-- Witness for C14: node value 3 on the freshly initialised state returns 0. -/
theorem invalid_node_returns_stale_arcResult_witness :
    3 ≤ 3
    ∧ (CelestialRig.mk.computeAngle (Globals.init : Globals RVal) 3 (fin 150) (fin 1) (fin 2)).1
        = fin 0 :=
  ⟨le_refl 3,
    (invalid_node_returns_stale_arcResult CelestialRig.mk (Globals.init : Globals RVal) 3
      (fin 150) (fin 1) (fin 2) (le_refl 3)).1.trans
      (by norm_num [Globals.init, fin_div_fin])⟩

set_option maxRecDepth 100000 in
/-- C15, as stated, fails in binary64.  With geometry (50.3, 5, 80, 120), `zPos = 0` and no
tilt, nodes Y and Z leave the non-zero `vecLength = 45.29999999999999`; their elevation
arguments `(√3·coordX + coordY) / (-2·vecLength)` and `(√3·coordX - coordY) / (2·vecLength)`
are both 1.0000000000000002, outside `[-1, 1]`, while the law-of-cosines argument (about
-0.82) is inside, and both calls return NaN: the out-of-domain arc-cosine is the elevation
term.  For node X the same happens only when the square of `coordY` underflows: with
`geoBaseSpan = (2^52 + 1)·2^(-589)` (about 2.2e-162), the other lengths 0, `zPos = 0` and no
tilt, `coordY` is `geoBaseSpan`, `vecLength` is `2^(-537)`, not zero, and `coordY / vecLength`
is 1.0000000000000002. -/
theorem elevation_argument_out_of_range_in_binary64 :
    ((CelestialRig.mk.computeAngle
        (CelestialRig.new (50.3 : B64) 5.0 80.0 120.0 Globals.init).2
        NEXUS_Y 0.0 0.0 0.0).2.vecLength = B64.fin false 6375408222496357 1027
    ∧ (sqrt 3.0 * (CelestialRig.mk.computeAngle
            (CelestialRig.new (50.3 : B64) 5.0 80.0 120.0 Globals.init).2
            NEXUS_Y 0.0 0.0 0.0).2.coordX
          + (CelestialRig.mk.computeAngle
            (CelestialRig.new (50.3 : B64) 5.0 80.0 120.0 Globals.init).2
            NEXUS_Y 0.0 0.0 0.0).2.coordY)
        / (-2.0 * (CelestialRig.mk.computeAngle
            (CelestialRig.new (50.3 : B64) 5.0 80.0 120.0 Globals.init).2
            NEXUS_Y 0.0 0.0 0.0).2.vecLength) = B64.fin false 4503599627370497 1022
    ∧ B64.lt 1.0 (B64.fin false 4503599627370497 1022) = true
    ∧ B64.inUnit (triangleArg (CelestialRig.mk.computeAngle
            (CelestialRig.new (50.3 : B64) 5.0 80.0 120.0 Globals.init).2
            NEXUS_Y 0.0 0.0 0.0).2.vecLength 80.0 120.0) = true
    ∧ (CelestialRig.mk.computeAngle
        (CelestialRig.new (50.3 : B64) 5.0 80.0 120.0 Globals.init).2
        NEXUS_Y 0.0 0.0 0.0).1 = B64.nan)
    ∧ ((CelestialRig.mk.computeAngle
        (CelestialRig.new (50.3 : B64) 5.0 80.0 120.0 Globals.init).2
        NEXUS_Z 0.0 0.0 0.0).2.vecLength = B64.fin false 6375408222496357 1027
    ∧ (sqrt 3.0 * (CelestialRig.mk.computeAngle
            (CelestialRig.new (50.3 : B64) 5.0 80.0 120.0 Globals.init).2
            NEXUS_Z 0.0 0.0 0.0).2.coordX
          - (CelestialRig.mk.computeAngle
            (CelestialRig.new (50.3 : B64) 5.0 80.0 120.0 Globals.init).2
            NEXUS_Z 0.0 0.0 0.0).2.coordY)
        / (2.0 * (CelestialRig.mk.computeAngle
            (CelestialRig.new (50.3 : B64) 5.0 80.0 120.0 Globals.init).2
            NEXUS_Z 0.0 0.0 0.0).2.vecLength) = B64.fin false 4503599627370497 1022
    ∧ (CelestialRig.mk.computeAngle
        (CelestialRig.new (50.3 : B64) 5.0 80.0 120.0 Globals.init).2
        NEXUS_Z 0.0 0.0 0.0).1 = B64.nan)
    ∧ ((CelestialRig.mk.computeAngle
        (CelestialRig.new (B64.fin false 4503599627370497 485) 0.0 0.0 0.0 Globals.init).2
        NEXUS_X 0.0 0.0 0.0).2.coordY = B64.fin false 4503599627370497 485
    ∧ (CelestialRig.mk.computeAngle
        (CelestialRig.new (B64.fin false 4503599627370497 485) 0.0 0.0 0.0 Globals.init).2
        NEXUS_X 0.0 0.0 0.0).2.vecLength = B64.fin false 4503599627370496 485
    ∧ (CelestialRig.mk.computeAngle
        (CelestialRig.new (B64.fin false 4503599627370497 485) 0.0 0.0 0.0 Globals.init).2
        NEXUS_X 0.0 0.0 0.0).2.coordY
        / (CelestialRig.mk.computeAngle
          (CelestialRig.new (B64.fin false 4503599627370497 485) 0.0 0.0 0.0 Globals.init).2
          NEXUS_X 0.0 0.0 0.0).2.vecLength = B64.fin false 4503599627370497 1022
    ∧ (CelestialRig.mk.computeAngle
        (CelestialRig.new (B64.fin false 4503599627370497 485) 0.0 0.0 0.0 Globals.init).2
        NEXUS_X 0.0 0.0 0.0).1 = B64.nan) := by
  refine ⟨⟨by decide, by decide, by decide, by decide, ?_⟩, ⟨by decide, by decide, ?_⟩,
    ⟨by decide, by decide, by decide, ?_⟩⟩
  · rw [computeAngle_Y_fst]
    exact arcSum_nan_left _ _ _ (by decide)
  · rw [computeAngle_Z_fst]
    exact arcSum_nan_left _ _ _ (by decide)
  · rw [computeAngle_X_fst]
    exact arcSum_nan_left _ _ _ (by decide)

/-- C15, amended: in binary64, for node X, every geometry and every pose given as doubles:
whenever the `vecLength` the call computes is positive (a non-zero number or `+∞`) and the
`coordY` it computes is a zero or a number of magnitude at least `2^(-511)` (so that its square
does not underflow), the elevation argument `coordY / vecLength` lies in `[-1, 1]` and the first
arc-cosine yields a number; the call then returns NaN only if the law-of-cosines argument is
outside `[-1, 1]`. -/
theorem elevation_argument_in_range_X (r : CelestialRig) (g : Globals B64)
    (zPos xVec yVec : B64) (s : Bool) (m e : Nat)
    (hG : B64.IsDouble g.geoBaseSpan) (hP : B64.IsDouble g.geoPlateSpan)
    (hz : B64.IsDouble zPos) (hx : B64.IsDouble xVec) (hy : B64.IsDouble yVec)
    (hY : (r.computeAngle g NEXUS_X zPos xVec yVec).2.coordY = B64.fin s m e)
    (hm : m = 0 ∨ (4503599627370496 ≤ m ∧ 511 ≤ e))
    (hL : B64.lt 0.0 (r.computeAngle g NEXUS_X zPos xVec yVec).2.vecLength = true) :
    B64.inUnit ((r.computeAngle g NEXUS_X zPos xVec yVec).2.coordY
        / (r.computeAngle g NEXUS_X zPos xVec yVec).2.vecLength) = true
    ∧ (∃ ma ea, acos ((r.computeAngle g NEXUS_X zPos xVec yVec).2.coordY
        / (r.computeAngle g NEXUS_X zPos xVec yVec).2.vecLength) = B64.fin false ma ea)
    ∧ ((r.computeAngle g NEXUS_X zPos xVec yVec).1 = B64.nan →
        B64.inUnit (triangleArg (r.computeAngle g NEXUS_X zPos xVec yVec).2.vecLength
          g.linkPrimary g.linkSecondary) = false) := by
  obtain ⟨hdY, hdZ⟩ := caseX_coords_isDouble r g zPos xVec yVec hG hP hz hx hy
  have hq : B64.inUnit ((r.computeAngle g NEXUS_X zPos xVec yVec).2.coordY
      / (r.computeAngle g NEXUS_X zPos xVec yVec).2.vecLength) = true := by
    rw [computeAngle_X_vecLength] at hL ⊢
    rw [hY] at hdY hL ⊢
    exact B64.elevation_core s m e _ hdY hdZ hm hL
  refine ⟨hq, acos_in_domain hq, ?_⟩
  intro hnan
  by_contra hin
  rw [Bool.not_eq_false] at hin
  rw [computeAngle_X_fst] at hnan
  exact arcSum_ne_nan _ _ _ false 8063664102031864 1027 hq hin (by decide) (by decide) hnan

set_option maxRecDepth 100000 in
/-- Witness for the amended C15: geometry (50.3, 5, 80, 120), `zPos = 0`, no tilt, node X:
`coordY` and `vecLength` are both 45.3 and the elevation argument is exactly 1.0. -/
theorem elevation_argument_in_range_X_witness :
    B64.IsDouble (50.3 : B64) ∧ B64.IsDouble (5.0 : B64) ∧ B64.IsDouble (0.0 : B64)
    ∧ (CelestialRig.mk.computeAngle
        (CelestialRig.new (50.3 : B64) 5.0 80.0 120.0 Globals.init).2
        NEXUS_X 0.0 0.0 0.0).2.coordY = B64.fin false 6375408222496358 1027
    ∧ B64.lt 0.0 (CelestialRig.mk.computeAngle
        (CelestialRig.new (50.3 : B64) 5.0 80.0 120.0 Globals.init).2
        NEXUS_X 0.0 0.0 0.0).2.vecLength = true
    ∧ B64.inUnit ((CelestialRig.mk.computeAngle
          (CelestialRig.new (50.3 : B64) 5.0 80.0 120.0 Globals.init).2
          NEXUS_X 0.0 0.0 0.0).2.coordY
        / (CelestialRig.mk.computeAngle
          (CelestialRig.new (50.3 : B64) 5.0 80.0 120.0 Globals.init).2
          NEXUS_X 0.0 0.0 0.0).2.vecLength) = true :=
  ⟨by decide, by decide, by decide, by decide, by decide,
    (elevation_argument_in_range_X CelestialRig.mk
      (CelestialRig.new (50.3 : B64) 5.0 80.0 120.0 Globals.init).2 0.0 0.0 0.0
      false 6375408222496358 1027 (by decide) (by decide) (by decide) (by decide) (by decide)
      (by decide) (Or.inr (by decide)) (by decide)).1⟩

/-- C16: for every real tilt with `xVec² + yVec² ≤ 1` both denominators of the `coordY`
expression of line 53 are strictly positive real numbers, `(vecNormZ + 1)·(vecNormZ + 1 -
normX²) > 0` and `vecNormZ + 1 - normX² + (normX⁴ - 3·normX²·normY²) / ((vecNormZ + 1)·
(vecNormZ + 1 - normX²)) > 0`, so for real `geoBaseSpan`, `geoPlateSpan` node X computes
`coordY` as a real number, without a division by zero. -/
theorem coordY_denominators_positive (x y : ℝ) (h : x ^ 2 + y ^ 2 ≤ 1) :
    ∃ nX nY nZ d1 d2 : ℝ,
      (normalizeVec (fin x) (fin y)).2 = (fin nX, fin nY, fin nZ)
      ∧ (fin nZ + 1.0) * (fin nZ + 1.0 - fin nX * fin nX) = fin d1 ∧ 0 < d1
      ∧ fin nZ + 1.0 - fin nX * fin nX
          + (fin nX * fin nX * fin nX * fin nX - 3.0 * fin nX * fin nX * fin nY * fin nY)
            / ((fin nZ + 1.0) * (fin nZ + 1.0 - fin nX * fin nX)) = fin d2
      ∧ 0 < d2
      ∧ ∀ (r : CelestialRig) (g : Globals RVal) (G P : ℝ) (l1 l2 zPos : RVal),
          ∃ cY : ℝ,
            (r.computeAngle (CelestialRig.new (fin G) (fin P) l1 l2 g).2 NEXUS_X zPos
              (fin x) (fin y)).2.coordY = fin cY := by
  obtain ⟨hI, hD⟩ := xDen_pos_of_norm_sq_le_half (x / mag x y) (y / mag x y) (1 / mag x y)
    (normZ_pos x y) (norm_sq_le_half x y h)
  obtain ⟨e1, e2⟩ := line53_denominators_fin (x / mag x y) (y / mag x y) (1 / mag x y) hI.ne'
  refine ⟨x / mag x y, y / mag x y, 1 / mag x y, _, _, ?_, e1, hI, e2, hD, ?_⟩
  · rw [normalizeVec_fin]
  · intro r g G P l1 l2 zPos
    refine ⟨xCoordY G P (x / mag x y) (y / mag x y) (1 / mag x y), ?_⟩
    show (caseX _ zPos _ _).coordY = _
    rw [normalizeVec_fin]
    exact caseX_coordY_fin _ zPos G P _ _ _ rfl rfl rfl hI.ne' hD.ne'

/-- Witness for C16 at the tilt `(0, 3/4)`. -/
theorem coordY_denominators_positive_witness :
    (0 : ℝ) ^ 2 + (3 / 4) ^ 2 ≤ 1
    ∧ ∃ nX nY nZ d1 d2 : ℝ,
      (normalizeVec (fin 0) (fin (3 / 4))).2 = (fin nX, fin nY, fin nZ)
      ∧ (fin nZ + 1.0) * (fin nZ + 1.0 - fin nX * fin nX) = fin d1 ∧ 0 < d1
      ∧ fin nZ + 1.0 - fin nX * fin nX
          + (fin nX * fin nX * fin nX * fin nX - 3.0 * fin nX * fin nX * fin nY * fin nY)
            / ((fin nZ + 1.0) * (fin nZ + 1.0 - fin nX * fin nX)) = fin d2
      ∧ 0 < d2
      ∧ ∀ (r : CelestialRig) (g : Globals RVal) (G P : ℝ) (l1 l2 zPos : RVal),
          ∃ cY : ℝ,
            (r.computeAngle (CelestialRig.new (fin G) (fin P) l1 l2 g).2 NEXUS_X zPos
              (fin 0) (fin (3 / 4))).2.coordY = fin cY :=
  ⟨by norm_num, coordY_denominators_positive 0 (3 / 4) (by norm_num)⟩

/-- C17: node X is invariant under mirroring the tilt in X, for every geometry, `zPos`, `xVec`
and `yVec`. -/
theorem branch_X_invariant_under_negated_xVec (r : CelestialRig) (g : Globals RVal)
    (zPos xVec yVec : RVal) :
    (r.computeAngle g NEXUS_X zPos (-xVec) yVec).1
      = (r.computeAngle g NEXUS_X zPos xVec yVec).1 := by
  rw [computeAngle_X_eq, computeAngle_X_eq]
  exact denoteX_neg _ _ _ _ _ _ _

end InverseKinematics
